import Mathlib

/-!
# chibicc code generator (`codegen.c`)

A shallow embedding of `codegen.c`: the emitter state (`depth`, the static
counter of `count`, `current_fn`, standard output, the `offset` field of the
variable records) is passed explicitly, and every function returns either the
state it leaves or the failure that stopped the run together with the state
at that moment.

Conventions of the embedding.

* A pointer is an `Option`; `NULL` is `none`.  Reading a field through `NULL`
  stops the run with `Err.null_deref`.
* A list linked through `next` is a `List`.
* `int` values are `Int`; an operation whose result leaves the range of `int`
  is undefined in C and stops the run with `Err.int_overflow`.  The one
  exception is the expression of `align_to`: its sum, difference and product
  are computed on 32 bits and wrap around, which is what the compiled code
  does, so that a sum `n + align` one past `INT_MAX` is followed by the `- 1`
  that brings it back.
* `printf (fmt, args...)` appends one `Line` holding the format string and
  its arguments.  Every format string of `codegen.c` ends in a newline and
  has no other, so one `Line` is one line of output.
* `error_tok` does not return; it stops the run with `Err.error_tok`.
* Reading `argreg[i]` with `i` past the table is undefined in C and stops the
  run with `Err.out_of_bounds`.  The counter `nargs` of a call is a `Nat`: a
  run with more than six arguments stops at that read.
* Two lines are the same line when their format strings and their arguments
  are the same; `Line.text` gives the characters written.  A line is a line
  of `push` or of `pop` when it has the format string of the `printf` in
  `push` or in `pop`, which no other `printf` of `codegen.c` has.
-/

namespace Chibicc

/-! ## Data model -/

/-- Modelled from the spec: the enumeration `NodeKind` is declared in
`chibicc.h`, which is not among the sources.  The constructors are the kinds
that `codegen.c` names together with the closed set of kinds of the data
model of the specification. -/
inductive NodeKind where
  | ND_ADD | ND_SUB | ND_MUL | ND_DIV | ND_NEG
  | ND_EQ | ND_NE | ND_LT | ND_LE
  | ND_ASSIGN | ND_ADDR | ND_DEREF
  | ND_RETURN | ND_IF | ND_FOR | ND_BLOCK
  | ND_FUNCALL | ND_EXPR_STMT | ND_VAR | ND_NUM
deriving DecidableEq, Repr

/-- Modelled from the spec: `Token` is declared in `chibicc.h`; the code
generator only hands a token to `error_tok`, so a token is its source
location. -/
abbrev Token := Nat

/-- Modelled from the spec: `Obj` is declared in `chibicc.h`.  The code
generator reads and writes only the `offset` field of a variable record, and
reaches the record through pointers held by nodes and by the `locals` and
`params` lists; a pointer to an `Obj` is the address of the record, and the
`offset` fields live in `St.var_offset`. -/
abbrev ObjPtr := Nat

/-- Modelled from the spec: `struct Node` is declared in `chibicc.h`.  The
fields are the ones `codegen.c` reads.  Child pointers may be `NULL`; the
`next`-linked lists `body` and `args` are lists. -/
inductive Node where
  | mk (kind : NodeKind) (tok : Token)
      (lhs rhs cond then_ els init inc : Option Node)
      (body args : List Node)
      (funcname : String) (var : Option ObjPtr) (val : Int)

namespace Node

def kind : Node → NodeKind
  | mk k _ _ _ _ _ _ _ _ _ _ _ _ _ => k

def tok : Node → Token
  | mk _ t _ _ _ _ _ _ _ _ _ _ _ _ => t

def lhs : Node → Option Node
  | mk _ _ l _ _ _ _ _ _ _ _ _ _ _ => l

def rhs : Node → Option Node
  | mk _ _ _ r _ _ _ _ _ _ _ _ _ _ => r

def cond : Node → Option Node
  | mk _ _ _ _ c _ _ _ _ _ _ _ _ _ => c

def then_ : Node → Option Node
  | mk _ _ _ _ _ t _ _ _ _ _ _ _ _ => t

def els : Node → Option Node
  | mk _ _ _ _ _ _ e _ _ _ _ _ _ _ => e

def init : Node → Option Node
  | mk _ _ _ _ _ _ _ i _ _ _ _ _ _ => i

def inc : Node → Option Node
  | mk _ _ _ _ _ _ _ _ i _ _ _ _ _ => i

def body : Node → List Node
  | mk _ _ _ _ _ _ _ _ _ b _ _ _ _ => b

def args : Node → List Node
  | mk _ _ _ _ _ _ _ _ _ _ a _ _ _ => a

def funcname : Node → String
  | mk _ _ _ _ _ _ _ _ _ _ _ f _ _ => f

def var : Node → Option ObjPtr
  | mk _ _ _ _ _ _ _ _ _ _ _ _ v _ => v

def val : Node → Int
  | mk _ _ _ _ _ _ _ _ _ _ _ _ _ v => v

end Node

/-- Modelled from the spec: `struct Function` is declared in `chibicc.h`.
The fields are the ones `codegen.c` reads and writes; the `next`-linked list
of functions is a `List Function`. -/
structure Function where
  name : String
  params : List ObjPtr
  body : Option Node
  locals : List ObjPtr
  stack_size : Int

/-- One argument of a `printf` call. -/
inductive Arg where
  | int (v : Int)
  | str (t : String)
deriving DecidableEq, Repr

/-- One call of `printf`: the format string and the arguments. -/
structure Line where
  fmt : String
  args : List Arg
deriving DecidableEq, Repr

/-- The characters `printf` writes for a format and its arguments (`%d` and
`%s` are the only conversions `codegen.c` uses). -/
def format : List Char → List Arg → List Char
  | '%' :: 'd' :: cs, Arg.int v :: rest => (toString v).data ++ format cs rest
  | '%' :: 's' :: cs, Arg.str t :: rest => t.data ++ format cs rest
  | c :: cs, rest => c :: format cs rest
  | [], _ => []

/-- The text of one output line. -/
def Line.text (l : Line) : String := String.mk (format l.fmt.data l.args)

/-- Why a run stopped. -/
inductive Err where
  /-- The call `error_tok (tok, msg)`. -/
  | error_tok (tok : Token) (msg : String)
  /-- The failure of `assert (depth == 0)`. -/
  | assert_fail
  /-- A field was read through `NULL`. -/
  | null_deref
  /-- The result of an `int` operation is out of range. -/
  | int_overflow
  /-- The entry `argreg[i]` was read with `i` past the six entries. -/
  | out_of_bounds (i : Nat)
deriving DecidableEq, Repr

/-- The process state `codegen.c` works on. -/
structure St where
  /-- The global `depth`. -/
  depth : Int
  /-- The `static int i` of `count`. -/
  i : Int
  /-- The global `current_fn`. -/
  current_fn : Option Function
  /-- Standard output, one entry per `printf` call. -/
  out : List Line
  /-- The `offset` field of every variable record. -/
  var_offset : ObjPtr → Int

/-- The state at program start: the globals are zero, `i` is 1, nothing has
been printed; `mem` is the content of the `offset` fields. -/
def St.start (mem : ObjPtr → Int) : St :=
  { depth := 0, i := 1, current_fn := none, out := [], var_offset := mem }

/-- Outcome of running a piece of the code generator from a state. -/
inductive Res (α : Type) where
  | ok (a : α) (s : St)
  | fail (e : Err) (s : St)

def Res.bind {α β : Type} (r : Res α) (f : α → St → Res β) : Res β :=
  match r with
  | Res.ok a s => f a s
  | Res.fail e s => Res.fail e s

def INT_MAX : Int := 2147483647

def INT_MIN : Int := -2147483648

/-- The value of an `int` operation: undefined when out of range. -/
def int_chk (v : Int) : Option Int :=
  if INT_MIN ≤ v ∧ v ≤ INT_MAX then some v else none

/-- A value brought into the range of `int` by wrap-around on 32 bits. -/
def wrap32 (v : Int) : Int := (v + 2147483648) % 4294967296 - 2147483648

/-! ## The code generator -/

def argreg : List String := ["rdi", "rsi", "rdx", "rcx", "r8", "r9"]

def printf (fmt : String) (args : List Arg) (s : St) : Res Unit :=
  Res.ok () { s with out := s.out ++ [Line.mk fmt args] }

/-- `static int i = 1; return i++;` -/
def count (s : St) : Res Int :=
  match int_chk (s.i + 1) with
  | some j => Res.ok s.i { s with i := j }
  | none => Res.fail Err.int_overflow s

def push (s : St) : Res Unit :=
  (printf "push rax\n" [] s).bind fun _ s =>
  match int_chk (s.depth + 1) with
  | some d => Res.ok () { s with depth := d }
  | none => Res.fail Err.int_overflow s

def pop (arg : String) (s : St) : Res Unit :=
  (printf "pop %s\n" [Arg.str arg] s).bind fun _ s =>
  match int_chk (s.depth - 1) with
  | some d => Res.ok () { s with depth := d }
  | none => Res.fail Err.int_overflow s

/-- `(n + align - 1) / align * align` on `int`, from left to right.  The sum,
the difference and the product wrap around on 32 bits; the division is
undefined for the divisor 0 and when the quotient leaves the range of `int`
(`INT_MIN / -1`). -/
def align_to (n align : Int) : Option Int :=
  if align = 0 then none else
  (int_chk (Int.tdiv (wrap32 (wrap32 (n + align) - 1)) align)).bind fun c =>
  some (wrap32 (c * align))

/-- The second loop of the `ND_FUNCALL` case:
`for (int i = nargs - 1; i >= 0; i--) pop(argreg[i]);` with `nargs` the
argument of `pop_args`. -/
def pop_args : Nat → St → Res Unit
  | 0, s => Res.ok () s
  | i + 1, s =>
    match argreg[i]? with
    | none => Res.fail (Err.out_of_bounds i) s
    | some r => (pop r s).bind fun _ s => pop_args i s

mutual

/-- Compute the absolute address of a given node. -/
def gen_addr (node : Option Node) (s : St) : Res Unit :=
  match node with
  | none => Res.fail Err.null_deref s
  | some n =>
    match n.kind with
    | NodeKind.ND_VAR =>
      match n.var with
      | none => Res.fail Err.null_deref s
      | some v => printf "lea $_%d, rax\n" [Arg.int (s.var_offset v)] s
    | NodeKind.ND_DEREF => gen_expr n.lhs s
    | _ => Res.fail (Err.error_tok n.tok "Not an lvalue") s
termination_by (sizeOf node, 0)
decreasing_by
  have h : sizeOf n.lhs < sizeOf n := by cases n; simp [Node.lhs]; omega
  simp_wf
  left; omega

/-- Generate code for a given node. -/
def gen_expr (node : Option Node) (s : St) : Res Unit :=
  match node with
  | none => Res.fail Err.null_deref s
  | some n =>
    match n.kind with
    | NodeKind.ND_NUM => printf "mov $%d, rax\n" [Arg.int n.val] s
    | NodeKind.ND_NEG =>
      (gen_expr n.lhs s).bind fun _ s =>
      printf "neg rax\n" [] s
    | NodeKind.ND_VAR =>
      (gen_addr (some n) s).bind fun _ s =>
      printf "mov (rax), rax\n" [] s
    | NodeKind.ND_DEREF =>
      (gen_expr n.lhs s).bind fun _ s =>
      printf "mov (rax), rax\n" [] s
    | NodeKind.ND_ADDR => gen_addr n.lhs s
    | NodeKind.ND_ASSIGN =>
      (gen_addr n.lhs s).bind fun _ s =>
      (push s).bind fun _ s =>
      (gen_expr n.rhs s).bind fun _ s =>
      (pop "rdi" s).bind fun _ s =>
      printf "mov rax, (rdi)\n" [] s
    | NodeKind.ND_FUNCALL =>
      (gen_args n.args 0 s).bind fun nargs s =>
      (pop_args nargs s).bind fun _ s =>
      (printf "mov $0, rax\n" [] s).bind fun _ s =>
      printf "call .L.%s\n" [Arg.str n.funcname] s
    | k =>
      (gen_expr n.rhs s).bind fun _ s =>
      (push s).bind fun _ s =>
      (gen_expr n.lhs s).bind fun _ s =>
      (pop "rdi" s).bind fun _ s =>
      match k with
      | NodeKind.ND_ADD => printf "add rdi, rax\n" [] s
      | NodeKind.ND_SUB => printf "sub rdi, rax\n" [] s
      | NodeKind.ND_MUL => printf "imul rdi, rax\n" [] s
      | NodeKind.ND_DIV =>
        (printf "cqo\n" [] s).bind fun _ s =>
        printf "idiv rdi, rax\n" [] s
      | NodeKind.ND_EQ =>
        (printf "cmp rdi, rax\n" [] s).bind fun _ s =>
        (printf "sete al\n" [] s).bind fun _ s =>
        printf "movzb al, rax\n" [] s
      | NodeKind.ND_NE =>
        (printf "cmp rdi, rax\n" [] s).bind fun _ s =>
        (printf "setne al\n" [] s).bind fun _ s =>
        printf "movzb al, rax\n" [] s
      | NodeKind.ND_LT =>
        (printf "cmp rdi, rax\n" [] s).bind fun _ s =>
        (printf "setl al\n" [] s).bind fun _ s =>
        printf "movzb al, rax\n" [] s
      | NodeKind.ND_LE =>
        (printf "cmp rdi, rax\n" [] s).bind fun _ s =>
        (printf "setle al\n" [] s).bind fun _ s =>
        printf "movzb al, rax\n" [] s
      | _ => Res.fail (Err.error_tok n.tok "Invalid expression") s
termination_by (sizeOf node, 1)
decreasing_by
  all_goals simp_wf
  all_goals
    have h1 : sizeOf n.lhs < sizeOf n := by cases n; simp [Node.lhs]; omega
    have h2 : sizeOf n.rhs < sizeOf n := by cases n; simp [Node.rhs]; omega
    have h3 : sizeOf n.args < sizeOf n := by cases n; simp [Node.args]; omega
    first
      | (left; omega)
      | (right; omega)

/-- The first loop of the `ND_FUNCALL` case, entered with the current value
of `nargs`; the result is the value of `nargs` after the loop:
`for (Node *arg = node->args; arg; arg = arg->next) { gen_expr(arg); push(); nargs++; }` -/
def gen_args (args : List Node) (nargs : Nat) (s : St) : Res Nat :=
  match args with
  | [] => Res.ok nargs s
  | arg :: rest =>
    (gen_expr (some arg) s).bind fun _ s =>
    (push s).bind fun _ s =>
    gen_args rest (nargs + 1) s
termination_by (sizeOf args, 0)
decreasing_by
  all_goals simp_wf
  · left
    have : 0 < sizeOf rest := by cases rest <;> simp
    omega
  · left; omega

end

mutual

def gen_stmt (node : Option Node) (s : St) : Res Unit :=
  match node with
  | none => Res.fail Err.null_deref s
  | some n =>
    match n.kind with
    | NodeKind.ND_IF =>
      (count s).bind fun c s =>
      (gen_expr n.cond s).bind fun _ s =>
      (printf "cmp $0, rax\n" [] s).bind fun _ s =>
      (printf "je .L.else_%d\n" [Arg.int c] s).bind fun _ s =>
      (gen_stmt n.then_ s).bind fun _ s =>
      (printf "jmp .L.end_%d\n" [Arg.int c] s).bind fun _ s =>
      (printf ".L.else_%d:\n" [Arg.int c] s).bind fun _ s =>
      (if n.els.isSome then gen_stmt n.els s else Res.ok () s).bind fun _ s =>
      printf ".L.end_%d:\n" [Arg.int c] s
    | NodeKind.ND_FOR =>
      (count s).bind fun c s =>
      (if n.init.isSome then gen_stmt n.init s else Res.ok () s).bind fun _ s =>
      (printf ".L.begin_%d:\n" [Arg.int c] s).bind fun _ s =>
      (if n.cond.isSome then
        (gen_expr n.cond s).bind fun _ s =>
        (printf "cmp $0, rax\n" [] s).bind fun _ s =>
        printf "je .L.end_%d\n" [Arg.int c] s
      else Res.ok () s).bind fun _ s =>
      (gen_stmt n.then_ s).bind fun _ s =>
      (if n.inc.isSome then gen_expr n.inc s else Res.ok () s).bind fun _ s =>
      (printf "jmp .L.begin_%d\n" [Arg.int c] s).bind fun _ s =>
      printf ".L.end_%d:\n" [Arg.int c] s
    | NodeKind.ND_BLOCK => gen_block n.body s
    | NodeKind.ND_RETURN =>
      (gen_expr n.lhs s).bind fun _ s =>
      match s.current_fn with
      | none => Res.fail Err.null_deref s
      | some fn => printf "jmp .L.return_%s\n" [Arg.str fn.name] s
    | NodeKind.ND_EXPR_STMT => gen_expr n.lhs s
    | _ => Res.fail (Err.error_tok n.tok "Invalid statement") s
termination_by sizeOf node
decreasing_by
  all_goals simp_wf
  all_goals
    have h1 : sizeOf n.then_ < sizeOf n := by cases n; simp [Node.then_]; omega
    have h2 : sizeOf n.els < sizeOf n := by cases n; simp [Node.els]; omega
    have h3 : sizeOf n.init < sizeOf n := by cases n; simp [Node.init]; omega
    have h4 : sizeOf n.body < sizeOf n := by cases n; simp [Node.body]; omega
    omega

/-- The loop of the `ND_BLOCK` case:
`for (Node *n = node->body; n; n = n->next) gen_stmt(n);` -/
def gen_block (body : List Node) (s : St) : Res Unit :=
  match body with
  | [] => Res.ok () s
  | n :: rest =>
    (gen_stmt (some n) s).bind fun _ s =>
    gen_block rest s
termination_by sizeOf body
decreasing_by
  all_goals simp_wf
  all_goals
    have : 0 < sizeOf rest := by cases rest <;> simp
    omega

end

/-- The inner loop of `assign_lvar_offsets`, entered with the current value
of `offset`; the result is the value of `offset` after the loop:
`for (Obj *var = fn->locals; var; var = var->next) { offset += 8; var->offset = offset; }` -/
def assign_locals (locals : List ObjPtr) (offset : Int) (s : St) : Res Int :=
  match locals with
  | [] => Res.ok offset s
  | var :: rest =>
    match int_chk (offset + 8) with
    | none => Res.fail Err.int_overflow s
    | some offset =>
      assign_locals rest offset
        { s with var_offset := fun p => if p = var then offset else s.var_offset p }

/-- Assign offsets to local variables.  The result is the list of functions
with `stack_size` written. -/
def assign_lvar_offsets (prog : List Function) (s : St) : Res (List Function) :=
  match prog with
  | [] => Res.ok [] s
  | fn :: rest =>
    (assign_locals fn.locals 0 s).bind fun offset s =>
    match align_to offset 16 with
    | none => Res.fail Err.int_overflow s
    | some size =>
      (assign_lvar_offsets rest s).bind fun rest s =>
      Res.ok ({ fn with stack_size := size } :: rest) s

/-- The parameter loop of `codegen`, entered with the current value of `i`:
`for (Obj *var = fn->params; var; var = var->next) printf("mov %s, $_%d\n", argreg[i++], var->offset);` -/
def save_params (params : List ObjPtr) (i : Nat) (s : St) : Res Unit :=
  match params with
  | [] => Res.ok () s
  | var :: rest =>
    match argreg[i]? with
    | none => Res.fail (Err.out_of_bounds i) s
    | some r =>
      (printf "mov %s, $_%d\n" [Arg.str r, Arg.int (s.var_offset var)] s).bind fun _ s =>
      save_params rest (i + 1) s

/-- The loop of `codegen` over the functions. -/
def codegen_fns (prog : List Function) (s : St) : Res Unit :=
  match prog with
  | [] => Res.ok () s
  | fn :: rest =>
    (printf ".L.%s:\n" [Arg.str fn.name] s).bind fun _ s =>
    (Res.ok () { s with current_fn := some fn }).bind fun _ s =>
    (printf "push rbp\n" [] s).bind fun _ s =>
    (printf "mov rsp, rbp\n" [] s).bind fun _ s =>
    (printf "sub $%d, rsp\n" [Arg.int fn.stack_size] s).bind fun _ s =>
    (save_params fn.params 0 s).bind fun _ s =>
    (gen_stmt fn.body s).bind fun _ s =>
    (if s.depth = 0 then Res.ok () s else Res.fail Err.assert_fail s).bind fun _ s =>
    (printf ".L.return_%s:\n" [Arg.str fn.name] s).bind fun _ s =>
    (printf "mov rbp, rsp\n" [] s).bind fun _ s =>
    (printf "pop rbp\n" [] s).bind fun _ s =>
    (printf "ret\n" [] s).bind fun _ s =>
    codegen_fns rest s

def codegen (prog : List Function) (s : St) : Res Unit :=
  (assign_lvar_offsets prog s).bind fun prog s =>
  codegen_fns prog s

/-! ## Building nodes -/

def new_num (val : Int) (tok : Token) : Node :=
  Node.mk NodeKind.ND_NUM tok none none none none none none none [] [] "" none val

def new_unary (kind : NodeKind) (expr : Node) (tok : Token) : Node :=
  Node.mk kind tok (some expr) none none none none none none [] [] "" none 0

def new_binary (kind : NodeKind) (lhs rhs : Node) (tok : Token) : Node :=
  Node.mk kind tok (some lhs) (some rhs) none none none none none [] [] "" none 0

def new_var_node (var : ObjPtr) (tok : Token) : Node :=
  Node.mk NodeKind.ND_VAR tok none none none none none none none [] [] "" (some var) 0

def new_funcall (funcname : String) (args : List Node) (tok : Token) : Node :=
  Node.mk NodeKind.ND_FUNCALL tok none none none none none none none [] args funcname none 0

def new_if (cond then_ : Node) (els : Option Node) (tok : Token) : Node :=
  Node.mk NodeKind.ND_IF tok none none (some cond) (some then_) els none none [] [] "" none 0

def new_for (init cond inc : Option Node) (body : Node) (tok : Token) : Node :=
  Node.mk NodeKind.ND_FOR tok none none cond (some body) none init inc [] [] "" none 0

def new_block (body : List Node) (tok : Token) : Node :=
  Node.mk NodeKind.ND_BLOCK tok none none none none none none none body [] "" none 0

/-- The lines a result has printed. -/
def Res.out {α : Type} : Res α → List Line
  | Res.ok _ s => s.out
  | Res.fail _ s => s.out

/-! ## Step-bounded copies of the generators

The generators recurse on the size of the tree, which the kernel does not
evaluate.  The copies below recurse on a bound `fuel` on the number of nested
calls and are otherwise the same text; `gen_expr_f_eq`, `gen_stmt_f_eq` and
`codegen_f_eq` show that with enough fuel they are the generators.  They
serve to evaluate the generators on concrete inputs. -/

mutual

def gen_addr_f (fuel : Nat) (node : Option Node) (s : St) : Res Unit :=
  match fuel with
  | 0 => Res.fail Err.null_deref s
  | fuel + 1 =>
  match node with
  | none => Res.fail Err.null_deref s
  | some n =>
    match n.kind with
    | NodeKind.ND_VAR =>
      match n.var with
      | none => Res.fail Err.null_deref s
      | some v => printf "lea $_%d, rax\n" [Arg.int (s.var_offset v)] s
    | NodeKind.ND_DEREF => gen_expr_f fuel n.lhs s
    | _ => Res.fail (Err.error_tok n.tok "Not an lvalue") s

def gen_expr_f (fuel : Nat) (node : Option Node) (s : St) : Res Unit :=
  match fuel with
  | 0 => Res.fail Err.null_deref s
  | fuel + 1 =>
  match node with
  | none => Res.fail Err.null_deref s
  | some n =>
    match n.kind with
    | NodeKind.ND_NUM => printf "mov $%d, rax\n" [Arg.int n.val] s
    | NodeKind.ND_NEG =>
      (gen_expr_f fuel n.lhs s).bind fun _ s =>
      printf "neg rax\n" [] s
    | NodeKind.ND_VAR =>
      (gen_addr_f fuel (some n) s).bind fun _ s =>
      printf "mov (rax), rax\n" [] s
    | NodeKind.ND_DEREF =>
      (gen_expr_f fuel n.lhs s).bind fun _ s =>
      printf "mov (rax), rax\n" [] s
    | NodeKind.ND_ADDR => gen_addr_f fuel n.lhs s
    | NodeKind.ND_ASSIGN =>
      (gen_addr_f fuel n.lhs s).bind fun _ s =>
      (push s).bind fun _ s =>
      (gen_expr_f fuel n.rhs s).bind fun _ s =>
      (pop "rdi" s).bind fun _ s =>
      printf "mov rax, (rdi)\n" [] s
    | NodeKind.ND_FUNCALL =>
      (gen_args_f fuel n.args 0 s).bind fun nargs s =>
      (pop_args nargs s).bind fun _ s =>
      (printf "mov $0, rax\n" [] s).bind fun _ s =>
      printf "call .L.%s\n" [Arg.str n.funcname] s
    | k =>
      (gen_expr_f fuel n.rhs s).bind fun _ s =>
      (push s).bind fun _ s =>
      (gen_expr_f fuel n.lhs s).bind fun _ s =>
      (pop "rdi" s).bind fun _ s =>
      match k with
      | NodeKind.ND_ADD => printf "add rdi, rax\n" [] s
      | NodeKind.ND_SUB => printf "sub rdi, rax\n" [] s
      | NodeKind.ND_MUL => printf "imul rdi, rax\n" [] s
      | NodeKind.ND_DIV =>
        (printf "cqo\n" [] s).bind fun _ s =>
        printf "idiv rdi, rax\n" [] s
      | NodeKind.ND_EQ =>
        (printf "cmp rdi, rax\n" [] s).bind fun _ s =>
        (printf "sete al\n" [] s).bind fun _ s =>
        printf "movzb al, rax\n" [] s
      | NodeKind.ND_NE =>
        (printf "cmp rdi, rax\n" [] s).bind fun _ s =>
        (printf "setne al\n" [] s).bind fun _ s =>
        printf "movzb al, rax\n" [] s
      | NodeKind.ND_LT =>
        (printf "cmp rdi, rax\n" [] s).bind fun _ s =>
        (printf "setl al\n" [] s).bind fun _ s =>
        printf "movzb al, rax\n" [] s
      | NodeKind.ND_LE =>
        (printf "cmp rdi, rax\n" [] s).bind fun _ s =>
        (printf "setle al\n" [] s).bind fun _ s =>
        printf "movzb al, rax\n" [] s
      | _ => Res.fail (Err.error_tok n.tok "Invalid expression") s

def gen_args_f (fuel : Nat) (args : List Node) (nargs : Nat) (s : St) : Res Nat :=
  match fuel with
  | 0 => Res.fail Err.null_deref s
  | fuel + 1 =>
  match args with
  | [] => Res.ok nargs s
  | arg :: rest =>
    (gen_expr_f fuel (some arg) s).bind fun _ s =>
    (push s).bind fun _ s =>
    gen_args_f fuel rest (nargs + 1) s

end

mutual

def gen_stmt_f (fuel : Nat) (node : Option Node) (s : St) : Res Unit :=
  match fuel with
  | 0 => Res.fail Err.null_deref s
  | fuel + 1 =>
  match node with
  | none => Res.fail Err.null_deref s
  | some n =>
    match n.kind with
    | NodeKind.ND_IF =>
      (count s).bind fun c s =>
      (gen_expr_f fuel n.cond s).bind fun _ s =>
      (printf "cmp $0, rax\n" [] s).bind fun _ s =>
      (printf "je .L.else_%d\n" [Arg.int c] s).bind fun _ s =>
      (gen_stmt_f fuel n.then_ s).bind fun _ s =>
      (printf "jmp .L.end_%d\n" [Arg.int c] s).bind fun _ s =>
      (printf ".L.else_%d:\n" [Arg.int c] s).bind fun _ s =>
      (if n.els.isSome then gen_stmt_f fuel n.els s else Res.ok () s).bind fun _ s =>
      printf ".L.end_%d:\n" [Arg.int c] s
    | NodeKind.ND_FOR =>
      (count s).bind fun c s =>
      (if n.init.isSome then gen_stmt_f fuel n.init s else Res.ok () s).bind fun _ s =>
      (printf ".L.begin_%d:\n" [Arg.int c] s).bind fun _ s =>
      (if n.cond.isSome then
        (gen_expr_f fuel n.cond s).bind fun _ s =>
        (printf "cmp $0, rax\n" [] s).bind fun _ s =>
        printf "je .L.end_%d\n" [Arg.int c] s
      else Res.ok () s).bind fun _ s =>
      (gen_stmt_f fuel n.then_ s).bind fun _ s =>
      (if n.inc.isSome then gen_expr_f fuel n.inc s else Res.ok () s).bind fun _ s =>
      (printf "jmp .L.begin_%d\n" [Arg.int c] s).bind fun _ s =>
      printf ".L.end_%d:\n" [Arg.int c] s
    | NodeKind.ND_BLOCK => gen_block_f fuel n.body s
    | NodeKind.ND_RETURN =>
      (gen_expr_f fuel n.lhs s).bind fun _ s =>
      match s.current_fn with
      | none => Res.fail Err.null_deref s
      | some fn => printf "jmp .L.return_%s\n" [Arg.str fn.name] s
    | NodeKind.ND_EXPR_STMT => gen_expr_f fuel n.lhs s
    | _ => Res.fail (Err.error_tok n.tok "Invalid statement") s

def gen_block_f (fuel : Nat) (body : List Node) (s : St) : Res Unit :=
  match fuel with
  | 0 => Res.fail Err.null_deref s
  | fuel + 1 =>
  match body with
  | [] => Res.ok () s
  | n :: rest =>
    (gen_stmt_f fuel (some n) s).bind fun _ s =>
    gen_block_f fuel rest s

end

/-- The loop of `codegen` over the functions, with `gen_stmt_f`. -/
def codegen_fns_f (fuel : Nat) (prog : List Function) (s : St) : Res Unit :=
  match prog with
  | [] => Res.ok () s
  | fn :: rest =>
    (printf ".L.%s:\n" [Arg.str fn.name] s).bind fun _ s =>
    (Res.ok () { s with current_fn := some fn }).bind fun _ s =>
    (printf "push rbp\n" [] s).bind fun _ s =>
    (printf "mov rsp, rbp\n" [] s).bind fun _ s =>
    (printf "sub $%d, rsp\n" [Arg.int fn.stack_size] s).bind fun _ s =>
    (save_params fn.params 0 s).bind fun _ s =>
    (gen_stmt_f fuel fn.body s).bind fun _ s =>
    (if s.depth = 0 then Res.ok () s else Res.fail Err.assert_fail s).bind fun _ s =>
    (printf ".L.return_%s:\n" [Arg.str fn.name] s).bind fun _ s =>
    (printf "mov rbp, rsp\n" [] s).bind fun _ s =>
    (printf "pop rbp\n" [] s).bind fun _ s =>
    (printf "ret\n" [] s).bind fun _ s =>
    codegen_fns_f fuel rest s

/-- The function `codegen`, with `codegen_fns_f`. -/
def codegen_f (fuel : Nat) (prog : List Function) (s : St) : Res Unit :=
  (assign_lvar_offsets prog s).bind fun prog s =>
  codegen_fns_f fuel prog s

/-! ## Notions used to state the properties -/

/-- The run completed. -/
def Res.is_ok {α : Type} : Res α → Bool
  | Res.ok _ _ => true
  | Res.fail _ _ => false

/-- The state in which the run ended. -/
def Res.state {α : Type} : Res α → St
  | Res.ok _ s => s
  | Res.fail _ s => s

/-- The state after the lines `ls` have been printed. -/
def St.emit (s : St) (ls : List Line) : St := { s with out := s.out ++ ls }

/-- The state after `depth` has been set to `d`. -/
def St.set_depth (s : St) (d : Int) : St := { s with depth := d }

/-- The line printed by `push`. -/
def push_line : Line := Line.mk "push rax\n" []

/-- The line printed by `pop (r)`. -/
def pop_line (r : String) : Line := Line.mk "pop %s\n" [Arg.str r]

/-- The text of the line is `push rax`. -/
def Line.is_push (l : Line) : Bool := decide (l.text = "push rax\n")

/-- The text of the line starts with `pop` and a blank: a `pop <reg>` line. -/
def Line.is_pop (l : Line) : Bool := decide (l.text.data.take 4 = ['p', 'o', 'p', ' '])

/-- Lines in which every `pop <reg>` line closes the nearest open `push rax`
line before it, and every `push rax` line is closed. -/
inductive Balanced : List Line → Prop where
  | nil : Balanced []
  | plain (l : Line) : l.is_push = false → l.is_pop = false → Balanced [l]
  | append (a b : List Line) : Balanced a → Balanced b → Balanced (a ++ b)
  | wrap (a : List Line) (r : String) : Balanced a → Balanced (push_line :: a ++ [pop_line r])

/-- The lines `gen_addr` and `gen_expr` print with `printf` themselves (the
lines of `push` and `pop` apart). -/
inductive ExprLine : Line → Prop where
  | mov_imm (v : Int) : ExprLine (Line.mk "mov $%d, rax\n" [Arg.int v])
  | neg : ExprLine (Line.mk "neg rax\n" [])
  | load : ExprLine (Line.mk "mov (rax), rax\n" [])
  | lea (v : Int) : ExprLine (Line.mk "lea $_%d, rax\n" [Arg.int v])
  | store : ExprLine (Line.mk "mov rax, (rdi)\n" [])
  | mov_zero : ExprLine (Line.mk "mov $0, rax\n" [])
  | call (f : String) : ExprLine (Line.mk "call .L.%s\n" [Arg.str f])
  | add : ExprLine (Line.mk "add rdi, rax\n" [])
  | sub : ExprLine (Line.mk "sub rdi, rax\n" [])
  | imul : ExprLine (Line.mk "imul rdi, rax\n" [])
  | cqo : ExprLine (Line.mk "cqo\n" [])
  | idiv : ExprLine (Line.mk "idiv rdi, rax\n" [])
  | cmp : ExprLine (Line.mk "cmp rdi, rax\n" [])
  | sete : ExprLine (Line.mk "sete al\n" [])
  | setne : ExprLine (Line.mk "setne al\n" [])
  | setl : ExprLine (Line.mk "setl al\n" [])
  | setle : ExprLine (Line.mk "setle al\n" [])
  | movzb : ExprLine (Line.mk "movzb al, rax\n" [])

/-- The shape of the lines of a run of `gen_expr`: lines of its own, and
stretches opened by the line of `push` and closed by the line of `pop` into
a register of `argreg`. -/
inductive ExprCode : List Line → Prop where
  | nil : ExprCode []
  | line (l : Line) : ExprLine l → ExprCode [l]
  | append (a b : List Line) : ExprCode a → ExprCode b → ExprCode (a ++ b)
  | wrap (a : List Line) (r : String) : r ∈ argreg → ExprCode a →
      ExprCode (push_line :: a ++ [pop_line r])

/-- Lines printed on a successful run of `gen_addr` and of `gen_expr`. -/
def ExprOk (node : Option Node) : Prop :=
  (∀ s s', gen_addr node s = Res.ok () s' → ∃ ls, s' = s.emit ls ∧ ExprCode ls) ∧
  (∀ s s', gen_expr node s = Res.ok () s' → ∃ ls, s' = s.emit ls ∧ ExprCode ls)

/-- The memory in which every `offset` field is zero. -/
def mem0 : ObjPtr → Int := fun _ => 0

/-- The line `cmp $0, rax`. -/
def cmp_zero_line : Line := Line.mk "cmp $0, rax\n" []

/-- The line `je .L.else_c`. -/
def je_else_line (c : Int) : Line := Line.mk "je .L.else_%d\n" [Arg.int c]

/-- The line `jmp .L.end_c`. -/
def jmp_end_line (c : Int) : Line := Line.mk "jmp .L.end_%d\n" [Arg.int c]

/-- The label definition `.L.else_c:`. -/
def else_label (c : Int) : Line := Line.mk ".L.else_%d:\n" [Arg.int c]

/-- The label definition `.L.end_c:`. -/
def end_label (c : Int) : Line := Line.mk ".L.end_%d:\n" [Arg.int c]

/-- The label definition `.L.begin_c:`. -/
def begin_label (c : Int) : Line := Line.mk ".L.begin_%d:\n" [Arg.int c]

/-- The line `je .L.end_c`. -/
def je_end_line (c : Int) : Line := Line.mk "je .L.end_%d\n" [Arg.int c]

/-- The line `jmp .L.begin_c`. -/
def jmp_begin_line (c : Int) : Line := Line.mk "jmp .L.begin_%d\n" [Arg.int c]

/-- The line `jmp .L.return_name`. -/
def jmp_return_line (name : String) : Line := Line.mk "jmp .L.return_%s\n" [Arg.str name]

/-- The state after the counter of `count` has been set to `j`. -/
def St.set_i (s : St) (j : Int) : St := { s with i := j }

/-- The shape of the lines of a run of `gen_stmt` inside the function named
`fname`, which finds the counter of `count` at `i` and leaves it at `j`. -/
inductive StmtCode (fname : Option String) : Int → Int → List Line → Prop where
  | nil (i : Int) : StmtCode fname i i []
  | expr (i : Int) (ls : List Line) : ExprCode ls → StmtCode fname i i ls
  | ret (i : Int) (ls : List Line) (f : String) : fname = some f → ExprCode ls →
      StmtCode fname i i (ls ++ [jmp_return_line f])
  | seq (i j k : Int) (a b : List Line) : StmtCode fname i j a → StmtCode fname j k b →
      StmtCode fname i k (a ++ b)
  | if_ (i j k : Int) (c t e : List Line) : ExprCode c → StmtCode fname (i + 1) j t →
      StmtCode fname j k e →
      StmtCode fname i k (c ++ [cmp_zero_line, je_else_line i] ++ t ++
        [jmp_end_line i, else_label i] ++ e ++ [end_label i])
  | for_ (i j k : Int) (ini cnd body inc : List Line) : StmtCode fname (i + 1) j ini →
      (cnd = [] ∨ ∃ c, ExprCode c ∧ cnd = c ++ [cmp_zero_line, je_end_line i]) →
      StmtCode fname j k body → ExprCode inc →
      StmtCode fname i k (ini ++ [begin_label i] ++ cnd ++ body ++ inc ++
        [jmp_begin_line i, end_label i])

mutual

/-- The number of `if` and `for` nodes `gen_stmt` reaches from a node. -/
def if_for_nodes (node : Option Node) : Nat :=
  match node with
  | none => 0
  | some n =>
    match n.kind with
    | NodeKind.ND_IF => 1 + if_for_nodes n.then_ + if_for_nodes n.els
    | NodeKind.ND_FOR => 1 + if_for_nodes n.init + if_for_nodes n.then_
    | NodeKind.ND_BLOCK => if_for_nodes_block n.body
    | _ => 0
termination_by sizeOf node
decreasing_by
  all_goals simp_wf
  all_goals
    have h1 : sizeOf n.then_ < sizeOf n := by cases n; simp [Node.then_]; omega
    have h2 : sizeOf n.els < sizeOf n := by cases n; simp [Node.els]; omega
    have h3 : sizeOf n.init < sizeOf n := by cases n; simp [Node.init]; omega
    have h4 : sizeOf n.body < sizeOf n := by cases n; simp [Node.body]; omega
    omega

/-- The number of `if` and `for` nodes `gen_stmt` reaches from the statements
of a block. -/
def if_for_nodes_block (body : List Node) : Nat :=
  match body with
  | [] => 0
  | n :: rest => if_for_nodes (some n) + if_for_nodes_block rest
termination_by sizeOf body
decreasing_by
  all_goals simp_wf
  all_goals
    have : 0 < sizeOf rest := by cases rest <;> simp
    omega

end

/-- What a successful run of `gen_stmt` leaves. -/
def StmtOk (node : Option Node) : Prop :=
  ∀ s s', gen_stmt node s = Res.ok () s' →
    ∃ ls, s' = (s.emit ls).set_i (s.i + if_for_nodes node) ∧
      StmtCode (s.current_fn.map Function.name) s.i (s.i + if_for_nodes node) ls

/-- The run does not stop with the failure `e0`. -/
def Res.never {α : Type} (e0 : Err) (r : Res α) : Prop := ∀ s', r ≠ Res.fail e0 s'

/-- Neither `gen_addr` nor `gen_expr` stops with a failed assertion. -/
def ExprNever (node : Option Node) : Prop :=
  (∀ s, (gen_addr node s).never Err.assert_fail) ∧
  (∀ s, (gen_expr node s).never Err.assert_fail)

/-- The lines of the parameter loop of `codegen` for the parameters `params`,
the first of which takes the register `argreg[i]`; `mem` holds the `offset`
fields. -/
def param_lines (mem : ObjPtr → Int) : List ObjPtr → Nat → List Line
  | [], _ => []
  | var :: rest, i =>
    Line.mk "mov %s, $_%d\n" [Arg.str (argreg.getD i ""), Arg.int (mem var)] ::
      param_lines mem rest (i + 1)

/-- The lines `codegen` prints for a function before the parameter loop. -/
def fn_prologue (fn : Function) : List Line :=
  [Line.mk ".L.%s:\n" [Arg.str fn.name], Line.mk "push rbp\n" [], Line.mk "mov rsp, rbp\n" [],
   Line.mk "sub $%d, rsp\n" [Arg.int fn.stack_size]]

/-- The lines `codegen` prints for a function after its body. -/
def fn_epilogue (fn : Function) : List Line :=
  [Line.mk ".L.return_%s:\n" [Arg.str fn.name], Line.mk "mov rbp, rsp\n" [],
   Line.mk "pop rbp\n" [], Line.mk "ret\n" []]

/-- The shape of the lines of the loop of `codegen` over the functions
`prog`, which finds the counter of `count` at `i` and leaves it at `j`. -/
inductive ProgCode (mem : ObjPtr → Int) : List Function → Int → Int → List Line → Prop where
  | nil (i : Int) : ProgCode mem [] i i []
  | cons (fn : Function) (rest : List Function) (i j k : Int) (body tail : List Line) :
      fn.params.length ≤ 6 → StmtCode (some fn.name) i j body → ProgCode mem rest j k tail →
      ProgCode mem (fn :: rest) i k
        (fn_prologue fn ++ param_lines mem fn.params 0 ++ body ++ fn_epilogue fn ++ tail)

/-- The number of `if` and `for` nodes `gen_stmt` reaches in the bodies of
the functions of a program. -/
def prog_if_for_nodes : List Function → Nat
  | [] => 0
  | fn :: rest => if_for_nodes fn.body + prog_if_for_nodes rest

/-- What `assign_lvar_offsets` does to one function: it writes `stack_size`
and nothing else; where eight times the number of locals and sixteen more
fit an `int`, `stack_size` is a multiple of 16 that is at least eight times
the number of locals and less than sixteen more. -/
def Laid (fn fn' : Function) : Prop :=
  fn' = { fn with stack_size := fn'.stack_size } ∧
    (8 * (fn.locals.length : Int) + 16 ≤ INT_MAX →
      16 ∣ fn'.stack_size ∧ 8 * (fn.locals.length : Int) ≤ fn'.stack_size ∧
      fn'.stack_size < 8 * (fn.locals.length : Int) + 16)

/-- All the records of the locals lists of a program, in order. -/
def all_locals (prog : List Function) : List ObjPtr :=
  (prog.map Function.locals).flatten

/-- A machine with the registers `rax` and `rdi` and a stack of 64-bit
values. -/
structure Machine where
  rax : Int
  rdi : Int
  stack : List Int

/-- A value as 64 bits. -/
def wrap64 (v : Int) : Int := v % 18446744073709551616

/-- What one line does to the machine; `none` for a line that is not among
the instructions described, and for a `pop` from the empty stack. -/
def exec_line (l : Line) (m : Machine) : Option Machine :=
  if l.fmt = "mov $%d, rax\n" then
    match l.args with
    | [Arg.int n] => some { m with rax := wrap64 n }
    | _ => none
  else if l = Line.mk "push rax\n" [] then some { m with stack := m.rax :: m.stack }
  else if l = Line.mk "pop %s\n" [Arg.str "rdi"] then
    match m.stack with
    | v :: rest => some { m with rdi := v, stack := rest }
    | [] => none
  else if l = Line.mk "add rdi, rax\n" [] then some { m with rax := wrap64 (m.rax + m.rdi) }
  else if l = Line.mk "sub rdi, rax\n" [] then some { m with rax := wrap64 (m.rax - m.rdi) }
  else if l = Line.mk "imul rdi, rax\n" [] then some { m with rax := wrap64 (m.rax * m.rdi) }
  else if l = Line.mk "neg rax\n" [] then some { m with rax := wrap64 (-m.rax) }
  else none

/-- Run the lines in order. -/
def exec : List Line → Machine → Option Machine
  | [], m => some m
  | l :: ls, m => (exec_line l m).bind (exec ls)

/-- The node is a tree of numeric literals, negations, additions,
subtractions and multiplications, and its value on 64 bits is `v`. -/
inductive Arith : Node → Int → Prop where
  | num (n : Node) : n.kind = NodeKind.ND_NUM → Arith n (wrap64 n.val)
  | neg (n l : Node) (a : Int) : n.kind = NodeKind.ND_NEG → n.lhs = some l → Arith l a →
      Arith n (wrap64 (-a))
  | add (n l r : Node) (a b : Int) : n.kind = NodeKind.ND_ADD → n.lhs = some l →
      n.rhs = some r → Arith l a → Arith r b → Arith n (wrap64 (a + b))
  | sub (n l r : Node) (a b : Int) : n.kind = NodeKind.ND_SUB → n.lhs = some l →
      n.rhs = some r → Arith l a → Arith r b → Arith n (wrap64 (a - b))
  | mul (n l r : Node) (a b : Int) : n.kind = NodeKind.ND_MUL → n.lhs = some l →
      n.rhs = some r → Arith l a → Arith r b → Arith n (wrap64 (a * b))

/-- The lists `codes` are the lines `gen_expr` prints for the arguments
`args`, one after the other, the first from the state `s`: after the code of
each argument the line of `push` is printed and `depth` is one more. -/
def ArgsCode : St → List Node → List (List Line) → Prop
  | _, [], [] => True
  | s, a :: rest, c :: cs =>
    gen_expr (some a) s = Res.ok () (s.emit c) ∧
      ArgsCode ((s.emit (c ++ [push_line])).set_depth (s.depth + 1)) rest cs
  | _, _, _ => False

/-- The lines of the second loop of a call with `n` arguments:
`pop argreg[n-1]`, ..., `pop argreg[0]`. -/
def pop_lines (n : Nat) : List Line := ((argreg.take n).reverse).map pop_line

/-- The formats of the lines that name an `if` or `for` label. -/
def label_fmts : List String :=
  [".L.else_%d:\n", ".L.end_%d:\n", ".L.begin_%d:\n", "je .L.else_%d\n", "jmp .L.end_%d\n",
   "je .L.end_%d\n", "jmp .L.begin_%d\n"]

/-- The line defines or jumps to an `if` or `for` label with the number `c`. -/
def Line.uses (l : Line) (c : Int) : Prop := l.fmt ∈ label_fmts ∧ l.args = [Arg.int c]

/-- The kinds of the binary operators of `gen_expr`. -/
def binary_kinds : List NodeKind :=
  [NodeKind.ND_ADD, NodeKind.ND_SUB, NodeKind.ND_MUL, NodeKind.ND_DIV,
   NodeKind.ND_EQ, NodeKind.ND_NE, NodeKind.ND_LT, NodeKind.ND_LE]

/-- The lines of the operator of a binary node, printed after the operands. -/
def op_lines : NodeKind → List Line
  | NodeKind.ND_ADD => [Line.mk "add rdi, rax\n" []]
  | NodeKind.ND_SUB => [Line.mk "sub rdi, rax\n" []]
  | NodeKind.ND_MUL => [Line.mk "imul rdi, rax\n" []]
  | NodeKind.ND_DIV => [Line.mk "cqo\n" [], Line.mk "idiv rdi, rax\n" []]
  | NodeKind.ND_EQ =>
    [Line.mk "cmp rdi, rax\n" [], Line.mk "sete al\n" [], Line.mk "movzb al, rax\n" []]
  | NodeKind.ND_NE =>
    [Line.mk "cmp rdi, rax\n" [], Line.mk "setne al\n" [], Line.mk "movzb al, rax\n" []]
  | NodeKind.ND_LT =>
    [Line.mk "cmp rdi, rax\n" [], Line.mk "setl al\n" [], Line.mk "movzb al, rax\n" []]
  | NodeKind.ND_LE =>
    [Line.mk "cmp rdi, rax\n" [], Line.mk "setle al\n" [], Line.mk "movzb al, rax\n" []]
  | _ => []

/-- The lines of the parameter loop of `codegen`: the i-th parameter is moved
from `argreg[i]` to its offset; `mem` holds the `offset` fields. -/
def param_moves (mem : ObjPtr → Int) (params : List ObjPtr) : List Line :=
  List.zipWith (fun r var => Line.mk "mov %s, $_%d\n" [Arg.str r, Arg.int (mem var)]) argreg
    params

/-- The lines of one function in the output of `codegen`, `body` being the
lines of `gen_stmt` for the body of the function. -/
def segment (mem : ObjPtr → Int) (fn : Function) (body : List Line) : List Line :=
  [Line.mk ".L.%s:\n" [Arg.str fn.name], Line.mk "push rbp\n" [], Line.mk "mov rsp, rbp\n" [],
    Line.mk "sub $%d, rsp\n" [Arg.int fn.stack_size]] ++
  param_moves mem fn.params ++ body ++
  [Line.mk ".L.return_%s:\n" [Arg.str fn.name], Line.mk "mov rbp, rsp\n" [],
    Line.mk "pop rbp\n" [], Line.mk "ret\n" []]

/-- The state in which `codegen` calls `gen_stmt` on the body of `fn`, `s`
being the state at the start of the iteration of the loop for `fn`. -/
def St.enter (s : St) (fn : Function) : St :=
  { s with
    current_fn := some fn
    out := s.out ++
      ([Line.mk ".L.%s:\n" [Arg.str fn.name], Line.mk "push rbp\n" [],
        Line.mk "mov rsp, rbp\n" [], Line.mk "sub $%d, rsp\n" [Arg.int fn.stack_size]] ++
      param_moves s.var_offset fn.params) }

/-- The state in which `codegen` starts the iteration for the next function,
`t` being the state in which `gen_stmt` left the body of `fn`. -/
def St.leave (t : St) (fn : Function) : St :=
  t.emit [Line.mk ".L.return_%s:\n" [Arg.str fn.name], Line.mk "mov rbp, rsp\n" [],
    Line.mk "pop rbp\n" [], Line.mk "ret\n" []]

/-- The lists `bodies` are the lines `gen_stmt` prints for the bodies of the
functions `prog`, one after the other, in the run of the loop of `codegen`
from the state `s`. -/
def BodiesCode : St → List Function → List (List Line) → Prop
  | _, [], [] => True
  | s, fn :: rest, b :: bs =>
    ∃ t, gen_stmt fn.body (s.enter fn) = Res.ok () t ∧ t.out = (s.enter fn).out ++ b ∧
      BodiesCode (t.leave fn) rest bs
  | _, _, _ => False

/-- The lines that `gen_stmt` prints inside the function named `fname`. -/
inductive StmtLine (fname : Option String) : Line → Prop where
  | expr (l : Line) : ExprLine l → StmtLine fname l
  | push : StmtLine fname push_line
  | pop (r : String) : r ∈ argreg → StmtLine fname (pop_line r)
  | cmp_zero : StmtLine fname cmp_zero_line
  | label (l : Line) (c : Int) : l.uses c → StmtLine fname l
  | ret (f : String) : fname = some f → StmtLine fname (jmp_return_line f)

/-- The line was printed by `push`: no other `printf` of `codegen.c` has the
format of the one in `push`. -/
def Line.by_push (l : Line) : Bool := decide (l.fmt = "push rax\n")

/-- The line was printed by `pop`: no other `printf` of `codegen.c` has the
format of the one in `pop`. -/
def Line.by_pop (l : Line) : Bool := decide (l.fmt = "pop %s\n")

/-- The change of `depth` while the lines were printed: one up for every line
of `push`, one down for every line of `pop`. -/
def depth_change (ls : List Line) : Int :=
  (ls.countP Line.by_push : Int) - (ls.countP Line.by_pop : Int)

/-- The failure that stopped the run, if any. -/
def Res.err {α : Type} : Res α → Option Err
  | Res.ok _ _ => none
  | Res.fail e _ => some e

/-- The outcome `r` of a run from the state `s`, completed or stopped, keeps
track of `depth`: after every line printed so far `depth` has changed by at
least `lo`; a completed run has changed it by `d`; a stopped run leaves
`depth` at `lo` above its start or more, and at its start plus the change of
the lines printed, unless it stopped on the overflow of an `int`. -/
def Tracks (lo d : Int) (s : St) {α : Type} : Res α → Prop
  | Res.ok _ t => ∃ ls, t.out = s.out ++ ls ∧ (∀ k, lo ≤ depth_change (ls.take k)) ∧
      depth_change ls = d ∧ t.depth = s.depth + d
  | Res.fail e t => ∃ ls, t.out = s.out ++ ls ∧ (∀ k, lo ≤ depth_change (ls.take k)) ∧
      s.depth + lo ≤ t.depth ∧ (e ≠ Err.int_overflow → t.depth = s.depth + depth_change ls)

/-- Both `gen_addr` and `gen_expr` keep track of `depth` and change nothing
of it in the end. -/
def ExprTracks (node : Option Node) : Prop :=
  (∀ s, Tracks 0 0 s (gen_addr node s)) ∧ (∀ s, Tracks 0 0 s (gen_expr node s))

/-! ## Example inputs -/

/-- The node of `x = f(1, 2) + 3`, with `x` the variable record 7. -/
def ex_assign : Node :=
  new_binary NodeKind.ND_ASSIGN (new_var_node 7 0)
    (new_binary NodeKind.ND_ADD (new_funcall "f" [new_num 1 4, new_num 2 6] 2) (new_num 3 9) 8) 1

/-- The lines `gen_expr` prints for `ex_assign`. -/
def ex_assign_lines : List Line :=
  [Line.mk "lea $_%d, rax\n" [Arg.int 0], push_line,
   Line.mk "mov $%d, rax\n" [Arg.int 3], push_line,
   Line.mk "mov $%d, rax\n" [Arg.int 1], push_line,
   Line.mk "mov $%d, rax\n" [Arg.int 2], push_line,
   pop_line "rsi", pop_line "rdi",
   Line.mk "mov $0, rax\n" [], Line.mk "call .L.%s\n" [Arg.str "f"],
   pop_line "rdi", Line.mk "add rdi, rax\n" [],
   pop_line "rdi", Line.mk "mov rax, (rdi)\n" []]

/-- The body of `main`: `{ if (x) return 1; for (;;) return f(2); }` with `x`
the variable record 0. -/
def ex_main : Node :=
  new_block
    [new_if (new_var_node 0 2) (new_unary NodeKind.ND_RETURN (new_num 1 4) 3) none 1,
     new_for none none none
       (new_unary NodeKind.ND_RETURN (new_funcall "f" [new_num 2 8] 7) 6) 5]
    0

/-- The body of `f`: `{ return a; }` with `a` the variable record 1. -/
def ex_f : Node :=
  new_block [new_unary NodeKind.ND_RETURN (new_var_node 1 11) 10] 9

/-- A program of two functions, `main ()` with the locals `z`, `y` and `x`
(the variable records 3, 2 and 0) and `f (a)`. -/
def ex_prog : List Function :=
  [{ name := "main", params := [], body := some ex_main, locals := [3, 2, 0], stack_size := 0 },
   { name := "f", params := [1], body := some ex_f, locals := [1], stack_size := 0 }]

/-- The node of `1 + 2 * 3`. -/
def ex_arith : Node :=
  new_binary NodeKind.ND_ADD (new_num 1 0)
    (new_binary NodeKind.ND_MUL (new_num 2 2) (new_num 3 4) 3) 1

/-- The node of the call `f(1, x)` with `x` the variable record 7. -/
def ex_call : Node := new_funcall "f" [new_num 1 2, new_var_node 7 4] 0

/-- The node of `1 < x` with `x` the variable record 7. -/
def ex_less : Node := new_binary NodeKind.ND_LT (new_num 1 0) (new_var_node 7 2) 1

/-- The node of `if (x) 1;` with `x` the variable record 0: no `else`. -/
def ex_if : Node :=
  new_if (new_var_node 0 2) (new_unary NodeKind.ND_EXPR_STMT (new_num 1 4) 3) none 1

/-- The node of `for (;;) 1;`: no init, no condition, no increment. -/
def ex_for : Node :=
  new_for none none none (new_unary NodeKind.ND_EXPR_STMT (new_num 1 2) 1) 0

/-- The node of the body `{ return v; }`. -/
def ex_return (v : Int) : Node :=
  new_block [new_unary NodeKind.ND_RETURN (new_num v 2) 1] 0

/-- A program of two functions with distinct names: `f () { return 1; }` and
`return_f () { return 2; }`. -/
def ex_clash : List Function :=
  [{ name := "f", params := [], body := some (ex_return 1), locals := [], stack_size := 0 },
   { name := "return_f", params := [], body := some (ex_return 2), locals := [],
     stack_size := 0 }]

/-- The node of the call `f(1, 2, 3, 4, 5, 6, 7)`, of seven arguments. -/
def ex_call7 : Node :=
  new_funcall "f" [new_num 1 1, new_num 2 2, new_num 3 3, new_num 4 4, new_num 5 5, new_num 6 6,
    new_num 7 7] 0

/-- The node of the call `f(1)`. -/
def ex_call1 : Node := new_funcall "f" [new_num 1 1] 0

/-- The state after the first loop of the call `f(1)` run at program start. -/
def ex_after_args : St :=
  ((St.start mem0).emit [Line.mk "mov $%d, rax\n" [Arg.int 1], push_line]).set_depth
    ((St.start mem0).depth + 1)

/-! ## Properties -/

/-! ### Induction over a tree of nodes -/

theorem Node.sizeOf_lhs (n : Node) : sizeOf n.lhs < sizeOf n := by
  cases n; simp [Node.lhs]; omega

theorem Node.sizeOf_rhs (n : Node) : sizeOf n.rhs < sizeOf n := by
  cases n; simp [Node.rhs]; omega

theorem Node.sizeOf_cond (n : Node) : sizeOf n.cond < sizeOf n := by
  cases n; simp [Node.cond]; omega

theorem Node.sizeOf_then (n : Node) : sizeOf n.then_ < sizeOf n := by
  cases n; simp [Node.then_]; omega

theorem Node.sizeOf_els (n : Node) : sizeOf n.els < sizeOf n := by
  cases n; simp [Node.els]; omega

theorem Node.sizeOf_init (n : Node) : sizeOf n.init < sizeOf n := by
  cases n; simp [Node.init]; omega

theorem Node.sizeOf_inc (n : Node) : sizeOf n.inc < sizeOf n := by
  cases n; simp [Node.inc]; omega

theorem Node.sizeOf_body (n : Node) : sizeOf n.body < sizeOf n := by
  cases n; simp [Node.body]; omega

theorem Node.sizeOf_args (n : Node) : sizeOf n.args < sizeOf n := by
  cases n; simp [Node.args]; omega

theorem Node.induct_on (P : Option Node → Prop) (hnull : P none)
    (hnode : ∀ n : Node, P n.lhs → P n.rhs → P n.cond → P n.then_ → P n.els →
      P n.init → P n.inc → (∀ a ∈ n.body, P (some a)) → (∀ a ∈ n.args, P (some a)) →
      P (some n)) :
    ∀ node, P node := by
  have key : ∀ (k : Nat) (node : Option Node), sizeOf node < k → P node := by
    intro k
    induction k with
    | zero => intro node h; omega
    | succ k ih =>
      intro node h
      cases node with
      | none => exact hnull
      | some n =>
        have hs : sizeOf (some n) = 1 + sizeOf n := by simp
        have sub : ∀ c : Option Node, sizeOf c < sizeOf n → P c :=
          fun c hc => ih c (by omega)
        have subl : ∀ l : List Node, sizeOf l < sizeOf n → ∀ a ∈ l, P (some a) := by
          intro l hl a ha
          have h1 := List.sizeOf_lt_of_mem ha
          have h2 : sizeOf (some a) = 1 + sizeOf a := by simp
          exact ih (some a) (by omega)
        exact hnode n (sub _ n.sizeOf_lhs) (sub _ n.sizeOf_rhs) (sub _ n.sizeOf_cond)
          (sub _ n.sizeOf_then) (sub _ n.sizeOf_els) (sub _ n.sizeOf_init) (sub _ n.sizeOf_inc)
          (subl _ n.sizeOf_body) (subl _ n.sizeOf_args)
  intro node
  exact key (sizeOf node + 1) node (by omega)

@[simp]
theorem St.emit_nil (s : St) : s.emit [] = s := by
  simp [St.emit]

@[simp]
theorem St.emit_emit (s : St) (a b : List Line) : (s.emit a).emit b = s.emit (a ++ b) := by
  simp [St.emit]

@[simp]
theorem St.emit_depth (s : St) (a : List Line) : (s.emit a).depth = s.depth := rfl
@[simp]
theorem St.emit_i (s : St) (a : List Line) : (s.emit a).i = s.i := rfl
@[simp]
theorem St.emit_current_fn (s : St) (a : List Line) : (s.emit a).current_fn = s.current_fn := rfl
@[simp]
theorem St.emit_var_offset (s : St) (a : List Line) : (s.emit a).var_offset = s.var_offset := rfl
@[simp]
theorem St.emit_out (s : St) (a : List Line) : (s.emit a).out = s.out ++ a := rfl

theorem Res.bind_eq_ok {α β : Type} (r : Res α) (f : α → St → Res β) (b : β) (s' : St) :
    r.bind f = Res.ok b s' ↔ ∃ a s1, r = Res.ok a s1 ∧ f a s1 = Res.ok b s' := by
  cases r with
  | ok a s =>
    constructor
    · intro h; exact ⟨a, s, rfl, h⟩
    · rintro ⟨a1, s1, h1, h⟩
      cases h1
      exact h
  | fail e s =>
    constructor
    · intro h; cases h
    · rintro ⟨a1, s1, h1, h⟩
      cases h1

@[simp]
theorem Res.ok_bind {α β : Type} (a : α) (s : St) (f : α → St → Res β) :
    (Res.ok a s).bind f = f a s := rfl

@[simp]
theorem Res.fail_bind {α β : Type} (e : Err) (s : St) (f : α → St → Res β) :
    (Res.fail e s : Res α).bind f = Res.fail e s := rfl

theorem Res.bind_unit_eq_ok {β : Type} (r : Res Unit) (f : Unit → St → Res β) (b : β)
    (s' : St) :
    r.bind f = Res.ok b s' ↔ ∃ s1, r = Res.ok () s1 ∧ f () s1 = Res.ok b s' := by
  rw [Res.bind_eq_ok]
  constructor
  · rintro ⟨a, s1, h1, h2⟩
    exact ⟨s1, h1, h2⟩
  · rintro ⟨s1, h1, h2⟩
    exact ⟨(), s1, h1, h2⟩

theorem printf_eq (fmt : String) (args : List Arg) (s : St) :
    printf fmt args s = Res.ok () (s.emit [Line.mk fmt args]) := rfl

theorem int_chk_eq_some (v w : Int) :
    int_chk v = some w ↔ (INT_MIN ≤ v ∧ v ≤ INT_MAX) ∧ w = v := by
  unfold int_chk
  split <;> simp_all [eq_comm]

@[simp]
theorem St.set_depth_depth (s : St) (d : Int) : (s.set_depth d).depth = d := rfl
@[simp]
theorem St.set_depth_i (s : St) (d : Int) : (s.set_depth d).i = s.i := rfl
@[simp]
theorem St.set_depth_out (s : St) (d : Int) : (s.set_depth d).out = s.out := rfl
@[simp]
theorem St.set_depth_current_fn (s : St) (d : Int) : (s.set_depth d).current_fn = s.current_fn := rfl
@[simp]
theorem St.set_depth_var_offset (s : St) (d : Int) : (s.set_depth d).var_offset = s.var_offset := rfl
@[simp]
theorem St.set_depth_set_depth (s : St) (d e : Int) : (s.set_depth d).set_depth e = s.set_depth e := rfl
@[simp]
theorem St.set_depth_emit (s : St) (d : Int) (a : List Line) : (s.set_depth d).emit a = (s.emit a).set_depth d := rfl
theorem push_eq_ok (s s' : St) (u : Unit) :
    push s = Res.ok u s' ↔
      (INT_MIN ≤ s.depth + 1 ∧ s.depth + 1 ≤ INT_MAX) ∧
      s' = (s.emit [push_line]).set_depth (s.depth + 1) := by
  unfold push
  simp only [printf_eq, Res.bind, St.emit_depth]
  cases h : int_chk (s.depth + 1) with
  | none =>
    simp only [false_iff, not_and, reduceCtorEq]
    intro h1
    have := (int_chk_eq_some (s.depth + 1) (s.depth + 1)).2 ⟨h1, rfl⟩
    simp_all
  | some d =>
    rw [int_chk_eq_some] at h
    obtain ⟨h1, rfl⟩ := h
    simp [h1, eq_comm, St.set_depth, push_line]

theorem pop_eq_ok (r : String) (s s' : St) (u : Unit) :
    pop r s = Res.ok u s' ↔
      (INT_MIN ≤ s.depth - 1 ∧ s.depth - 1 ≤ INT_MAX) ∧
      s' = (s.emit [pop_line r]).set_depth (s.depth - 1) := by
  unfold pop
  simp only [printf_eq, Res.bind, St.emit_depth]
  cases h : int_chk (s.depth - 1) with
  | none =>
    simp only [false_iff, not_and, reduceCtorEq]
    intro h1
    have := (int_chk_eq_some (s.depth - 1) (s.depth - 1)).2 ⟨h1, rfl⟩
    simp_all
  | some d =>
    rw [int_chk_eq_some] at h
    obtain ⟨h1, rfl⟩ := h
    simp [h1, eq_comm, St.set_depth, pop_line]

/-! ### Shape of the output of `gen_expr` -/

theorem pop_args_zero (s : St) : pop_args 0 s = Res.ok () s := by
  simp [pop_args]

theorem pop_args_succ_eq_ok (i : Nat) (s s' : St) (u : Unit) :
    pop_args (i + 1) s = Res.ok u s' ↔
      ∃ r s1, argreg[i]? = some r ∧ pop r s = Res.ok () s1 ∧ pop_args i s1 = Res.ok u s' := by
  rw [pop_args]
  cases h : argreg[i]? with
  | none => simp
  | some r => simp [Res.bind_unit_eq_ok]

theorem gen_args_pop_args (args : List Node) (ih : ∀ a ∈ args, ExprOk (some a)) :
    ∀ (k n : Nat) (s s1 s2 : St), gen_args args k s = Res.ok n s1 →
      pop_args n s1 = Res.ok () s2 →
      ∃ ls, ExprCode ls ∧ pop_args k (s.emit ls) = Res.ok () s2 := by
  induction args with
  | nil =>
    intro k n s s1 s2 h1 h2
    rw [gen_args] at h1
    cases h1
    exact ⟨[], ExprCode.nil, by simpa using h2⟩
  | cons a rest ihr =>
    intro k n s s1 s2 h1 h2
    rw [gen_args] at h1
    simp only [Res.bind_unit_eq_ok, push_eq_ok] at h1
    obtain ⟨t1, ha, t2, ⟨hd, rfl⟩, hrest⟩ := h1
    obtain ⟨la, rfl, hla⟩ := (ih a (List.mem_cons_self _ _)).2 s t1 ha
    obtain ⟨lr, hlr, hp⟩ := ihr (fun b hb => ih b (List.mem_cons_of_mem _ hb)) _ _ _ _ _ hrest h2
    rw [pop_args_succ_eq_ok] at hp
    obtain ⟨r, t3, hr, hpop, hp⟩ := hp
    rw [pop_eq_ok] at hpop
    obtain ⟨_, rfl⟩ := hpop
    refine ⟨la ++ (push_line :: lr ++ [pop_line r]),
      ExprCode.append _ _ hla (ExprCode.wrap _ _ (List.getElem?_mem hr) hlr), ?_⟩
    convert hp using 2
    simp [St.set_depth, St.emit]

theorem ExprCode.snoc (a : List Line) (l : Line) (ha : ExprCode a) (hl : ExprLine l) :
    ExprCode (a ++ [l]) :=
  ExprCode.append _ _ ha (ExprCode.line l hl)

/-- The code of a binary operator before the operator's own lines. -/
theorem ExprCode.operands (a b : List Line) (ha : ExprCode a) (hb : ExprCode b) :
    ExprCode (a ++ push_line :: b ++ [pop_line "rdi"]) := by
  have := ExprCode.append _ _ ha (ExprCode.wrap b "rdi" (by decide) hb)
  simpa using this

theorem exprOk_all : ∀ node, ExprOk node := by
  apply Node.induct_on
  · constructor <;> intro s s' h
    · rw [gen_addr] at h; cases h
    · rw [gen_expr] at h; cases h
  · intro n hl hr _ _ _ _ _ _ ha
    have haddr : ∀ s s', gen_addr (some n) s = Res.ok () s' → ∃ ls, s' = s.emit ls ∧ ExprCode ls := by
      intro s s' h
      rw [gen_addr] at h
      cases hk : n.kind <;> simp only [hk] at h
      case ND_VAR =>
        cases hv : n.var <;> simp only [hv] at h
        · cases h
        · rw [printf_eq] at h
          cases h
          exact ⟨_, rfl, ExprCode.line _ (ExprLine.lea _)⟩
      case ND_DEREF => exact hl.2 s s' h
      all_goals cases h
    refine ⟨haddr, ?_⟩
    intro s s' h
    rw [gen_expr] at h
    have bin : ∀ (tail : List Line), ExprCode tail →
        ((gen_expr n.rhs s).bind fun _ s => (push s).bind fun _ s =>
          (gen_expr n.lhs s).bind fun _ s => (pop "rdi" s).bind fun _ s =>
            Res.ok () (s.emit tail)) = Res.ok () s' → ∃ ls, s' = s.emit ls ∧ ExprCode ls := by
      intro tail ht h
      simp only [Res.bind_unit_eq_ok, push_eq_ok, pop_eq_ok] at h
      obtain ⟨t1, h1, t2, ⟨_, rfl⟩, t3, h3, t4, ⟨_, rfl⟩, h5⟩ := h
      obtain ⟨l1, rfl, c1⟩ := hr.2 _ _ h1
      obtain ⟨l3, rfl, c3⟩ := hl.2 _ _ h3
      cases h5
      refine ⟨(l1 ++ push_line :: l3 ++ [pop_line "rdi"]) ++ tail,
        ?_, ExprCode.append _ _ (ExprCode.operands _ _ c1 c3) ht⟩
      simp [St.set_depth, St.emit]
    cases hk : n.kind <;> simp only [hk] at h
    case ND_ADD => exact bin [_] (ExprCode.line _ ExprLine.add) (by simpa [printf_eq] using h)
    case ND_SUB => exact bin [_] (ExprCode.line _ ExprLine.sub) (by simpa [printf_eq] using h)
    case ND_MUL => exact bin [_] (ExprCode.line _ ExprLine.imul) (by simpa [printf_eq] using h)
    case ND_DIV =>
      exact bin [_, _] (ExprCode.append [_] [_] (ExprCode.line _ ExprLine.cqo)
        (ExprCode.line _ ExprLine.idiv)) (by simpa [printf_eq] using h)
    case ND_EQ =>
      exact bin [_, _, _] (ExprCode.append [_] [_, _] (ExprCode.line _ ExprLine.cmp)
        (ExprCode.append [_] [_] (ExprCode.line _ ExprLine.sete) (ExprCode.line _ ExprLine.movzb)))
        (by simpa [printf_eq] using h)
    case ND_NE =>
      exact bin [_, _, _] (ExprCode.append [_] [_, _] (ExprCode.line _ ExprLine.cmp)
        (ExprCode.append [_] [_] (ExprCode.line _ ExprLine.setne) (ExprCode.line _ ExprLine.movzb)))
        (by simpa [printf_eq] using h)
    case ND_LT =>
      exact bin [_, _, _] (ExprCode.append [_] [_, _] (ExprCode.line _ ExprLine.cmp)
        (ExprCode.append [_] [_] (ExprCode.line _ ExprLine.setl) (ExprCode.line _ ExprLine.movzb)))
        (by simpa [printf_eq] using h)
    case ND_LE =>
      exact bin [_, _, _] (ExprCode.append [_] [_, _] (ExprCode.line _ ExprLine.cmp)
        (ExprCode.append [_] [_] (ExprCode.line _ ExprLine.setle) (ExprCode.line _ ExprLine.movzb)))
        (by simpa [printf_eq] using h)
    case ND_NUM =>
      rw [printf_eq] at h
      cases h
      exact ⟨_, rfl, ExprCode.line _ (ExprLine.mov_imm _)⟩
    case ND_NEG =>
      simp only [Res.bind_unit_eq_ok, printf_eq] at h
      obtain ⟨t1, h1, h2⟩ := h
      obtain ⟨l1, rfl, c1⟩ := hl.2 _ _ h1
      cases h2
      exact ⟨l1 ++ [_], by simp, ExprCode.snoc _ _ c1 ExprLine.neg⟩
    case ND_VAR =>
      simp only [Res.bind_unit_eq_ok, printf_eq] at h
      obtain ⟨t1, h1, h2⟩ := h
      obtain ⟨l1, rfl, c1⟩ := haddr _ _ h1
      cases h2
      exact ⟨l1 ++ [_], by simp, ExprCode.snoc _ _ c1 ExprLine.load⟩
    case ND_DEREF =>
      simp only [Res.bind_unit_eq_ok, printf_eq] at h
      obtain ⟨t1, h1, h2⟩ := h
      obtain ⟨l1, rfl, c1⟩ := hl.2 _ _ h1
      cases h2
      exact ⟨l1 ++ [_], by simp, ExprCode.snoc _ _ c1 ExprLine.load⟩
    case ND_ADDR => exact hl.1 _ _ h
    case ND_ASSIGN =>
      simp only [Res.bind_unit_eq_ok, push_eq_ok, pop_eq_ok, printf_eq] at h
      obtain ⟨t1, h1, t2, ⟨_, rfl⟩, t3, h3, t4, ⟨_, rfl⟩, h5⟩ := h
      obtain ⟨l1, rfl, c1⟩ := hl.1 _ _ h1
      obtain ⟨l3, rfl, c3⟩ := hr.2 _ _ h3
      cases h5
      refine ⟨(l1 ++ push_line :: l3 ++ [pop_line "rdi"]) ++ [_],
        ?_, ExprCode.snoc _ _ (ExprCode.operands _ _ c1 c3) ExprLine.store⟩
      simp [St.set_depth, St.emit]
    case ND_FUNCALL =>
      rw [Res.bind_eq_ok] at h
      obtain ⟨nargs, t1, h1, h⟩ := h
      simp only [Res.bind_unit_eq_ok, printf_eq] at h
      obtain ⟨t2, h2, t3, h3, h4⟩ := h
      obtain ⟨ls, c, hp⟩ := gen_args_pop_args n.args ha 0 nargs s t1 t2 h1 h2
      rw [pop_args_zero] at hp
      cases hp
      cases h3
      cases h4
      exact ⟨ls ++ [Line.mk "mov $0, rax\n" [], Line.mk "call .L.%s\n" [Arg.str n.funcname]],
        by simp, ExprCode.append _ [_, _] c (ExprCode.append [_] [_]
          (ExprCode.line _ ExprLine.mov_zero) (ExprCode.line _ (ExprLine.call _)))⟩
    all_goals
      simp only [Res.bind_unit_eq_ok, push_eq_ok, pop_eq_ok, reduceCtorEq, and_false,
        exists_false] at h

theorem ExprLine.not_push (l : Line) (h : ExprLine l) : l.is_push = false := by
  cases h <;> simp [Line.is_push, Line.text, format, String.ext_iff]

theorem ExprLine.not_pop (l : Line) (h : ExprLine l) : l.is_pop = false := by
  cases h <;> simp [Line.is_pop, Line.text, format]

theorem push_line_is_push : push_line.is_push = true := by decide

theorem push_line_not_pop : push_line.is_pop = false := by decide

theorem pop_line_is_pop (r : String) : (pop_line r).is_pop = true := by
  simp [pop_line, Line.is_pop, Line.text, format]

theorem pop_line_not_push (r : String) : (pop_line r).is_push = false := by
  simp [pop_line, Line.is_push, Line.text, format, String.ext_iff]

theorem ExprCode.balanced (ls : List Line) (h : ExprCode ls) : Balanced ls := by
  induction h with
  | nil => exact Balanced.nil
  | line l hl => exact Balanced.plain l (ExprLine.not_push l hl) (ExprLine.not_pop l hl)
  | append a b _ _ iha ihb => exact Balanced.append a b iha ihb
  | wrap a r _ _ ih => exact Balanced.wrap a r ih

theorem Balanced.count_eq (ls : List Line) (h : Balanced ls) :
    ls.countP Line.is_push = ls.countP Line.is_pop := by
  induction h with
  | nil => rfl
  | plain l h1 h2 => simp [List.countP_cons, h1, h2]
  | append a b _ _ iha ihb => simp [List.countP_append, iha, ihb]
  | wrap a r _ ih =>
    simp [List.countP_cons, List.countP_append, push_line_is_push, push_line_not_pop,
      pop_line_is_pop, pop_line_not_push, ih]

/-! ### Shape of the output of `gen_stmt` -/

@[simp]
theorem St.set_i_i (s : St) (j : Int) : (s.set_i j).i = j := rfl
@[simp]
theorem St.set_i_depth (s : St) (j : Int) : (s.set_i j).depth = s.depth := rfl
@[simp]
theorem St.set_i_out (s : St) (j : Int) : (s.set_i j).out = s.out := rfl
@[simp]
theorem St.set_i_current_fn (s : St) (j : Int) : (s.set_i j).current_fn = s.current_fn := rfl
@[simp]
theorem St.set_i_var_offset (s : St) (j : Int) : (s.set_i j).var_offset = s.var_offset := rfl
@[simp]
theorem St.set_i_set_i (s : St) (j k : Int) : (s.set_i j).set_i k = s.set_i k := rfl
@[simp]
theorem St.set_i_emit (s : St) (j : Int) (a : List Line) :
    (s.set_i j).emit a = (s.emit a).set_i j := rfl

theorem count_eq_ok (s s' : St) (c : Int) :
    count s = Res.ok c s' ↔
      (INT_MIN ≤ s.i + 1 ∧ s.i + 1 ≤ INT_MAX) ∧ c = s.i ∧ s' = s.set_i (s.i + 1) := by
  unfold count
  cases h : int_chk (s.i + 1) with
  | none =>
    simp only [false_iff, not_and, reduceCtorEq]
    intro h1
    have := (int_chk_eq_some (s.i + 1) (s.i + 1)).2 ⟨h1, rfl⟩
    simp_all
  | some d =>
    rw [int_chk_eq_some] at h
    obtain ⟨h1, rfl⟩ := h
    simp [h1, eq_comm, St.set_i]

theorem gen_expr_ok (node : Option Node) (s s' : St) (h : gen_expr node s = Res.ok () s') :
    ∃ ls, s' = s.emit ls ∧ ExprCode ls :=
  (exprOk_all node).2 s s' h

theorem gen_block_ok (body : List Node) (ih : ∀ a ∈ body, StmtOk (some a)) :
    ∀ s s', gen_block body s = Res.ok () s' →
      ∃ ls, s' = (s.emit ls).set_i (s.i + if_for_nodes_block body) ∧
        StmtCode (s.current_fn.map Function.name) s.i (s.i + if_for_nodes_block body) ls := by
  induction body with
  | nil =>
    intro s s' h
    rw [gen_block] at h
    cases h
    refine ⟨[], ?_, ?_⟩
    · simp [if_for_nodes_block, St.set_i, St.emit]
    · simp only [if_for_nodes_block, Nat.cast_zero, add_zero]
      exact StmtCode.nil _
  | cons a rest ihr =>
    intro s s' h
    rw [gen_block] at h
    simp only [Res.bind_unit_eq_ok] at h
    obtain ⟨t1, h1, h2⟩ := h
    obtain ⟨l1, rfl, c1⟩ := ih a (List.mem_cons_self _ _) _ _ h1
    obtain ⟨l2, rfl, c2⟩ := ihr (fun b hb => ih b (List.mem_cons_of_mem _ hb)) _ _ h2
    refine ⟨l1 ++ l2, ?_, ?_⟩
    · simp [if_for_nodes_block, St.set_i, St.emit, add_assoc]
    · have := StmtCode.seq _ _ _ _ _ c1 c2
      simpa [if_for_nodes_block, add_assoc] using this

theorem gen_stmt_opt_ok (child : Option Node) (ih : StmtOk child) (s s' : St)
    (h : (if child.isSome then gen_stmt child s else Res.ok () s) = Res.ok () s') :
    ∃ ls, s' = (s.emit ls).set_i (s.i + if_for_nodes child) ∧
      StmtCode (s.current_fn.map Function.name) s.i (s.i + if_for_nodes child) ls := by
  cases child with
  | some c => exact ih s s' (by simpa using h)
  | none =>
    simp only [Option.isSome_none, Bool.false_eq_true, if_false] at h
    cases h
    refine ⟨[], ?_, ?_⟩
    · simp [if_for_nodes, St.set_i, St.emit]
    · simp only [if_for_nodes, Nat.cast_zero, add_zero]
      exact StmtCode.nil _

theorem gen_expr_opt_ok (child : Option Node) (s s' : St)
    (h : (if child.isSome then gen_expr child s else Res.ok () s) = Res.ok () s') :
    ∃ ls, s' = s.emit ls ∧ ExprCode ls := by
  cases child with
  | some c => exact gen_expr_ok _ s s' (by simpa using h)
  | none =>
    simp only [Option.isSome_none, Bool.false_eq_true, if_false] at h
    cases h
    exact ⟨[], by simp, ExprCode.nil⟩

theorem gen_cond_opt_ok (child : Option Node) (c : Int) (s s' : St)
    (h : (if child.isSome then
        (gen_expr child s).bind fun _ s =>
        (printf "cmp $0, rax\n" [] s).bind fun _ s =>
        printf "je .L.end_%d\n" [Arg.int c] s
      else Res.ok () s) = Res.ok () s') :
    ∃ cnd, s' = s.emit cnd ∧
      (cnd = [] ∨ ∃ e, ExprCode e ∧ cnd = e ++ [cmp_zero_line, je_end_line c]) := by
  cases child with
  | some n =>
    simp only [Option.isSome_some, if_true, Res.bind_unit_eq_ok, printf_eq] at h
    obtain ⟨t1, h1, t2, h2, h3⟩ := h
    obtain ⟨e, rfl, he⟩ := gen_expr_ok _ _ _ h1
    cases h2
    cases h3
    exact ⟨e ++ [cmp_zero_line, je_end_line c], by simp [cmp_zero_line, je_end_line],
      Or.inr ⟨e, he, rfl⟩⟩
  | none =>
    simp only [Option.isSome_none, Bool.false_eq_true, if_false] at h
    cases h
    exact ⟨[], by simp, Or.inl rfl⟩

theorem stmtOk_all : ∀ node, StmtOk node := by
  apply Node.induct_on
  · intro s s' h
    rw [gen_stmt] at h
    cases h
  · intro n _ _ _ hthen hels hinit _ hbody _ s s' h
    rw [gen_stmt] at h
    cases hk : n.kind <;> simp only [hk] at h
    case ND_IF =>
      rw [Res.bind_eq_ok] at h
      obtain ⟨c, t0, h0, h⟩ := h
      rw [count_eq_ok] at h0
      obtain ⟨_, rfl, rfl⟩ := h0
      simp only [Res.bind_unit_eq_ok, printf_eq] at h
      obtain ⟨t1, h1, t2, h2, t3, h3, t4, h4, t5, h5, t6, h6, t7, h7, h8⟩ := h
      obtain ⟨lc, rfl, cc⟩ := gen_expr_ok _ _ _ h1
      cases h2; cases h3
      obtain ⟨lt, rfl, ct⟩ := hthen _ _ h4
      cases h5; cases h6
      obtain ⟨le, rfl, ce⟩ := gen_stmt_opt_ok _ hels _ _ h7
      cases h8
      refine ⟨lc ++ [cmp_zero_line, je_else_line s.i] ++ lt ++
        [jmp_end_line s.i, else_label s.i] ++ le ++ [end_label s.i], ?_, ?_⟩
      · rw [if_for_nodes]
        simp [hk, St.set_i, St.emit, cmp_zero_line, je_else_line, jmp_end_line, else_label,
          end_label]
        ring
      · rw [if_for_nodes]
        simp only [hk]
        simp only [St.set_i_i, St.emit_i, St.set_i_current_fn, St.emit_current_fn] at ct ce
        have := StmtCode.if_ _ _ _ _ _ _ cc ct ce
        convert this using 1
        push_cast
        ring
    case ND_FOR =>
      rw [Res.bind_eq_ok] at h
      obtain ⟨c, t0, h0, h⟩ := h
      rw [count_eq_ok] at h0
      obtain ⟨_, rfl, rfl⟩ := h0
      simp only [Res.bind_unit_eq_ok, printf_eq] at h
      obtain ⟨t1, h1, t2, h2, t3, h3, t4, h4, t5, h5, t6, h6, h7⟩ := h
      obtain ⟨li, rfl, ci⟩ := gen_stmt_opt_ok _ hinit _ _ h1
      cases h2
      obtain ⟨lc, rfl, cc⟩ := gen_cond_opt_ok _ _ _ _ h3
      obtain ⟨lb, rfl, cb⟩ := hthen _ _ h4
      obtain ⟨ln, rfl, cn⟩ := gen_expr_opt_ok _ _ _ h5
      cases h6; cases h7
      refine ⟨li ++ [begin_label s.i] ++ lc ++ lb ++ ln ++
        [jmp_begin_line s.i, end_label s.i], ?_, ?_⟩
      · rw [if_for_nodes]
        simp [hk, St.set_i, St.emit, begin_label, jmp_begin_line, end_label]
        ring
      · rw [if_for_nodes]
        simp only [hk]
        simp only [St.set_i_i, St.emit_i, St.set_i_current_fn, St.emit_current_fn] at ci cb
        have := StmtCode.for_ _ _ _ _ _ _ _ ci cc cb cn
        convert this using 1
        push_cast
        ring
    case ND_BLOCK =>
      obtain ⟨ls, rfl, c⟩ := gen_block_ok _ hbody _ _ h
      refine ⟨ls, ?_, ?_⟩
      · rw [if_for_nodes]
        simp [hk]
      · rw [if_for_nodes]
        simpa [hk] using c
    case ND_RETURN =>
      simp only [Res.bind_unit_eq_ok] at h
      obtain ⟨t1, h1, h2⟩ := h
      obtain ⟨l1, rfl, c1⟩ := gen_expr_ok _ _ _ h1
      cases hf : s.current_fn with
      | none => simp [hf] at h2
      | some fn =>
        simp only [St.emit_current_fn, hf, printf_eq] at h2
        cases h2
        refine ⟨l1 ++ [jmp_return_line fn.name], ?_, ?_⟩
        · rw [if_for_nodes]
          simp [hk, St.set_i, St.emit, jmp_return_line]
        · rw [if_for_nodes]
          simp only [hk, Nat.cast_zero, add_zero]
          exact StmtCode.ret _ _ _ (by simp) c1
    case ND_EXPR_STMT =>
      obtain ⟨l1, rfl, c1⟩ := gen_expr_ok _ _ _ h
      refine ⟨l1, ?_, ?_⟩
      · rw [if_for_nodes]
        simp [hk, St.set_i, St.emit]
      · rw [if_for_nodes]
        simp only [hk, Nat.cast_zero, add_zero]
        exact StmtCode.expr _ _ c1
    all_goals cases h

/-! ### No failed assertion inside the generators -/

theorem Res.never_ok {α : Type} (e0 : Err) (a : α) (s : St) : (Res.ok a s).never e0 := by
  intro s' h; cases h

theorem Res.never_fail {α : Type} (e0 e : Err) (s : St) (h : e ≠ e0) :
    (Res.fail e s : Res α).never e0 := by
  intro s' h'
  cases h'
  exact h rfl

theorem Res.never_bind {α β : Type} (e0 : Err) (r : Res α) (f : α → St → Res β)
    (hr : r.never e0) (hf : ∀ a s, (f a s).never e0) : (r.bind f).never e0 := by
  cases r with
  | ok a s => exact hf a s
  | fail e s =>
    intro s' h
    exact hr s' (by simpa using h)

theorem Res.never_ite {α : Type} (e0 : Err) (c : Prop) [Decidable c] (x y : Res α)
    (hx : x.never e0) (hy : y.never e0) : (if c then x else y).never e0 := by
  split
  · exact hx
  · exact hy

theorem printf_never (e0 : Err) (fmt : String) (args : List Arg) (s : St) :
    (printf fmt args s).never e0 :=
  Res.never_ok _ _ _

theorem push_never (s : St) : (push s).never Err.assert_fail := by
  unfold push
  apply Res.never_bind _ _ _ (printf_never _ _ _ _)
  intro _ t
  split
  · exact Res.never_ok _ _ _
  · exact Res.never_fail _ _ _ (by decide)

theorem pop_never (r : String) (s : St) : (pop r s).never Err.assert_fail := by
  unfold pop
  apply Res.never_bind _ _ _ (printf_never _ _ _ _)
  intro _ t
  split
  · exact Res.never_ok _ _ _
  · exact Res.never_fail _ _ _ (by decide)

theorem count_never (s : St) : (count s).never Err.assert_fail := by
  unfold count
  split
  · exact Res.never_ok _ _ _
  · exact Res.never_fail _ _ _ (by decide)

theorem pop_args_never (i : Nat) : ∀ s, (pop_args i s).never Err.assert_fail := by
  induction i with
  | zero => intro s; rw [pop_args]; exact Res.never_ok _ _ _
  | succ i ih =>
    intro s
    rw [pop_args]
    split
    · exact Res.never_fail _ _ _ (by simp)
    · exact Res.never_bind _ _ _ (pop_never _ _) (fun _ t => ih t)

theorem gen_args_never (args : List Node) (ih : ∀ a ∈ args, ExprNever (some a)) :
    ∀ k s, (gen_args args k s).never Err.assert_fail := by
  induction args with
  | nil => intro k s; rw [gen_args]; exact Res.never_ok _ _ _
  | cons a rest ihr =>
    intro k s
    rw [gen_args]
    apply Res.never_bind _ _ _ ((ih a (List.mem_cons_self _ _)).2 s)
    intro _ t
    apply Res.never_bind _ _ _ (push_never t)
    intro _ t
    exact ihr (fun b hb => ih b (List.mem_cons_of_mem _ hb)) _ t

theorem exprNever_all : ∀ node, ExprNever node := by
  apply Node.induct_on
  · constructor <;> intro s
    · rw [gen_addr]; exact Res.never_fail _ _ _ (by decide)
    · rw [gen_expr]; exact Res.never_fail _ _ _ (by decide)
  · intro n hl hr _ _ _ _ _ _ ha
    obtain ⟨hl1, hl2⟩ := hl
    obtain ⟨_, hr2⟩ := hr
    have haddr : ∀ s, (gen_addr (some n) s).never Err.assert_fail := by
      intro s
      rw [gen_addr]
      cases hk : n.kind <;> simp only [hk]
      case ND_VAR =>
        cases n.var
        · exact Res.never_fail _ _ _ (by decide)
        · exact printf_never _ _ _ _
      case ND_DEREF => exact hl2 s
      all_goals exact Res.never_fail _ _ _ (by simp)
    refine ⟨haddr, ?_⟩
    intro s
    rw [gen_expr]
    cases hk : n.kind <;> simp only [hk]
    all_goals repeat' with_reducible refine Res.never_bind _ _ _ ?_ (fun _ _ => ?_)
    all_goals
      with_reducible first
        | exact printf_never _ _ _ _
        | exact push_never _
        | exact pop_never _ _
        | exact pop_args_never _ _
        | exact gen_args_never _ ha _ _
        | exact hl1 _
        | exact hl2 _
        | exact hr2 _
        | exact haddr _
        | (refine Res.never_fail _ _ _ ?_
           simp)

theorem gen_expr_never (node : Option Node) (s : St) :
    (gen_expr node s).never Err.assert_fail :=
  (exprNever_all node).2 s

theorem gen_block_never (body : List Node)
    (ih : ∀ a ∈ body, ∀ s, (gen_stmt (some a) s).never Err.assert_fail) :
    ∀ s, (gen_block body s).never Err.assert_fail := by
  induction body with
  | nil => intro s; rw [gen_block]; exact Res.never_ok _ _ _
  | cons a rest ihr =>
    intro s
    rw [gen_block]
    apply Res.never_bind _ _ _ (ih a (List.mem_cons_self _ _) s)
    intro _ t
    exact ihr (fun b hb => ih b (List.mem_cons_of_mem _ hb)) t

theorem gen_stmt_never : ∀ node, ∀ s, (gen_stmt node s).never Err.assert_fail := by
  apply Node.induct_on
  · intro s
    rw [gen_stmt]; exact Res.never_fail _ _ _ (by decide)
  · intro n _ _ _ hthen hels hinit _ hbody _ s
    rw [gen_stmt]
    cases hk : n.kind <;> simp only [hk]
    all_goals repeat' with_reducible refine Res.never_bind _ _ _ ?_ (fun _ _ => ?_)
    all_goals try with_reducible refine Res.never_ite _ _ _ _ ?_ ?_
    all_goals repeat' with_reducible refine Res.never_bind _ _ _ ?_ (fun _ _ => ?_)
    all_goals
      first
        | with_reducible exact printf_never _ _ _ _
        | with_reducible exact count_never _
        | with_reducible exact gen_expr_never _ _
        | with_reducible exact gen_block_never _ hbody _
        | with_reducible exact hthen _
        | with_reducible exact hels _
        | with_reducible exact hinit _
        | with_reducible exact Res.never_ok _ _ _
        | (with_reducible refine Res.never_fail _ _ _ ?_
           simp)
        | (split
           · with_reducible refine Res.never_fail _ _ _ ?_
             simp
           · exact printf_never _ _ _ _)

/-! ### The loop of `codegen` -/

theorem save_params_ok (params : List ObjPtr) :
    ∀ (i : Nat) (s s' : St), save_params params i s = Res.ok () s' →
      s' = s.emit (param_lines s.var_offset params i) ∧
        (params = [] ∨ i + params.length ≤ 6) := by
  induction params with
  | nil =>
    intro i s s' h
    rw [save_params] at h
    cases h
    simp [param_lines]
  | cons v rest ih =>
    intro i s s' h
    rw [save_params] at h
    cases hr : argreg[i]? with
    | none => simp [hr] at h
    | some r =>
      simp only [hr, Res.bind_unit_eq_ok, printf_eq] at h
      obtain ⟨t1, h1, h2⟩ := h
      cases h1
      obtain ⟨rfl, hlen⟩ := ih _ _ _ h2
      have hi : i < argreg.length := by
        by_contra hc
        rw [List.getElem?_eq_none (by omega)] at hr
        cases hr
      constructor
      · simp [param_lines, List.getD_eq_getElem?_getD, hr]
      · right
        simp only [List.length_cons]
        rcases hlen with rfl | hlen
        · simp only [List.length_nil, argreg, List.length_cons] at hi ⊢
          omega
        · omega

theorem save_params_never (params : List ObjPtr) :
    ∀ (i : Nat) (s : St), (save_params params i s).never Err.assert_fail := by
  induction params with
  | nil => intro i s; rw [save_params]; exact Res.never_ok _ _ _
  | cons v rest ih =>
    intro i s
    rw [save_params]
    split
    · exact Res.never_fail _ _ _ (by simp)
    · exact Res.never_bind _ _ _ (printf_never _ _ _ _) (fun _ t => ih _ t)

theorem gen_stmt_ok (node : Option Node) (s s' : St) (h : gen_stmt node s = Res.ok () s') :
    ∃ ls, s' = (s.emit ls).set_i (s.i + if_for_nodes node) ∧
      StmtCode (s.current_fn.map Function.name) s.i (s.i + if_for_nodes node) ls :=
  stmtOk_all node s s' h

/-- What a successful run of the loop of `codegen` leaves. -/
theorem codegen_fns_ok (prog : List Function) :
    ∀ (s s' : St), codegen_fns prog s = Res.ok () s' →
      ∃ ls, s'.out = s.out ++ ls ∧ s'.depth = s.depth ∧ s'.var_offset = s.var_offset ∧
        s'.i = s.i + prog_if_for_nodes prog ∧ (prog ≠ [] → s.depth = 0) ∧
        ProgCode s.var_offset prog s.i (s.i + prog_if_for_nodes prog) ls := by
  induction prog with
  | nil =>
    intro s s' h
    rw [codegen_fns] at h
    cases h
    refine ⟨[], by simp, rfl, rfl, by simp [prog_if_for_nodes], by simp, ?_⟩
    simp only [prog_if_for_nodes, Nat.cast_zero, add_zero]
    exact ProgCode.nil _
  | cons fn rest ih =>
    intro s s' h
    rw [codegen_fns] at h
    simp only [Res.bind_unit_eq_ok, printf_eq] at h
    obtain ⟨t1, h1, t2, h2, t3, h3, t4, h4, t5, h5, t6, h6, t7, h7, t8, h8, t9, h9, t10, h10,
      t11, h11, t12, h12, h13⟩ := h
    cases h1; cases h2; cases h3; cases h4; cases h5
    obtain ⟨rfl, hlen⟩ := save_params_ok _ _ _ _ h6
    obtain ⟨body, rfl, hbody⟩ := gen_stmt_ok _ _ _ h7
    split at h8
    case isFalse => cases h8
    case isTrue hd =>
    cases h8; cases h9; cases h10; cases h11; cases h12
    obtain ⟨tail, hout, hdep, hmem, hi, _, htail⟩ := ih _ _ h13
    simp only [St.emit_depth, St.set_i_depth, St.emit_out, St.set_i_out, St.emit_var_offset,
      St.set_i_var_offset, St.emit_i, St.set_i_i, St.emit_current_fn, Option.map_some'] at *
    refine ⟨fn_prologue fn ++ param_lines s.var_offset fn.params 0 ++ body ++ fn_epilogue fn ++
      tail, ?_, ?_, ?_, ?_, ?_, ?_⟩
    · rw [hout]
      simp [fn_prologue, fn_epilogue]
    · rw [hdep]
    · rw [hmem]
    · rw [hi]
      simp only [prog_if_for_nodes]
      push_cast
      change s.i + _ + _ = _
      ring
    · intro _
      exact hd
    · have hp : fn.params.length ≤ 6 := by
        rcases hlen with h0 | h0
        · simp [h0]
        · omega
      have := ProgCode.cons fn rest _ _ _ _ _ hp hbody htail
      convert this using 1
      simp only [prog_if_for_nodes]
      push_cast
      change _ = s.i + _ + _
      ring

/-! ### Frame layout -/

theorem int_chk_of_range (v : Int) (h1 : -2147483648 ≤ v) (h2 : v ≤ 2147483647) :
    int_chk v = some v := by
  rw [int_chk_eq_some]
  exact ⟨⟨h1, h2⟩, rfl⟩

theorem wrap32_of_range (v : Int) (h1 : -2147483648 ≤ v) (h2 : v ≤ 2147483647) :
    wrap32 v = v := by
  unfold wrap32
  omega

/-- The sum may wrap around: taking one away brings it back. -/
theorem wrap32_pred (a : Int) (h1 : -2147483648 ≤ a - 1) (h2 : a - 1 ≤ 2147483647) :
    wrap32 (wrap32 a - 1) = a - 1 := by
  unfold wrap32
  omega

theorem align_to_eq (n align : Int) (hn : 0 ≤ n) (ha : 0 < align)
    (h : n + align - 1 ≤ INT_MAX) :
    align_to n align = some ((n + align - 1) / align * align) := by
  have hb : 0 ≤ n + align - 1 := by omega
  have hq0 : 0 ≤ (n + align - 1) / align := Int.ediv_nonneg hb (le_of_lt ha)
  have hm := Int.emod_nonneg (n + align - 1) (ne_of_gt ha)
  have hd := Int.ediv_add_emod (n + align - 1) align
  have hr : (n + align - 1) / align * align ≤ n + align - 1 := by
    rw [mul_comm]; omega
  have hq : (n + align - 1) / align ≤ n + align - 1 := by
    have : (n + align - 1) / align * 1 ≤ (n + align - 1) / align * align :=
      Int.mul_le_mul_of_nonneg_left (by omega) hq0
    omega
  have hr0 : 0 ≤ (n + align - 1) / align * align := Int.mul_nonneg hq0 (le_of_lt ha)
  unfold INT_MAX at h
  unfold align_to
  rw [if_neg (ne_of_gt ha), wrap32_pred _ (by omega) (by omega),
    Int.tdiv_eq_ediv hb (le_of_lt ha), int_chk_of_range _ (by omega) (by omega)]
  simp only [Option.some_bind, Option.bind_eq_bind]
  rw [wrap32_of_range _ (by omega) (by omega)]

theorem round_up_least (n align : Int) (ha : 0 < align) :
    align ∣ (n + align - 1) / align * align ∧ n ≤ (n + align - 1) / align * align ∧
      (n + align - 1) / align * align < n + align ∧
      ∀ m : Int, align ∣ m → n ≤ m → (n + align - 1) / align * align ≤ m := by
  have hm := Int.emod_nonneg (n + align - 1) (ne_of_gt ha)
  have hl := Int.emod_lt_of_pos (n + align - 1) ha
  have hd := Int.ediv_add_emod (n + align - 1) align
  have e : (n + align - 1) / align * align = align * ((n + align - 1) / align) := mul_comm _ _
  refine ⟨Dvd.intro_left _ rfl, by omega, by omega, ?_⟩
  intro m hm1 hm2
  by_contra hlt
  have hdv : align ∣ (n + align - 1) / align * align - m :=
    Int.dvd_sub (Dvd.intro_left _ rfl) hm1
  have := Int.le_of_dvd (by omega) hdv
  omega

theorem align_to_16 (n sz : Int) (hn : 0 ≤ n) (hr : n + 16 ≤ INT_MAX)
    (h : align_to n 16 = some sz) : 16 ∣ sz ∧ n ≤ sz ∧ sz < n + 16 := by
  rw [align_to_eq n 16 hn (by decide) (by omega)] at h
  cases h
  obtain ⟨h1, h2, h3, _⟩ := round_up_least n 16 (by decide)
  exact ⟨h1, h2, h3⟩

theorem align_to_16_total (n : Int) (hn : 0 ≤ n) (h : n + 16 ≤ INT_MAX) :
    ∃ sz, align_to n 16 = some sz :=
  ⟨_, align_to_eq n 16 hn (by decide) (by omega)⟩

theorem assign_locals_ok (locals : List ObjPtr) :
    ∀ (offset : Int) (s : St) (off' : Int) (s' : St),
      assign_locals locals offset s = Res.ok off' s' →
      off' = offset + 8 * (locals.length : Int) ∧
      s'.depth = s.depth ∧ s'.i = s.i ∧ s'.out = s.out ∧ s'.current_fn = s.current_fn ∧
      (∀ p, p ∉ locals → s'.var_offset p = s.var_offset p) ∧
      (locals.Nodup → ∀ (j : Nat) (v : ObjPtr), locals[j]? = some v → s'.var_offset v = offset + 8 * ((j : Int) + 1)) := by
  induction locals with
  | nil =>
    intro offset s off' s' h
    rw [assign_locals] at h
    cases h
    simp
  | cons var rest ih =>
    intro offset s off' s' h
    rw [assign_locals] at h
    cases hc : int_chk (offset + 8) with
    | none => simp [hc] at h
    | some o =>
      simp only [hc] at h
      rw [int_chk_eq_some] at hc
      obtain ⟨_, rfl⟩ := hc
      obtain ⟨rfl, hd, hi, ho, hf, hmem, hidx⟩ := ih _ _ _ _ h
      refine ⟨?_, hd, hi, ho, hf, ?_, ?_⟩
      · simp only [List.length_cons]; push_cast; ring
      · intro p hp
        simp only [List.mem_cons, not_or] at hp
        rw [hmem p hp.2]
        simp [hp.1]
      · intro hnd j v hj
        rw [List.nodup_cons] at hnd
        cases j with
        | zero =>
          simp only [List.getElem?_cons_zero, Option.some.injEq] at hj
          subst hj
          rw [hmem _ hnd.1]
          simp
        | succ j =>
          simp only [List.getElem?_cons_succ] at hj
          rw [hidx hnd.2 j v hj]
          push_cast
          ring

theorem assign_locals_total (locals : List ObjPtr) :
    ∀ (offset : Int) (s : St), INT_MIN ≤ offset + 8 →
      offset + 8 * (locals.length : Int) ≤ INT_MAX →
      ∃ off' s', assign_locals locals offset s = Res.ok off' s' := by
  induction locals with
  | nil =>
    intro offset s _ _
    exact ⟨_, _, by rw [assign_locals]⟩
  | cons var rest ih =>
    intro offset s h1 h2
    rw [assign_locals]
    simp only [List.length_cons, Nat.cast_add, Nat.cast_one] at h2
    have e : int_chk (offset + 8) = some (offset + 8) := by
      rw [int_chk_eq_some]; refine ⟨⟨h1, ?_⟩, rfl⟩; omega
    simp only [e]
    exact ih _ _ (by omega) (by omega)

theorem assign_lvar_offsets_ok (prog : List Function) :
    ∀ (s : St) (prog' : List Function) (s' : St),
      assign_lvar_offsets prog s = Res.ok prog' s' →
      s'.depth = s.depth ∧ s'.i = s.i ∧ s'.out = s.out ∧ s'.current_fn = s.current_fn ∧
      List.Forall₂ Laid prog prog' ∧
      (∀ p, p ∉ all_locals prog → s'.var_offset p = s.var_offset p) ∧
      ((all_locals prog).Nodup → ∀ fn ∈ prog, ∀ (j : Nat) (v : ObjPtr),
        fn.locals[j]? = some v → s'.var_offset v = 8 * ((j : Int) + 1)) := by
  induction prog with
  | nil =>
    intro s prog' s' h
    rw [assign_lvar_offsets] at h
    cases h
    simp [all_locals]
  | cons fn rest ih =>
    intro s prog' s' h
    rw [assign_lvar_offsets, Res.bind_eq_ok] at h
    obtain ⟨off, t1, h1, h⟩ := h
    obtain ⟨rfl, hd1, hi1, ho1, hf1, hm1, hx1⟩ := assign_locals_ok _ _ _ _ _ h1
    cases ha : align_to (0 + 8 * (fn.locals.length : Int)) 16 with
    | none =>
      rw [ha] at h
      cases h
    | some sz =>
      rw [ha] at h
      simp only [Res.bind_eq_ok] at h
      obtain ⟨rest', t2, h2, h3⟩ := h
      cases h3
      obtain ⟨hd2, hi2, ho2, hf2, hl2, hm2, hx2⟩ := ih _ _ _ h2
      have hlaid : Laid fn { fn with stack_size := sz } := by
        refine ⟨rfl, fun hr => ?_⟩
        obtain ⟨a1, a2, a3⟩ := align_to_16 _ _ (by omega) (by omega) ha
        exact ⟨a1, by simpa using a2, by simpa using a3⟩
      refine ⟨by rw [hd2, hd1], by rw [hi2, hi1], by rw [ho2, ho1], by rw [hf2, hf1],
        List.Forall₂.cons hlaid hl2, ?_, ?_⟩
      · intro p hp
        simp only [all_locals, List.map_cons, List.flatten_cons, List.mem_append, not_or] at hp
        rw [hm2 p hp.2, hm1 p hp.1]
      · intro hnd g hg j v hj
        simp only [all_locals, List.map_cons, List.flatten_cons] at hnd
        rw [List.nodup_append] at hnd
        obtain ⟨n1, n2, n3⟩ := hnd
        rcases List.mem_cons.1 hg with rfl | hg
        · have hv : v ∈ g.locals := List.getElem?_mem hj
          rw [hm2 v (fun hc => n3 hv hc), hx1 n1 j v hj]
          ring
        · exact hx2 n2 g hg j v hj

theorem assign_lvar_offsets_total (prog : List Function)
    (hsmall : ∀ fn ∈ prog, 8 * (fn.locals.length : Int) + 16 ≤ INT_MAX) :
    ∀ s : St, ∃ prog' s', assign_lvar_offsets prog s = Res.ok prog' s' := by
  induction prog with
  | nil =>
    intro s
    exact ⟨_, _, by rw [assign_lvar_offsets]⟩
  | cons fn rest ih =>
    intro s
    have hfn := hsmall fn (List.mem_cons_self _ _)
    obtain ⟨off, t1, h1⟩ := assign_locals_total fn.locals 0 s (by unfold INT_MIN; omega) (by omega)
    obtain ⟨rfl, _⟩ := assign_locals_ok _ _ _ _ _ h1
    obtain ⟨sz, h2⟩ := align_to_16_total (0 + 8 * (fn.locals.length : Int)) (by omega)
      (by omega)
    obtain ⟨rest', s', h3⟩ := ih (fun g hg => hsmall g (List.mem_cons_of_mem _ hg)) t1
    refine ⟨{ fn with stack_size := sz } :: rest', s', ?_⟩
    rw [assign_lvar_offsets, h1, Res.ok_bind, h2]
    simp only [h3, Res.ok_bind]

/-! ### Evaluation on concrete inputs -/

theorem gen_expr_f_eq_aux (fuel : Nat) :
    (∀ node s, 2 * sizeOf node < fuel → gen_addr_f fuel node s = gen_addr node s) ∧
    (∀ node s, 2 * sizeOf node + 1 < fuel → gen_expr_f fuel node s = gen_expr node s) ∧
    (∀ args k s, 2 * sizeOf args < fuel → gen_args_f fuel args k s = gen_args args k s) := by
  induction fuel with
  | zero => exact ⟨fun _ _ h => by omega, fun _ _ h => by omega, fun _ _ _ h => by omega⟩
  | succ fuel ih =>
    obtain ⟨iha, ihe, ihl⟩ := ih
    refine ⟨?_, ?_, ?_⟩
    · intro node s h
      cases node with
      | none => rw [gen_addr_f, gen_addr]
      | some n =>
        rw [gen_addr_f, gen_addr]
        have hs : sizeOf (some n) = 1 + sizeOf n := by simp
        have h1 := n.sizeOf_lhs
        have e1 : ∀ s, gen_expr_f fuel n.lhs s = gen_expr n.lhs s :=
          fun s => ihe _ s (by omega)
        simp only [e1]
        try rfl
    · intro node s h
      cases node with
      | none => rw [gen_expr_f, gen_expr]
      | some n =>
        rw [gen_expr_f, gen_expr]
        have hs : sizeOf (some n) = 1 + sizeOf n := by simp
        have h1 := n.sizeOf_lhs
        have h2 := n.sizeOf_rhs
        have h3 := n.sizeOf_args
        have e1 : ∀ s, gen_expr_f fuel n.lhs s = gen_expr n.lhs s :=
          fun s => ihe _ s (by omega)
        have e2 : ∀ s, gen_expr_f fuel n.rhs s = gen_expr n.rhs s :=
          fun s => ihe _ s (by omega)
        have e3 : ∀ s, gen_addr_f fuel n.lhs s = gen_addr n.lhs s :=
          fun s => iha _ s (by omega)
        have e4 : ∀ s, gen_addr_f fuel (some n) s = gen_addr (some n) s :=
          fun s => iha _ s (by omega)
        have e5 : ∀ k s, gen_args_f fuel n.args k s = gen_args n.args k s :=
          fun k s => ihl _ k s (by omega)
        simp only [e1, e2, e3, e4, e5]
        try rfl
    · intro args k s h
      cases args with
      | nil => rw [gen_args_f, gen_args]
      | cons a rest =>
        rw [gen_args_f, gen_args]
        have hs : sizeOf (a :: rest) = 1 + sizeOf a + sizeOf rest := by simp
        have hs2 : sizeOf (some a) = 1 + sizeOf a := by simp
        have hr : 0 < sizeOf rest := by cases rest <;> simp
        have e1 : ∀ s, gen_expr_f fuel (some a) s = gen_expr (some a) s :=
          fun s => ihe _ s (by omega)
        have e2 : ∀ k s, gen_args_f fuel rest k s = gen_args rest k s :=
          fun k s => ihl _ k s (by omega)
        simp only [e1, e2]
    try rfl

theorem gen_expr_f_eq (fuel : Nat) (node : Option Node) (s : St)
    (h : 2 * sizeOf node + 1 < fuel) : gen_expr_f fuel node s = gen_expr node s :=
  (gen_expr_f_eq_aux fuel).2.1 node s h

theorem gen_addr_f_eq (fuel : Nat) (node : Option Node) (s : St)
    (h : 2 * sizeOf node < fuel) : gen_addr_f fuel node s = gen_addr node s :=
  (gen_expr_f_eq_aux fuel).1 node s h

theorem gen_stmt_f_eq_aux (fuel : Nat) :
    (∀ node s, 2 * sizeOf node + 1 < fuel → gen_stmt_f fuel node s = gen_stmt node s) ∧
    (∀ body s, 2 * sizeOf body < fuel → gen_block_f fuel body s = gen_block body s) := by
  induction fuel with
  | zero => exact ⟨fun _ _ h => by omega, fun _ _ h => by omega⟩
  | succ fuel ih =>
    obtain ⟨ihs, ihb⟩ := ih
    refine ⟨?_, ?_⟩
    · intro node s h
      cases node with
      | none => rw [gen_stmt_f, gen_stmt]
      | some n =>
        rw [gen_stmt_f, gen_stmt]
        have hs : sizeOf (some n) = 1 + sizeOf n := by simp
        have h1 := n.sizeOf_lhs
        have h2 := n.sizeOf_cond
        have h3 := n.sizeOf_then
        have h4 := n.sizeOf_els
        have h5 := n.sizeOf_init
        have h6 := n.sizeOf_inc
        have h7 := n.sizeOf_body
        have e1 : ∀ s, gen_expr_f fuel n.lhs s = gen_expr n.lhs s :=
          fun s => gen_expr_f_eq _ _ s (by omega)
        have e2 : ∀ s, gen_expr_f fuel n.cond s = gen_expr n.cond s :=
          fun s => gen_expr_f_eq _ _ s (by omega)
        have e3 : ∀ s, gen_expr_f fuel n.inc s = gen_expr n.inc s :=
          fun s => gen_expr_f_eq _ _ s (by omega)
        have e4 : ∀ s, gen_stmt_f fuel n.then_ s = gen_stmt n.then_ s :=
          fun s => ihs _ s (by omega)
        have e5 : ∀ s, gen_stmt_f fuel n.els s = gen_stmt n.els s :=
          fun s => ihs _ s (by omega)
        have e6 : ∀ s, gen_stmt_f fuel n.init s = gen_stmt n.init s :=
          fun s => ihs _ s (by omega)
        have e7 : ∀ s, gen_block_f fuel n.body s = gen_block n.body s :=
          fun s => ihb _ s (by omega)
        simp only [e1, e2, e3, e4, e5, e6, e7]
        try rfl
    · intro body s h
      cases body with
      | nil => rw [gen_block_f, gen_block]
      | cons a rest =>
        rw [gen_block_f, gen_block]
        have hs : sizeOf (a :: rest) = 1 + sizeOf a + sizeOf rest := by simp
        have hs2 : sizeOf (some a) = 1 + sizeOf a := by simp
        have hr : 0 < sizeOf rest := by cases rest <;> simp
        have e1 : ∀ s, gen_stmt_f fuel (some a) s = gen_stmt (some a) s :=
          fun s => ihs _ s (by omega)
        have e2 : ∀ s, gen_block_f fuel rest s = gen_block rest s :=
          fun s => ihb _ s (by omega)
        simp only [e1, e2]
    try rfl

theorem gen_stmt_f_eq (fuel : Nat) (node : Option Node) (s : St)
    (h : 2 * sizeOf node + 1 < fuel) : gen_stmt_f fuel node s = gen_stmt node s :=
  (gen_stmt_f_eq_aux fuel).1 node s h

theorem codegen_fns_f_eq (fuel : Nat) (prog : List Function)
    (h : ∀ fn ∈ prog, 2 * sizeOf fn.body + 1 < fuel) :
    ∀ s, codegen_fns_f fuel prog s = codegen_fns prog s := by
  induction prog with
  | nil => intro s; rfl
  | cons fn rest ih =>
    intro s
    rw [codegen_fns_f, codegen_fns]
    have e1 : ∀ s, gen_stmt_f fuel fn.body s = gen_stmt fn.body s :=
      fun s => gen_stmt_f_eq _ _ s (h fn (List.mem_cons_self _ _))
    have e2 : ∀ s, codegen_fns_f fuel rest s = codegen_fns rest s :=
      ih (fun g hg => h g (List.mem_cons_of_mem _ hg))
    simp only [e1, e2]
    try rfl

theorem codegen_f_eq (fuel : Nat) (prog : List Function) (s : St)
    (h : ∀ fn ∈ prog, 2 * sizeOf fn.body + 1 < fuel) :
    codegen_f fuel prog s = codegen prog s := by
  unfold codegen_f codegen
  cases hr : assign_lvar_offsets prog s with
  | fail e t => rfl
  | ok prog' t =>
    simp only [Res.ok_bind]
    refine codegen_fns_f_eq fuel prog' ?_ t
    obtain ⟨_, _, _, _, hl, _⟩ := assign_lvar_offsets_ok _ _ _ _ hr
    intro fn hfn
    have key : ∀ (p q : List Function), List.Forall₂ Laid p q → ∀ f ∈ q, ∃ g, g ∈ p ∧ Laid g f := by
      intro p q hpq
      induction hpq with
      | nil => intro f hf; cases hf
      | cons hab _ ih =>
        intro f hf
        rcases List.mem_cons.1 hf with rfl | hm
        · exact ⟨_, List.mem_cons_self _ _, hab⟩
        · obtain ⟨g, hg, hl⟩ := ih f hm
          exact ⟨g, List.mem_cons_of_mem _ hg, hl⟩
    obtain ⟨g, hg, hlaid⟩ := key _ _ hl fn hfn
    have hb : fn.body = g.body := by rw [hlaid.1]
    rw [hb]
    exact h g hg

theorem Res.eq_ok_of_is_ok (r : Res Unit) (h : r.is_ok = true) : r = Res.ok () r.state := by
  cases r with
  | ok a s => rfl
  | fail e s => cases h

theorem ex_prog_fuel : ∀ fn ∈ ex_prog, 2 * sizeOf fn.body + 1 < 1000 := by decide

theorem codegen_ex_prog_is_ok : (codegen ex_prog (St.start mem0)).is_ok = true :=
  (codegen_f_eq 1000 ex_prog _ ex_prog_fuel) ▸ (by decide! :
    (codegen_f 1000 ex_prog (St.start mem0)).is_ok = true)

theorem codegen_ex_prog :
    codegen ex_prog (St.start mem0) = Res.ok () (codegen ex_prog (St.start mem0)).state :=
  Res.eq_ok_of_is_ok _ codegen_ex_prog_is_ok

/-! ### No failed assertion in `codegen` -/

theorem Res.never_bind_of_ok {α β : Type} (e0 : Err) (r : Res α) (f : α → St → Res β)
    (hr : r.never e0) (hf : ∀ a s, r = Res.ok a s → (f a s).never e0) :
    (r.bind f).never e0 := by
  cases r with
  | ok a s => exact hf a s rfl
  | fail e s =>
    intro s' h
    exact hr s' (by simpa using h)

theorem assign_locals_never (locals : List ObjPtr) :
    ∀ (offset : Int) (s : St), (assign_locals locals offset s).never Err.assert_fail := by
  induction locals with
  | nil => intro o s; rw [assign_locals]; exact Res.never_ok _ _ _
  | cons v rest ih =>
    intro o s
    rw [assign_locals]
    split
    · exact Res.never_fail _ _ _ (by decide)
    · exact ih _ _

theorem assign_lvar_offsets_never (prog : List Function) :
    ∀ s : St, (assign_lvar_offsets prog s).never Err.assert_fail := by
  induction prog with
  | nil => intro s; rw [assign_lvar_offsets]; exact Res.never_ok _ _ _
  | cons fn rest ih =>
    intro s
    rw [assign_lvar_offsets]
    refine Res.never_bind _ _ _ (assign_locals_never _ _ _) (fun off t => ?_)
    split
    · exact Res.never_fail _ _ _ (by decide)
    · exact Res.never_bind _ _ _ (ih _) (fun _ _ => Res.never_ok _ _ _)

theorem Res.never_bind_depth {α β : Type} (e0 : Err) (r : Res α) (f : α → St → Res β)
    (hr : r.never e0) (hd : ∀ a t, r = Res.ok a t → t.depth = 0)
    (hf : ∀ a t, t.depth = 0 → (f a t).never e0) : (r.bind f).never e0 :=
  Res.never_bind_of_ok e0 r f hr (fun a t e => hf a t (hd a t e))

theorem printf_depth (fmt : String) (args : List Arg) (s t : St) (u : Unit)
    (h : printf fmt args s = Res.ok u t) : t.depth = s.depth := by
  rw [printf_eq] at h
  cases h
  rfl

theorem save_params_depth (params : List ObjPtr) (i : Nat) (s t : St) (u : Unit)
    (h : save_params params i s = Res.ok u t) : t.depth = s.depth := by
  obtain ⟨rfl, _⟩ := save_params_ok _ _ _ _ h
  rfl

theorem gen_stmt_depth (node : Option Node) (s t : St) (u : Unit)
    (h : gen_stmt node s = Res.ok u t) : t.depth = s.depth := by
  obtain ⟨ls, rfl, _⟩ := gen_stmt_ok _ _ _ h
  rfl

theorem codegen_fns_never (prog : List Function) :
    ∀ s : St, s.depth = 0 → (codegen_fns prog s).never Err.assert_fail := by
  induction prog with
  | nil => intro s _; rw [codegen_fns]; exact Res.never_ok _ _ _
  | cons fn rest ih =>
    intro s h0
    rw [codegen_fns]
    refine Res.never_bind_depth _ _ _ (printf_never _ _ _ _)
      (fun _ t e => by rw [printf_depth _ _ _ _ _ e, h0]) (fun _ s h0 => ?_)
    refine Res.never_bind_depth _ _ _ (Res.never_ok _ _ _)
      (fun _ t e => by cases e; exact h0) (fun _ s h0 => ?_)
    refine Res.never_bind_depth _ _ _ (printf_never _ _ _ _)
      (fun _ t e => by rw [printf_depth _ _ _ _ _ e, h0]) (fun _ s h0 => ?_)
    refine Res.never_bind_depth _ _ _ (printf_never _ _ _ _)
      (fun _ t e => by rw [printf_depth _ _ _ _ _ e, h0]) (fun _ s h0 => ?_)
    refine Res.never_bind_depth _ _ _ (printf_never _ _ _ _)
      (fun _ t e => by rw [printf_depth _ _ _ _ _ e, h0]) (fun _ s h0 => ?_)
    refine Res.never_bind_depth _ _ _ (save_params_never _ _ _)
      (fun _ t e => by rw [save_params_depth _ _ _ _ _ e, h0]) (fun _ s h0 => ?_)
    refine Res.never_bind_depth _ _ _ (gen_stmt_never _ _)
      (fun _ t e => by rw [gen_stmt_depth _ _ _ _ e, h0]) (fun _ s h0 => ?_)
    refine Res.never_bind_depth _ _ _ (by rw [if_pos h0]; exact Res.never_ok _ _ _)
      (fun _ t e => by rw [if_pos h0] at e; cases e; exact h0) (fun _ s h0 => ?_)
    refine Res.never_bind_depth _ _ _ (printf_never _ _ _ _)
      (fun _ t e => by rw [printf_depth _ _ _ _ _ e, h0]) (fun _ s h0 => ?_)
    refine Res.never_bind_depth _ _ _ (printf_never _ _ _ _)
      (fun _ t e => by rw [printf_depth _ _ _ _ _ e, h0]) (fun _ s h0 => ?_)
    refine Res.never_bind_depth _ _ _ (printf_never _ _ _ _)
      (fun _ t e => by rw [printf_depth _ _ _ _ _ e, h0]) (fun _ s h0 => ?_)
    refine Res.never_bind_depth _ _ _ (printf_never _ _ _ _)
      (fun _ t e => by rw [printf_depth _ _ _ _ _ e, h0]) (fun _ s h0 => ?_)
    exact ih s h0

/-! ### The generators by kind of node -/

theorem gen_expr_none (s : St) : gen_expr none s = Res.fail Err.null_deref s := by
  rw [gen_expr]

theorem gen_addr_none (s : St) : gen_addr none s = Res.fail Err.null_deref s := by
  rw [gen_addr]

theorem gen_expr_of_deref (n : Node) (s : St) (hk : n.kind = NodeKind.ND_DEREF) :
    gen_expr (some n) s = (gen_expr n.lhs s).bind fun _ s => printf "mov (rax), rax\n" [] s := by
  rw [gen_expr]; simp only [hk]

theorem gen_expr_of_var (n : Node) (s : St) (hk : n.kind = NodeKind.ND_VAR) :
    gen_expr (some n) s =
      (gen_addr (some n) s).bind fun _ s => printf "mov (rax), rax\n" [] s := by
  rw [gen_expr]; simp only [hk]

theorem gen_expr_of_addr (n : Node) (s : St) (hk : n.kind = NodeKind.ND_ADDR) :
    gen_expr (some n) s = gen_addr n.lhs s := by
  rw [gen_expr]; simp only [hk]

theorem gen_expr_of_assign (n : Node) (s : St) (hk : n.kind = NodeKind.ND_ASSIGN) :
    gen_expr (some n) s =
      (gen_addr n.lhs s).bind fun _ s =>
      (push s).bind fun _ s =>
      (gen_expr n.rhs s).bind fun _ s =>
      (pop "rdi" s).bind fun _ s =>
      printf "mov rax, (rdi)\n" [] s := by
  rw [gen_expr]; simp only [hk]

theorem gen_addr_of_deref (n : Node) (s : St) (hk : n.kind = NodeKind.ND_DEREF) :
    gen_addr (some n) s = gen_expr n.lhs s := by
  rw [gen_addr]; simp only [hk]

theorem gen_addr_of_var (n : Node) (v : ObjPtr) (s : St) (hk : n.kind = NodeKind.ND_VAR)
    (hv : n.var = some v) :
    gen_addr (some n) s = printf "lea $_%d, rax\n" [Arg.int (s.var_offset v)] s := by
  rw [gen_addr]; simp only [hk, hv]

theorem gen_addr_of_other (n : Node) (s : St) (h1 : n.kind ≠ NodeKind.ND_VAR)
    (h2 : n.kind ≠ NodeKind.ND_DEREF) :
    gen_addr (some n) s = Res.fail (Err.error_tok n.tok "Not an lvalue") s := by
  rw [gen_addr]
  cases hk : n.kind <;> simp_all

/-! ### Arithmetic on the machine -/

theorem exec_append (a b : List Line) (m : Machine) :
    exec (a ++ b) m = (exec a m).bind (exec b) := by
  induction a generalizing m with
  | nil => rfl
  | cons l a ih =>
    simp only [List.cons_append, exec]
    cases exec_line l m with
    | none => rfl
    | some m1 => simpa using ih m1

theorem exec_mov (n : Int) (m : Machine) :
    exec_line (Line.mk "mov $%d, rax\n" [Arg.int n]) m = some { m with rax := wrap64 n } := by
  simp [exec_line]

theorem exec_push (m : Machine) :
    exec_line push_line m = some { m with stack := m.rax :: m.stack } := by
  simp [exec_line, push_line]

theorem exec_pop (rax rdi v : Int) (st : List Int) :
    exec_line (pop_line "rdi") (Machine.mk rax rdi (v :: st)) = some (Machine.mk rax v st) := by
  simp [exec_line, pop_line]

theorem exec_add (m : Machine) :
    exec_line (Line.mk "add rdi, rax\n" []) m = some { m with rax := wrap64 (m.rax + m.rdi) } := by
  simp [exec_line]

theorem exec_sub (m : Machine) :
    exec_line (Line.mk "sub rdi, rax\n" []) m = some { m with rax := wrap64 (m.rax - m.rdi) } := by
  simp [exec_line]

theorem exec_imul (m : Machine) :
    exec_line (Line.mk "imul rdi, rax\n" []) m =
      some { m with rax := wrap64 (m.rax * m.rdi) } := by
  simp [exec_line]

theorem exec_neg (m : Machine) :
    exec_line (Line.mk "neg rax\n" []) m = some { m with rax := wrap64 (-m.rax) } := by
  simp [exec_line]

/-- The code of a binary operator on the machine, given what the codes of the
operands do. -/
theorem exec_operands (lr ll : List Line) (op : Line) (a b : Int) (f : Int → Int → Int)
    (hr : ∀ m, ∃ rdi, exec lr m = some (Machine.mk b rdi m.stack))
    (hl : ∀ m, ∃ rdi, exec ll m = some (Machine.mk a rdi m.stack))
    (hop : ∀ m, exec_line op m = some { m with rax := wrap64 (f m.rax m.rdi) }) :
    ∀ m, ∃ rdi, exec (lr ++ push_line :: ll ++ [pop_line "rdi"] ++ [op]) m =
      some (Machine.mk (wrap64 (f a b)) rdi m.stack) := by
  intro m
  obtain ⟨d1, h1⟩ := hr m
  obtain ⟨d2, h2⟩ := hl (Machine.mk b d1 (b :: m.stack))
  refine ⟨b, ?_⟩
  simp only [exec_append, h1, Option.bind_some, List.cons_append, exec, exec_push, h2,
    List.nil_append, exec_pop, hop, Option.some_bind, List.append_assoc]

theorem push_ok (s : St) (h1 : INT_MIN ≤ s.depth + 1) (h2 : s.depth + 1 ≤ INT_MAX) :
    push s = Res.ok () ((s.emit [push_line]).set_depth (s.depth + 1)) :=
  (push_eq_ok s _ ()).2 ⟨⟨h1, h2⟩, rfl⟩

theorem pop_ok (r : String) (s : St) (h1 : INT_MIN ≤ s.depth - 1) (h2 : s.depth - 1 ≤ INT_MAX) :
    pop r s = Res.ok () ((s.emit [pop_line r]).set_depth (s.depth - 1)) :=
  (pop_eq_ok r s _ ()).2 ⟨⟨h1, h2⟩, rfl⟩

theorem gen_expr_of_num (n : Node) (s : St) (hk : n.kind = NodeKind.ND_NUM) :
    gen_expr (some n) s = printf "mov $%d, rax\n" [Arg.int n.val] s := by
  rw [gen_expr]; simp only [hk]

theorem gen_expr_of_neg (n : Node) (s : St) (hk : n.kind = NodeKind.ND_NEG) :
    gen_expr (some n) s = (gen_expr n.lhs s).bind fun _ s => printf "neg rax\n" [] s := by
  rw [gen_expr]; simp only [hk]

theorem gen_expr_of_add (n : Node) (s : St) (hk : n.kind = NodeKind.ND_ADD) :
    gen_expr (some n) s =
      (gen_expr n.rhs s).bind fun _ s =>
      (push s).bind fun _ s =>
      (gen_expr n.lhs s).bind fun _ s =>
      (pop "rdi" s).bind fun _ s =>
      printf "add rdi, rax\n" [] s := by
  rw [gen_expr]; simp only [hk]

theorem gen_expr_of_sub (n : Node) (s : St) (hk : n.kind = NodeKind.ND_SUB) :
    gen_expr (some n) s =
      (gen_expr n.rhs s).bind fun _ s =>
      (push s).bind fun _ s =>
      (gen_expr n.lhs s).bind fun _ s =>
      (pop "rdi" s).bind fun _ s =>
      printf "sub rdi, rax\n" [] s := by
  rw [gen_expr]; simp only [hk]

theorem gen_expr_of_mul (n : Node) (s : St) (hk : n.kind = NodeKind.ND_MUL) :
    gen_expr (some n) s =
      (gen_expr n.rhs s).bind fun _ s =>
      (push s).bind fun _ s =>
      (gen_expr n.lhs s).bind fun _ s =>
      (pop "rdi" s).bind fun _ s =>
      printf "imul rdi, rax\n" [] s := by
  rw [gen_expr]; simp only [hk]

/-- The operand part of a binary operator completes when the operands do and
`depth` has room for one more. -/
theorem gen_operands_ok (l r : Node) (s : St) (lr ll : List Line) (op : Line)
    (h1 : INT_MIN ≤ s.depth) (h2 : s.depth + 1 ≤ INT_MAX)
    (hr : gen_expr (some r) s = Res.ok () (s.emit lr))
    (hl : gen_expr (some l) ((s.emit (lr ++ [push_line])).set_depth (s.depth + 1)) =
      Res.ok () (((s.emit (lr ++ [push_line])).set_depth (s.depth + 1)).emit ll)) :
    ((gen_expr (some r) s).bind fun _ s =>
      (push s).bind fun _ s =>
      (gen_expr (some l) s).bind fun _ s =>
      (pop "rdi" s).bind fun _ s =>
      printf op.fmt op.args s) =
      Res.ok () (s.emit (lr ++ push_line :: ll ++ [pop_line "rdi"] ++ [op])) := by
  have hmin : INT_MIN ≤ s.depth + 1 := by omega
  rw [hr, Res.ok_bind, push_ok _ (by simpa using hmin) (by simpa using h2), Res.ok_bind]
  simp only [St.emit_emit, St.emit_depth]
  rw [hl, Res.ok_bind, pop_ok _ _ (by simp; omega) (by simp; omega), Res.ok_bind, printf_eq]
  congr 1
  simp [St.set_depth, St.emit]

theorem gen_expr_arith (n : Node) (v : Int) (h : Arith n v) :
    ∀ s : St, INT_MIN ≤ s.depth → s.depth + (sizeOf n : Int) ≤ INT_MAX →
      ∃ ls, gen_expr (some n) s = Res.ok () (s.emit ls) ∧
        ∀ m : Machine, ∃ rdi, exec ls m = some (Machine.mk v rdi m.stack) := by
  induction h with
  | num n hk =>
    intro s _ _
    refine ⟨[Line.mk "mov $%d, rax\n" [Arg.int n.val]], ?_, fun m => ⟨m.rdi, ?_⟩⟩
    · rw [gen_expr_of_num n s hk, printf_eq]
    · simp [exec, exec_mov]
  | neg n l a hk hl _ ih =>
    intro s h1 h2
    have hsz := n.sizeOf_lhs
    rw [hl] at hsz
    simp only [Option.some.sizeOf_spec] at hsz
    obtain ⟨ls, hg, hx⟩ := ih s h1 (by omega)
    refine ⟨ls ++ [Line.mk "neg rax\n" []], ?_, fun m => ?_⟩
    · rw [gen_expr_of_neg n s hk, hl, hg, Res.ok_bind, printf_eq, St.emit_emit]
    · obtain ⟨d, hd⟩ := hx m
      exact ⟨d, by simp [exec_append, hd, exec, exec_neg]⟩
  | add n l r a b hk hl hr _ _ ihl ihr =>
    intro s h1 h2
    have hsl := n.sizeOf_lhs
    have hsr := n.sizeOf_rhs
    rw [hl] at hsl
    rw [hr] at hsr
    simp only [Option.some.sizeOf_spec] at hsl hsr
    obtain ⟨lr, hgr, hxr⟩ := ihr s h1 (by omega)
    obtain ⟨ll, hgl, hxl⟩ := ihl ((s.emit (lr ++ [push_line])).set_depth (s.depth + 1))
      (by simp; omega) (by simp; omega)
    refine ⟨lr ++ push_line :: ll ++ [pop_line "rdi"] ++ [Line.mk "add rdi, rax\n" []], ?_,
      exec_operands lr ll _ a b (fun x y => x + y) hxr hxl exec_add⟩
    rw [gen_expr_of_add n s hk, hl, hr]
    exact gen_operands_ok l r s lr ll (Line.mk "add rdi, rax\n" []) h1 (by omega) hgr hgl
  | sub n l r a b hk hl hr _ _ ihl ihr =>
    intro s h1 h2
    have hsl := n.sizeOf_lhs
    have hsr := n.sizeOf_rhs
    rw [hl] at hsl
    rw [hr] at hsr
    simp only [Option.some.sizeOf_spec] at hsl hsr
    obtain ⟨lr, hgr, hxr⟩ := ihr s h1 (by omega)
    obtain ⟨ll, hgl, hxl⟩ := ihl ((s.emit (lr ++ [push_line])).set_depth (s.depth + 1))
      (by simp; omega) (by simp; omega)
    refine ⟨lr ++ push_line :: ll ++ [pop_line "rdi"] ++ [Line.mk "sub rdi, rax\n" []], ?_,
      exec_operands lr ll _ a b (fun x y => x - y) hxr hxl exec_sub⟩
    rw [gen_expr_of_sub n s hk, hl, hr]
    exact gen_operands_ok l r s lr ll (Line.mk "sub rdi, rax\n" []) h1 (by omega) hgr hgl
  | mul n l r a b hk hl hr _ _ ihl ihr =>
    intro s h1 h2
    have hsl := n.sizeOf_lhs
    have hsr := n.sizeOf_rhs
    rw [hl] at hsl
    rw [hr] at hsr
    simp only [Option.some.sizeOf_spec] at hsl hsr
    obtain ⟨lr, hgr, hxr⟩ := ihr s h1 (by omega)
    obtain ⟨ll, hgl, hxl⟩ := ihl ((s.emit (lr ++ [push_line])).set_depth (s.depth + 1))
      (by simp; omega) (by simp; omega)
    refine ⟨lr ++ push_line :: ll ++ [pop_line "rdi"] ++ [Line.mk "imul rdi, rax\n" []], ?_,
      exec_operands lr ll _ a b (fun x y => x * y) hxr hxl exec_imul⟩
    rw [gen_expr_of_mul n s hk, hl, hr]
    exact gen_operands_ok l r s lr ll (Line.mk "imul rdi, rax\n" []) h1 (by omega) hgr hgl

theorem ex_arith_value : Arith ex_arith 7 :=
  Arith.add ex_arith (new_num 1 0) (new_binary NodeKind.ND_MUL (new_num 2 2) (new_num 3 4) 3)
    (wrap64 1) (wrap64 (wrap64 2 * wrap64 3)) rfl rfl rfl (Arith.num (new_num 1 0) rfl)
    (Arith.mul (new_binary NodeKind.ND_MUL (new_num 2 2) (new_num 3 4) 3) (new_num 2 2)
      (new_num 3 4) (wrap64 2) (wrap64 3) rfl rfl rfl (Arith.num (new_num 2 2) rfl)
      (Arith.num (new_num 3 4) rfl))

/-! ### Calls -/

theorem gen_args_shape (args : List Node) :
    ∀ (k : Nat) (s : St) (n : Nat) (t : St), gen_args args k s = Res.ok n t →
      n = k + args.length ∧
      ∃ codes, ArgsCode s args codes ∧ (∀ c ∈ codes, Balanced c) ∧
        t = (s.emit ((codes.map fun c => c ++ [push_line]).flatten)).set_depth
          (s.depth + args.length) := by
  induction args with
  | nil =>
    intro k s n t h
    rw [gen_args] at h
    cases h
    exact ⟨rfl, [], trivial, by simp, by simp [St.set_depth]⟩
  | cons a rest ih =>
    intro k s n t h
    rw [gen_args] at h
    simp only [Res.bind_unit_eq_ok, push_eq_ok] at h
    obtain ⟨t1, ha, t2, ⟨_, rfl⟩, hrest⟩ := h
    obtain ⟨c, rfl, hc⟩ := gen_expr_ok _ _ _ ha
    obtain ⟨rfl, cs, hcs, hbal, rfl⟩ := ih _ _ _ _ hrest
    refine ⟨by simp only [List.length_cons]; omega, c :: cs, ⟨ha, ?_⟩, ?_, ?_⟩
    · simpa using hcs
    · intro x hx
      rcases List.mem_cons.1 hx with rfl | hx
      · exact ExprCode.balanced _ hc
      · exact hbal x hx
    · simp [St.set_depth, St.emit, add_assoc, add_comm]
      omega

theorem pop_args_shape (i : Nat) :
    ∀ (s t : St), pop_args i s = Res.ok () t →
      i ≤ 6 ∧ t = (s.emit (pop_lines i)).set_depth (s.depth - i) := by
  induction i with
  | zero =>
    intro s t h
    rw [pop_args_zero] at h
    cases h
    exact ⟨by omega, by simp [pop_lines, St.set_depth]⟩
  | succ i ih =>
    intro s t h
    rw [pop_args_succ_eq_ok] at h
    obtain ⟨r, s1, hr, hp, hrest⟩ := h
    rw [pop_eq_ok] at hp
    obtain ⟨_, rfl⟩ := hp
    obtain ⟨hi, rfl⟩ := ih _ _ hrest
    have hlt : i < argreg.length := by
      by_contra hc
      rw [List.getElem?_eq_none (by omega)] at hr
      cases hr
    refine ⟨by simp only [argreg, List.length_cons, List.length_nil] at hlt; omega, ?_⟩
    have htake : argreg.take (i + 1) = argreg.take i ++ [r] := by
      rw [List.take_succ, hr]
      rfl
    simp only [pop_lines, htake, List.reverse_append, List.reverse_cons, List.reverse_nil,
      List.nil_append, List.singleton_append, List.map_cons]
    simp [St.set_depth, St.emit]
    omega

theorem gen_expr_ex_call_is_ok : (gen_expr (some ex_call) (St.start mem0)).is_ok = true :=
  (gen_expr_f_eq 1000 (some ex_call) _ (by decide)) ▸ (by decide! :
    (gen_expr_f 1000 (some ex_call) (St.start mem0)).is_ok = true)

/-- The lines printed for `f(1, x)`. -/
theorem gen_expr_ex_call_out :
    (gen_expr (some ex_call) (St.start mem0)).out =
      [Line.mk "mov $%d, rax\n" [Arg.int 1], push_line,
       Line.mk "lea $_%d, rax\n" [Arg.int 0], Line.mk "mov (rax), rax\n" [], push_line,
       pop_line "rsi", pop_line "rdi",
       Line.mk "mov $0, rax\n" [], Line.mk "call .L.%s\n" [Arg.str "f"]] :=
  (gen_expr_f_eq 1000 (some ex_call) _ (by decide)) ▸ (by decide! :
    (gen_expr_f 1000 (some ex_call) (St.start mem0)).out = _)

theorem ProgCode.prologue_mem (mem : ObjPtr → Int) (prog : List Function) (i j : Int)
    (ls : List Line) (h : ProgCode mem prog i j ls) :
    ∀ (k : Nat) (fn : Function), prog[k]? = some fn →
      ∃ pre post, ls = pre ++ fn_prologue fn ++ post := by
  induction h with
  | nil i => intro k fn hk; simp at hk
  | cons fn rest i j k body tail _ _ _ ih =>
    intro x g hx
    cases x with
    | zero =>
      simp only [List.getElem?_cons_zero, Option.some.injEq] at hx
      subst hx
      exact ⟨[], param_lines mem fn.params 0 ++ body ++ fn_epilogue fn ++ tail, by simp⟩
    | succ x =>
      simp only [List.getElem?_cons_succ] at hx
      obtain ⟨pre, post, rfl⟩ := ih x g hx
      exact ⟨fn_prologue fn ++ param_lines mem fn.params 0 ++ body ++ fn_epilogue fn ++ pre,
        post, by simp⟩

theorem laid_getElem (p q : List Function) (h : List.Forall₂ Laid p q) :
    p.length = q.length ∧
      ∀ (k : Nat) (fn fn' : Function), p[k]? = some fn → q[k]? = some fn' → Laid fn fn' := by
  induction h with
  | nil => exact ⟨rfl, fun k fn fn' hk => by simp at hk⟩
  | cons hab _ ih =>
    refine ⟨by simp [ih.1], ?_⟩
    intro k fn fn' h1 h2
    cases k with
    | zero =>
      simp only [List.getElem?_cons_zero, Option.some.injEq] at h1 h2
      subst h1; subst h2
      exact hab
    | succ k =>
      simp only [List.getElem?_cons_succ] at h1 h2
      exact ih.2 k fn fn' h1 h2

/-! ### Label numbers -/

theorem ExprLine.fmt_not_label (l : Line) (h : ExprLine l) : l.fmt ∉ label_fmts := by
  cases h <;> simp [label_fmts]

theorem ExprCode.lines_not_label (ls : List Line) (h : ExprCode ls) :
    ∀ l ∈ ls, l.fmt ∉ label_fmts := by
  induction h with
  | nil => intro l hl; cases hl
  | line l hl =>
    intro x hx
    rw [List.mem_singleton] at hx
    subst hx
    exact ExprLine.fmt_not_label _ hl
  | append a b _ _ iha ihb =>
    intro x hx
    rcases List.mem_append.1 hx with h | h
    · exact iha x h
    · exact ihb x h
  | wrap a r _ _ ih =>
    intro x hx
    simp only [List.cons_append, List.mem_cons, List.mem_append, List.mem_singleton,
      List.not_mem_nil, or_false] at hx
    rcases hx with rfl | h | rfl
    · decide
    · exact ih x h
    · simp [pop_line, label_fmts]

theorem ExprCode.not_uses (ls : List Line) (h : ExprCode ls) (l : Line) (hl : l ∈ ls) (c : Int) :
    ¬ l.uses c :=
  fun hu => ExprCode.lines_not_label ls h l hl hu.1

theorem uses_je_else (i c : Int) : (je_else_line i).uses c ↔ c = i := by
  simp [Line.uses, je_else_line, label_fmts, eq_comm]

theorem uses_jmp_end (i c : Int) : (jmp_end_line i).uses c ↔ c = i := by
  simp [Line.uses, jmp_end_line, label_fmts, eq_comm]

theorem uses_else_label (i c : Int) : (else_label i).uses c ↔ c = i := by
  simp [Line.uses, else_label, label_fmts, eq_comm]

theorem uses_end_label (i c : Int) : (end_label i).uses c ↔ c = i := by
  simp [Line.uses, end_label, label_fmts, eq_comm]

theorem uses_begin_label (i c : Int) : (begin_label i).uses c ↔ c = i := by
  simp [Line.uses, begin_label, label_fmts, eq_comm]

theorem uses_je_end (i c : Int) : (je_end_line i).uses c ↔ c = i := by
  simp [Line.uses, je_end_line, label_fmts, eq_comm]

theorem uses_jmp_begin (i c : Int) : (jmp_begin_line i).uses c ↔ c = i := by
  simp [Line.uses, jmp_begin_line, label_fmts, eq_comm]

theorem not_uses_cmp_zero (c : Int) : ¬ cmp_zero_line.uses c := by
  simp [Line.uses, cmp_zero_line, label_fmts]

theorem not_uses_jmp_return (f : String) (c : Int) : ¬ (jmp_return_line f).uses c := by
  simp [Line.uses, jmp_return_line, label_fmts]

/-- The labels of a statement carry the numbers the statement took from the
counter. -/
theorem StmtCode.label_range {fname : Option String} {i j : Int} {ls : List Line}
    (h : StmtCode fname i j ls) :
    i ≤ j ∧ ∀ l ∈ ls, ∀ c, l.uses c → i ≤ c ∧ c < j := by
  induction h with
  | nil i => exact ⟨le_refl _, fun l hl => by cases hl⟩
  | expr i ls hc =>
    exact ⟨le_refl _, fun l hl c hu => absurd hu (ExprCode.not_uses ls hc l hl c)⟩
  | ret i ls f _ hc =>
    refine ⟨le_refl _, fun l hl c hu => ?_⟩
    rcases List.mem_append.1 hl with h | h
    · exact absurd hu (ExprCode.not_uses ls hc l h c)
    · rw [List.mem_singleton] at h
      subst h
      exact absurd hu (not_uses_jmp_return f c)
  | seq i j k a b _ _ iha ihb =>
    refine ⟨le_trans iha.1 ihb.1, fun l hl c hu => ?_⟩
    rcases List.mem_append.1 hl with h | h
    · have := iha.2 l h c hu
      omega
    · have := ihb.2 l h c hu
      omega
  | if_ i j k c t e hc _ _ iht ihe =>
    refine ⟨by omega, fun l hl x hu => ?_⟩
    simp only [List.mem_append, List.mem_cons, List.mem_singleton, List.not_mem_nil,
      or_false] at hl
    rcases hl with ((((h | h | h) | h) | h | h) | h) | h
    · exact absurd hu (ExprCode.not_uses c hc l h x)
    · subst h; exact absurd hu (not_uses_cmp_zero x)
    · subst h; rw [uses_je_else] at hu; omega
    · have := iht.2 l h x hu; omega
    · subst h; rw [uses_jmp_end] at hu; omega
    · subst h; rw [uses_else_label] at hu; omega
    · have := ihe.2 l h x hu; omega
    · subst h; rw [uses_end_label] at hu; omega
  | for_ i j k ini cnd body inc _ hcnd _ hinc ihi ihb =>
    refine ⟨by omega, fun l hl x hu => ?_⟩
    simp only [List.mem_append, List.mem_cons, List.mem_singleton, List.not_mem_nil,
      or_false] at hl
    rcases hl with (((((h | h) | h) | h) | h) | h | h)
    · have := ihi.2 l h x hu; omega
    · subst h; rw [uses_begin_label] at hu; omega
    · rcases hcnd with rfl | ⟨e, he, rfl⟩
      · cases h
      · simp only [List.mem_append, List.mem_cons, List.mem_singleton, List.not_mem_nil,
          or_false] at h
        rcases h with h | h | h
        · exact absurd hu (ExprCode.not_uses e he l h x)
        · subst h; exact absurd hu (not_uses_cmp_zero x)
        · subst h; rw [uses_je_end] at hu; omega
    · have := ihb.2 l h x hu; omega
    · exact absurd hu (ExprCode.not_uses inc hinc l h x)
    · subst h; rw [uses_jmp_begin] at hu; omega
    · subst h; rw [uses_end_label] at hu; omega

theorem ExprCode.count_label (ls : List Line) (h : ExprCode ls) (l : Line)
    (hl : l.fmt ∈ label_fmts) : ls.count l = 0 :=
  List.count_eq_zero.2 (fun hm => ExprCode.lines_not_label ls h l hm hl)

theorem end_label_fmt (x : Int) : (end_label x).fmt ∈ label_fmts := by
  simp [end_label, label_fmts]

theorem else_label_fmt (x : Int) : (else_label x).fmt ∈ label_fmts := by
  simp [else_label, label_fmts]

theorem begin_label_fmt (x : Int) : (begin_label x).fmt ∈ label_fmts := by
  simp [begin_label, label_fmts]

/-- Every number a statement took from the counter is the number of exactly
one `.L.end` label and of exactly one `.L.else` or `.L.begin` label, and no
other number is the number of a label of the statement. -/
theorem StmtCode.label_counts (fname : Option String) (i j : Int) (ls : List Line)
    (h : StmtCode fname i j ls) :
    ∀ x : Int, ls.count (end_label x) = (if i ≤ x ∧ x < j then 1 else 0) ∧
      ls.count (else_label x) + ls.count (begin_label x) = (if i ≤ x ∧ x < j then 1 else 0) := by
  induction h with
  | nil i =>
    intro x
    have : ¬ (i ≤ x ∧ x < i) := by omega
    simp [this]
  | expr i ls hc =>
    intro x
    have : ¬ (i ≤ x ∧ x < i) := by omega
    simp [this, ExprCode.count_label ls hc _ (end_label_fmt x),
      ExprCode.count_label ls hc _ (else_label_fmt x),
      ExprCode.count_label ls hc _ (begin_label_fmt x)]
  | ret i ls f _ hc =>
    intro x
    have : ¬ (i ≤ x ∧ x < i) := by omega
    have c1 := ExprCode.count_label ls hc _ (end_label_fmt x)
    have c2 := ExprCode.count_label ls hc _ (else_label_fmt x)
    have c3 := ExprCode.count_label ls hc _ (begin_label_fmt x)
    simp only [List.count_append, c1, c2, c3, this, if_false]
    simp [List.count_cons, jmp_return_line, end_label, else_label, begin_label]
  | seq i j k a b ha hb iha ihb =>
    intro x
    have h1 := ha.label_range.1
    have h2 := hb.label_range.1
    obtain ⟨a1, a2⟩ := iha x
    obtain ⟨b1, b2⟩ := ihb x
    simp only [List.count_append]
    refine ⟨?_, ?_⟩
    · rw [a1, b1]; split_ifs <;> omega
    · have : List.count (else_label x) a + List.count (else_label x) b +
          (List.count (begin_label x) a + List.count (begin_label x) b) =
          (List.count (else_label x) a + List.count (begin_label x) a) +
          (List.count (else_label x) b + List.count (begin_label x) b) := by omega
      rw [this, a2, b2]; split_ifs <;> omega
  | if_ i j k c t e hc ht he iht ihe =>
    intro x
    have h1 := ht.label_range.1
    have h2 := he.label_range.1
    obtain ⟨t1, t2⟩ := iht x
    obtain ⟨e1, e2⟩ := ihe x
    have c1 := ExprCode.count_label c hc _ (end_label_fmt x)
    have c2 := ExprCode.count_label c hc _ (else_label_fmt x)
    have c3 := ExprCode.count_label c hc _ (begin_label_fmt x)
    simp only [List.count_append, c1, c2, c3, t1, e1]
    refine ⟨?_, ?_⟩
    · simp only [List.count_cons, List.count_nil, cmp_zero_line, je_else_line, jmp_end_line,
        else_label, end_label, beq_iff_eq, Line.mk.injEq, List.cons.injEq, Arg.int.injEq,
        and_true, String.reduceEq, false_and, if_false, true_and]
      split_ifs <;> omega
    · simp only [List.count_cons, List.count_nil, cmp_zero_line, je_else_line, jmp_end_line,
        else_label, end_label, begin_label, beq_iff_eq, Line.mk.injEq, List.cons.injEq,
        Arg.int.injEq, and_true, String.reduceEq, false_and, if_false, true_and] at t2 e2 ⊢
      split_ifs at t2 e2 ⊢ <;> omega
  | for_ i j k ini cnd body inc hi hcnd hb hinc ihi ihb =>
    intro x
    have h1 := hi.label_range.1
    have h2 := hb.label_range.1
    obtain ⟨i1, i2⟩ := ihi x
    obtain ⟨b1, b2⟩ := ihb x
    have n1 := ExprCode.count_label inc hinc _ (end_label_fmt x)
    have n2 := ExprCode.count_label inc hinc _ (else_label_fmt x)
    have n3 := ExprCode.count_label inc hinc _ (begin_label_fmt x)
    have d : cnd.count (end_label x) = 0 ∧ cnd.count (else_label x) = 0 ∧
        cnd.count (begin_label x) = 0 := by
      rcases hcnd with rfl | ⟨e, he, rfl⟩
      · simp
      · have c1 := ExprCode.count_label e he _ (end_label_fmt x)
        have c2 := ExprCode.count_label e he _ (else_label_fmt x)
        have c3 := ExprCode.count_label e he _ (begin_label_fmt x)
        simp only [List.count_append, c1, c2, c3]
        simp [List.count_cons, cmp_zero_line, je_end_line, end_label, else_label, begin_label]
    obtain ⟨d1, d2, d3⟩ := d
    simp only [List.count_append, n1, n2, n3, d1, d2, d3, i1, b1]
    refine ⟨?_, ?_⟩
    · simp only [List.count_cons, List.count_nil, begin_label, jmp_begin_line,
        else_label, end_label, beq_iff_eq, Line.mk.injEq, List.cons.injEq, Arg.int.injEq,
        and_true, String.reduceEq, false_and, if_false, true_and]
      split_ifs <;> omega
    · simp only [List.count_cons, List.count_nil, begin_label, jmp_begin_line,
        else_label, end_label, beq_iff_eq, Line.mk.injEq, List.cons.injEq,
        Arg.int.injEq, and_true, String.reduceEq, false_and, if_false, true_and] at i2 b2 ⊢
      split_ifs at i2 b2 ⊢ <;> omega

theorem count_label_of_plain (p : List Line) (hp : ∀ l ∈ p, l.fmt ∉ label_fmts) (l : Line)
    (hl : l.fmt ∈ label_fmts) : p.count l = 0 :=
  List.count_eq_zero.2 (fun hm => hp l hm hl)

theorem fn_prologue_plain (fn : Function) : ∀ l ∈ fn_prologue fn, l.fmt ∉ label_fmts := by
  intro l hl
  simp only [fn_prologue, List.mem_cons, List.mem_singleton, List.not_mem_nil, or_false] at hl
  rcases hl with rfl | rfl | rfl | rfl <;> simp [label_fmts]

theorem fn_epilogue_plain (fn : Function) : ∀ l ∈ fn_epilogue fn, l.fmt ∉ label_fmts := by
  intro l hl
  simp only [fn_epilogue, List.mem_cons, List.mem_singleton, List.not_mem_nil, or_false] at hl
  rcases hl with rfl | rfl | rfl | rfl <;> simp [label_fmts]

theorem param_lines_plain (mem : ObjPtr → Int) (params : List ObjPtr) :
    ∀ (i : Nat), ∀ l ∈ param_lines mem params i, l.fmt ∉ label_fmts := by
  induction params with
  | nil => intro i l hl; simp [param_lines] at hl
  | cons v rest ih =>
    intro i l hl
    simp only [param_lines, List.mem_cons] at hl
    rcases hl with rfl | hl
    · simp [label_fmts]
    · exact ih _ l hl

theorem ProgCode.prog_label_range {mem : ObjPtr → Int} {prog : List Function} {i j : Int}
    {ls : List Line} (h : ProgCode mem prog i j ls) :
    i ≤ j ∧ ∀ l ∈ ls, ∀ c, l.uses c → i ≤ c ∧ c < j := by
  induction h with
  | nil i => exact ⟨le_refl _, fun l hl => by cases hl⟩
  | cons fn rest i j k body tail _ hb _ ih =>
    have hr := hb.label_range
    refine ⟨by omega, fun l hl c hu => ?_⟩
    simp only [List.mem_append] at hl
    rcases hl with (((h | h) | h) | h) | h
    · exact absurd hu.1 (fn_prologue_plain fn l h)
    · exact absurd hu.1 (param_lines_plain mem fn.params 0 l h)
    · have := hr.2 l h c hu; omega
    · exact absurd hu.1 (fn_epilogue_plain fn l h)
    · have := ih.2 l h c hu; omega

theorem ProgCode.prog_label_counts {mem : ObjPtr → Int} {prog : List Function} {i j : Int}
    {ls : List Line} (h : ProgCode mem prog i j ls) :
    ∀ x : Int, ls.count (end_label x) = (if i ≤ x ∧ x < j then 1 else 0) ∧
      ls.count (else_label x) + ls.count (begin_label x) = (if i ≤ x ∧ x < j then 1 else 0) := by
  induction h with
  | nil i =>
    intro x
    have : ¬ (i ≤ x ∧ x < i) := by omega
    simp [this]
  | cons fn rest i j k body tail _ hb ht ih =>
    intro x
    have h1 := hb.label_range.1
    have h2 := ht.prog_label_range.1
    obtain ⟨b1, b2⟩ := StmtCode.label_counts _ _ _ _ hb x
    obtain ⟨t1, t2⟩ := ih x
    have p1 := count_label_of_plain _ (fn_prologue_plain fn) _ (end_label_fmt x)
    have p2 := count_label_of_plain _ (fn_prologue_plain fn) _ (else_label_fmt x)
    have p3 := count_label_of_plain _ (fn_prologue_plain fn) _ (begin_label_fmt x)
    have q1 := count_label_of_plain _ (fn_epilogue_plain fn) _ (end_label_fmt x)
    have q2 := count_label_of_plain _ (fn_epilogue_plain fn) _ (else_label_fmt x)
    have q3 := count_label_of_plain _ (fn_epilogue_plain fn) _ (begin_label_fmt x)
    have r1 := count_label_of_plain _ (param_lines_plain mem fn.params 0) _ (end_label_fmt x)
    have r2 := count_label_of_plain _ (param_lines_plain mem fn.params 0) _ (else_label_fmt x)
    have r3 := count_label_of_plain _ (param_lines_plain mem fn.params 0) _ (begin_label_fmt x)
    simp only [List.count_append, p1, p2, p3, q1, q2, q3, r1, r2, r3, b1, t1]
    refine ⟨?_, ?_⟩
    · split_ifs <;> omega
    · split_ifs at b2 t2 ⊢ <;> omega

/-- The output of a completed `if` node. -/
theorem gen_stmt_if_shape (n : Node) (s s' : St) (hk : n.kind = NodeKind.ND_IF)
    (h : gen_stmt (some n) s = Res.ok () s') :
    ∃ a b c, s'.out = s.out ++ a ++ [cmp_zero_line, je_else_line s.i] ++ b ++
        [jmp_end_line s.i, else_label s.i] ++ c ++ [end_label s.i] ∧
      ∀ l ∈ a ++ b ++ c, ¬ l.uses s.i := by
  rw [gen_stmt] at h
  simp only [hk] at h
  rw [Res.bind_eq_ok] at h
  obtain ⟨c, t0, h0, h⟩ := h
  rw [count_eq_ok] at h0
  obtain ⟨_, rfl, rfl⟩ := h0
  simp only [Res.bind_unit_eq_ok, printf_eq] at h
  obtain ⟨t1, h1, t2, h2, t3, h3, t4, h4, t5, h5, t6, h6, t7, h7, h8⟩ := h
  obtain ⟨lc, rfl, cc⟩ := gen_expr_ok _ _ _ h1
  cases h2; cases h3
  obtain ⟨lt, rfl, ct⟩ := gen_stmt_ok _ _ _ h4
  cases h5; cases h6
  obtain ⟨le, rfl, ce⟩ := gen_stmt_opt_ok _ (stmtOk_all _) _ _ h7
  cases h8
  simp only [St.set_i_i, St.emit_i, St.set_i_current_fn, St.emit_current_fn] at ct ce
  refine ⟨lc, lt, le, ?_, ?_⟩
  · simp [St.set_i, St.emit, cmp_zero_line, je_else_line, jmp_end_line, else_label, end_label]
  · intro l hl hu
    simp only [List.mem_append] at hl
    rcases hl with (hl | hl) | hl
    · exact ExprCode.not_uses lc cc l hl _ hu
    · have := ct.label_range.2 l hl _ hu
      omega
    · have h1 := ct.label_range.1
      have := ce.label_range.2 l hl _ hu
      omega

/-- The output of a completed `for` node. -/
theorem gen_stmt_for_shape (n : Node) (s s' : St) (hk : n.kind = NodeKind.ND_FOR)
    (h : gen_stmt (some n) s = Res.ok () s') :
    ∃ a cnd b, s'.out = s.out ++ a ++ [begin_label s.i] ++ cnd ++ b ++
        [jmp_begin_line s.i, end_label s.i] ∧
      (∀ l ∈ a ++ b, ¬ l.uses s.i) ∧ ∀ l ∈ cnd, l.uses s.i → l = je_end_line s.i := by
  rw [gen_stmt] at h
  simp only [hk] at h
  rw [Res.bind_eq_ok] at h
  obtain ⟨c, t0, h0, h⟩ := h
  rw [count_eq_ok] at h0
  obtain ⟨_, rfl, rfl⟩ := h0
  simp only [Res.bind_unit_eq_ok, printf_eq] at h
  obtain ⟨t1, h1, t2, h2, t3, h3, t4, h4, t5, h5, t6, h6, h7⟩ := h
  obtain ⟨li, rfl, ci⟩ := gen_stmt_opt_ok _ (stmtOk_all _) _ _ h1
  cases h2
  obtain ⟨lc, rfl, cc⟩ := gen_cond_opt_ok _ _ _ _ h3
  obtain ⟨lb, rfl, cb⟩ := gen_stmt_ok _ _ _ h4
  obtain ⟨ln, rfl, cn⟩ := gen_expr_opt_ok _ _ _ h5
  cases h6; cases h7
  simp only [St.set_i_i, St.emit_i, St.set_i_current_fn, St.emit_current_fn] at ci cb
  refine ⟨li, lc, lb ++ ln, ?_, ?_, ?_⟩
  · simp [St.set_i, St.emit, begin_label, jmp_begin_line, end_label]
  · intro l hl hu
    simp only [List.mem_append] at hl
    rcases hl with hl | hl | hl
    · have := ci.label_range.2 l hl _ hu
      omega
    · have h1 := ci.label_range.1
      have := cb.label_range.2 l hl _ hu
      omega
    · exact ExprCode.not_uses ln cn l hl _ hu
  · intro l hl hu
    rcases cc with rfl | ⟨e, he, rfl⟩
    · cases hl
    · simp only [List.mem_append, List.mem_cons, List.mem_singleton, List.not_mem_nil,
        or_false] at hl
      rcases hl with hl | rfl | rfl
      · exact absurd hu (ExprCode.not_uses e he l hl _)
      · exact absurd hu (not_uses_cmp_zero _)
      · rfl

theorem prog_if_for_nodes_laid (p q : List Function) (h : List.Forall₂ Laid p q) :
    prog_if_for_nodes q = prog_if_for_nodes p := by
  induction h with
  | nil => rfl
  | cons hab _ ih =>
    have hb := congrArg Function.body hab.1
    simp only at hb
    simp only [prog_if_for_nodes, ih, hb]

/-! ### Binary operators -/

theorem gen_expr_of_binary (n : Node) (s : St) (hk : n.kind ∈ binary_kinds) :
    gen_expr (some n) s =
      (gen_expr n.rhs s).bind fun _ s =>
      (push s).bind fun _ s =>
      (gen_expr n.lhs s).bind fun _ s =>
      (pop "rdi" s).bind fun _ s =>
      Res.ok () (s.emit (op_lines n.kind)) := by
  simp only [binary_kinds, List.mem_cons, List.mem_singleton, List.not_mem_nil, or_false] at hk
  rcases hk with hk | hk | hk | hk | hk | hk | hk | hk <;>
    (rw [gen_expr]; simp only [hk, op_lines, printf_eq, Res.ok_bind, St.emit_emit]; try rfl)

theorem gen_expr_binary_ok (n : Node) (s s' : St) (hk : n.kind ∈ binary_kinds)
    (h : gen_expr (some n) s = Res.ok () s') :
    ∃ lr ll, gen_expr n.rhs s = Res.ok () (s.emit lr) ∧
      gen_expr n.lhs ((s.emit (lr ++ [push_line])).set_depth (s.depth + 1)) =
        Res.ok () (((s.emit (lr ++ [push_line])).set_depth (s.depth + 1)).emit ll) ∧
      s' = s.emit (lr ++ [push_line] ++ ll ++ [pop_line "rdi"] ++ op_lines n.kind) := by
  rw [gen_expr_of_binary n s hk] at h
  simp only [Res.bind_unit_eq_ok] at h
  obtain ⟨t1, h1, t2, h2, t3, h3, t4, h4, h5⟩ := h
  obtain ⟨lr, rfl, _⟩ := gen_expr_ok _ _ _ h1
  rw [push_eq_ok] at h2
  obtain ⟨_, rfl⟩ := h2
  obtain ⟨ll, rfl, _⟩ := gen_expr_ok _ _ _ h3
  rw [pop_eq_ok] at h4
  obtain ⟨_, rfl⟩ := h4
  cases h5
  refine ⟨lr, ll, h1, ?_, ?_⟩
  · simpa only [St.emit_emit, St.emit_depth] using h3
  · simp [St.set_depth, St.emit]

theorem gen_expr_binary_total (n : Node) (s : St) (lr ll : List Line)
    (hk : n.kind ∈ binary_kinds) (h1 : INT_MIN ≤ s.depth) (h2 : s.depth + 1 ≤ INT_MAX)
    (hr : gen_expr n.rhs s = Res.ok () (s.emit lr))
    (hl : gen_expr n.lhs ((s.emit (lr ++ [push_line])).set_depth (s.depth + 1)) =
      Res.ok () (((s.emit (lr ++ [push_line])).set_depth (s.depth + 1)).emit ll)) :
    gen_expr (some n) s =
      Res.ok () (s.emit (lr ++ [push_line] ++ ll ++ [pop_line "rdi"] ++ op_lines n.kind)) := by
  have hmin : INT_MIN ≤ s.depth + 1 := by omega
  rw [gen_expr_of_binary n s hk, hr, Res.ok_bind,
    push_ok _ (by simpa using hmin) (by simpa using h2), Res.ok_bind]
  simp only [St.emit_emit, St.emit_depth]
  rw [hl, Res.ok_bind, pop_ok _ _ (by simp; omega) (by simp; omega), Res.ok_bind]
  congr 1
  simp [St.set_depth, St.emit]

/-! ### The `if` statement -/

theorem gen_stmt_of_if (n : Node) (s : St) (hk : n.kind = NodeKind.ND_IF) :
    gen_stmt (some n) s =
      (count s).bind fun c s =>
      (gen_expr n.cond s).bind fun _ s =>
      (printf "cmp $0, rax\n" [] s).bind fun _ s =>
      (printf "je .L.else_%d\n" [Arg.int c] s).bind fun _ s =>
      (gen_stmt n.then_ s).bind fun _ s =>
      (printf "jmp .L.end_%d\n" [Arg.int c] s).bind fun _ s =>
      (printf ".L.else_%d:\n" [Arg.int c] s).bind fun _ s =>
      (if n.els.isSome then gen_stmt n.els s else Res.ok () s).bind fun _ s =>
      printf ".L.end_%d:\n" [Arg.int c] s := by
  rw [gen_stmt]; simp only [hk]

theorem count_ok (s : St) (h1 : INT_MIN ≤ s.i + 1) (h2 : s.i + 1 ≤ INT_MAX) :
    count s = Res.ok s.i (s.set_i (s.i + 1)) :=
  (count_eq_ok s _ _).2 ⟨⟨h1, h2⟩, rfl, rfl⟩

/-- Lines that name no label with the number `c` hold no line equal to one
that does. -/
theorem count_of_not_uses (ls : List Line) (c : Int) (h : ∀ l ∈ ls, ¬ l.uses c) (l : Line)
    (hl : l.uses c) : ls.count l = 0 :=
  List.count_eq_zero.2 fun hm => h l hm hl

theorem gen_stmt_if_runs (n : Node) (s s' : St) (hk : n.kind = NodeKind.ND_IF)
    (h : gen_stmt (some n) s = Res.ok () s') :
    ∃ lc lt le t1 t2,
      gen_expr n.cond (s.set_i (s.i + 1)) = Res.ok () ((s.set_i (s.i + 1)).emit lc) ∧
      gen_stmt n.then_ ((s.set_i (s.i + 1)).emit (lc ++ [cmp_zero_line, je_else_line s.i])) =
        Res.ok () t1 ∧
      t1.out = s.out ++ (lc ++ [cmp_zero_line, je_else_line s.i]) ++ lt ∧
      (n.els = none → t2 = t1.emit [jmp_end_line s.i, else_label s.i] ∧ le = []) ∧
      (n.els ≠ none →
        gen_stmt n.els (t1.emit [jmp_end_line s.i, else_label s.i]) = Res.ok () t2 ∧
        t2.out = t1.out ++ [jmp_end_line s.i, else_label s.i] ++ le) ∧
      s' = t2.emit [end_label s.i] ∧
      s'.out = s.out ++ (lc ++ [cmp_zero_line, je_else_line s.i] ++ lt ++
        [jmp_end_line s.i, else_label s.i] ++ le ++ [end_label s.i]) ∧
      (∀ l ∈ lc ++ lt ++ le, ¬ l.uses s.i) := by
  rw [gen_stmt_of_if n s hk, Res.bind_eq_ok] at h
  obtain ⟨c, t0, h0, h⟩ := h
  rw [count_eq_ok] at h0
  obtain ⟨_, rfl, rfl⟩ := h0
  simp only [Res.bind_unit_eq_ok, printf_eq] at h
  obtain ⟨t1, h1, t2, h2, t3, h3, t4, h4, t5, h5, t6, h6, t7, h7, h8⟩ := h
  obtain ⟨lc, rfl, cc⟩ := gen_expr_ok _ _ _ h1
  cases h2; cases h3
  obtain ⟨lt, ht4, ct⟩ := gen_stmt_ok _ _ _ h4
  cases h5; cases h6
  simp only [St.emit_emit, List.append_assoc, List.singleton_append] at h4 ht4 ct h7
  simp only [St.set_i_i, St.emit_i, St.set_i_current_fn, St.emit_current_fn] at ct
  have hu1 : ∀ l ∈ lc ++ lt, ¬ l.uses s.i := by
    intro l hl hu
    rcases List.mem_append.1 hl with hl | hl
    · exact ExprCode.not_uses lc cc l hl _ hu
    · have := ct.label_range.2 l hl _ hu
      omega
  cases hels : n.els with
  | none =>
    rw [hels] at h7
    simp only [Option.isSome_none, Bool.false_eq_true, if_false] at h7
    cases h7
    cases h8
    refine ⟨lc, lt, [], t4, _, h1, h4, ?_, fun _ => ⟨rfl, rfl⟩, fun hne => absurd rfl hne,
      rfl, ?_, ?_⟩
    · rw [ht4]; simp [St.set_i, St.emit, cmp_zero_line, je_else_line]
    · rw [ht4]
      simp [St.set_i, St.emit, cmp_zero_line, je_else_line, jmp_end_line, else_label, end_label]
    · simpa using hu1
  | some e =>
    rw [hels] at h7
    simp only [Option.isSome_some, if_true] at h7
    obtain ⟨le, ht7, ce⟩ := gen_stmt_ok _ _ _ h7
    cases h8
    refine ⟨lc, lt, le, t4, t7, h1, h4, ?_, fun hn => Option.noConfusion hn, fun _ => ⟨h7, ?_⟩,
      rfl, ?_, ?_⟩
    · rw [ht4]; simp [St.set_i, St.emit, cmp_zero_line, je_else_line]
    · rw [ht7]; simp [St.set_i, St.emit, jmp_end_line, else_label]
    · rw [ht7, ht4]
      simp [St.set_i, St.emit, cmp_zero_line, je_else_line, jmp_end_line, else_label, end_label]
    · intro l hl hu
      rcases List.mem_append.1 hl with hl | hl
      · exact hu1 l hl hu
      · rw [ht4] at ce
        simp only [St.set_i_i, St.emit_i, St.set_i_current_fn, St.emit_current_fn] at ce
        have h1 := ct.label_range.1
        have := ce.label_range.2 l hl _ hu
        omega

theorem gen_stmt_if_total (n : Node) (s : St) (lc : List Line) (t1 t2 : St)
    (hk : n.kind = NodeKind.ND_IF) (h1 : INT_MIN ≤ s.i + 1) (h2 : s.i + 1 ≤ INT_MAX)
    (hc : gen_expr n.cond (s.set_i (s.i + 1)) = Res.ok () ((s.set_i (s.i + 1)).emit lc))
    (ht : gen_stmt n.then_ ((s.set_i (s.i + 1)).emit (lc ++ [cmp_zero_line, je_else_line s.i])) =
      Res.ok () t1)
    (he : (if n.els.isSome then gen_stmt n.els (t1.emit [jmp_end_line s.i, else_label s.i])
      else Res.ok () (t1.emit [jmp_end_line s.i, else_label s.i])) = Res.ok () t2) :
    gen_stmt (some n) s = Res.ok () (t2.emit [end_label s.i]) := by
  rw [gen_stmt_of_if n s hk, count_ok s h1 h2, Res.ok_bind, hc, Res.ok_bind]
  simp only [printf_eq, Res.ok_bind, St.emit_emit]
  have e1 : ([Line.mk "cmp $0, rax\n" [], Line.mk "je .L.else_%d\n" [Arg.int s.i]] : List Line) =
      [cmp_zero_line, je_else_line s.i] := rfl
  have e2 : ([Line.mk "jmp .L.end_%d\n" [Arg.int s.i], Line.mk ".L.else_%d:\n" [Arg.int s.i]] :
      List Line) = [jmp_end_line s.i, else_label s.i] := rfl
  simp only [List.append_assoc, List.singleton_append] at ht ⊢
  rw [e1, ht, Res.ok_bind, e2, he, Res.ok_bind]
  rfl

theorem gen_stmt_ex_if_is_ok : (gen_stmt (some ex_if) (St.start mem0)).is_ok = true :=
  (gen_stmt_f_eq 1000 (some ex_if) _ (by decide)) ▸ (by decide! :
    (gen_stmt_f 1000 (some ex_if) (St.start mem0)).is_ok = true)

/-! ### The `for` statement -/

theorem gen_stmt_of_for (n : Node) (s : St) (hk : n.kind = NodeKind.ND_FOR) :
    gen_stmt (some n) s =
      (count s).bind fun c s =>
      (if n.init.isSome then gen_stmt n.init s else Res.ok () s).bind fun _ s =>
      (printf ".L.begin_%d:\n" [Arg.int c] s).bind fun _ s =>
      (if n.cond.isSome then
        (gen_expr n.cond s).bind fun _ s =>
        (printf "cmp $0, rax\n" [] s).bind fun _ s =>
        printf "je .L.end_%d\n" [Arg.int c] s
      else Res.ok () s).bind fun _ s =>
      (gen_stmt n.then_ s).bind fun _ s =>
      (if n.inc.isSome then gen_expr n.inc s else Res.ok () s).bind fun _ s =>
      (printf "jmp .L.begin_%d\n" [Arg.int c] s).bind fun _ s =>
      printf ".L.end_%d:\n" [Arg.int c] s := by
  rw [gen_stmt]; simp only [hk]

theorem gen_stmt_for_runs (n : Node) (s s' : St) (hk : n.kind = NodeKind.ND_FOR)
    (h : gen_stmt (some n) s = Res.ok () s') :
    ∃ li lc lb ln t1 t2,
      (n.init = none → t1 = s.set_i (s.i + 1) ∧ li = []) ∧
      (n.init ≠ none →
        gen_stmt n.init (s.set_i (s.i + 1)) = Res.ok () t1 ∧ t1.out = s.out ++ li) ∧
      (n.cond = none → lc = []) ∧
      (n.cond ≠ none → ∃ e,
        gen_expr n.cond (t1.emit [begin_label s.i]) =
          Res.ok () ((t1.emit [begin_label s.i]).emit e) ∧
        lc = e ++ [cmp_zero_line, je_end_line s.i]) ∧
      gen_stmt n.then_ (t1.emit ([begin_label s.i] ++ lc)) = Res.ok () t2 ∧
      t2.out = t1.out ++ ([begin_label s.i] ++ lc) ++ lb ∧
      (n.inc = none → ln = []) ∧
      (n.inc ≠ none → gen_expr n.inc t2 = Res.ok () (t2.emit ln)) ∧
      s' = t2.emit (ln ++ [jmp_begin_line s.i, end_label s.i]) ∧
      s'.out = s.out ++ (li ++ [begin_label s.i] ++ lc ++ lb ++ ln ++
        [jmp_begin_line s.i, end_label s.i]) ∧
      (∀ l ∈ li ++ lb ++ ln, ¬ l.uses s.i) ∧
      (∀ l ∈ lc, l.uses s.i → l = je_end_line s.i) := by
  rw [gen_stmt_of_for n s hk, Res.bind_eq_ok] at h
  obtain ⟨c, t0, h0, h⟩ := h
  rw [count_eq_ok] at h0
  obtain ⟨_, rfl, rfl⟩ := h0
  rw [Res.bind_unit_eq_ok] at h
  obtain ⟨t1, h1, h⟩ := h
  rw [Res.bind_unit_eq_ok] at h
  obtain ⟨t2, h2, h⟩ := h
  rw [printf_eq] at h2
  cases h2
  rw [Res.bind_unit_eq_ok] at h
  obtain ⟨t3, h3, h⟩ := h
  rw [Res.bind_unit_eq_ok] at h
  obtain ⟨t4, h4, h⟩ := h
  rw [Res.bind_unit_eq_ok] at h
  obtain ⟨t5, h5, h⟩ := h
  simp only [printf_eq, Res.ok_bind, St.emit_emit] at h
  cases h
  -- the init statement
  have hi : ∃ li, t1.out = s.out ++ li ∧ t1.i = s.i + 1 + if_for_nodes n.init ∧
      t1.current_fn = s.current_fn ∧
      StmtCode (s.current_fn.map Function.name) (s.i + 1) (s.i + 1 + if_for_nodes n.init) li ∧
      (n.init = none → t1 = s.set_i (s.i + 1) ∧ li = []) := by
    cases hin : n.init with
    | none =>
      rw [hin] at h1
      simp only [Option.isSome_none, Bool.false_eq_true, if_false] at h1
      cases h1
      refine ⟨[], by simp, ?_, rfl, ?_, fun _ => ⟨rfl, rfl⟩⟩
      · rw [if_for_nodes]; simp
      · rw [if_for_nodes]; simpa using StmtCode.nil _
    | some e =>
      rw [hin] at h1
      simp only [Option.isSome_some, if_true] at h1
      obtain ⟨li, rfl, ci⟩ := gen_stmt_ok _ _ _ h1
      exact ⟨li, by simp, by simp, rfl, by simpa using ci, fun hn => Option.noConfusion hn⟩
  obtain ⟨li, ho1, hi1, hf1, ci, hnone⟩ := hi
  -- the condition
  have hc : ∃ lc, t3 = (t1.emit [begin_label s.i]).emit lc ∧ (n.cond = none → lc = []) ∧
      (n.cond ≠ none → ∃ e,
        gen_expr n.cond (t1.emit [begin_label s.i]) =
          Res.ok () ((t1.emit [begin_label s.i]).emit e) ∧
        lc = e ++ [cmp_zero_line, je_end_line s.i]) ∧
      (∀ l ∈ lc, l.uses s.i → l = je_end_line s.i) := by
    cases hcn : n.cond with
    | none =>
      rw [hcn] at h3
      simp only [Option.isSome_none, Bool.false_eq_true, if_false] at h3
      cases h3
      exact ⟨[], by simp [begin_label], fun _ => rfl, fun hn => absurd rfl hn,
        fun l hl => by cases hl⟩
    | some e =>
      rw [hcn] at h3
      simp only [Option.isSome_some, if_true, Res.bind_unit_eq_ok, printf_eq] at h3
      obtain ⟨u1, g1, u2, g2, g3⟩ := h3
      obtain ⟨le, rfl, ce⟩ := gen_expr_ok _ _ _ g1
      cases g2
      cases g3
      refine ⟨le ++ [cmp_zero_line, je_end_line s.i], ?_, fun hn => Option.noConfusion hn,
        fun _ => ⟨le, g1, rfl⟩, ?_⟩
      · simp [St.emit, cmp_zero_line, je_end_line, begin_label]
      · intro l hl hu
        simp only [List.mem_append, List.mem_cons, List.mem_singleton, List.not_mem_nil,
          or_false] at hl
        rcases hl with hl | rfl | rfl
        · exact absurd hu (ExprCode.not_uses le ce l hl _)
        · exact absurd hu (not_uses_cmp_zero _)
        · rfl
  obtain ⟨lc, rfl, hcnone, hcsome, hcu⟩ := hc
  -- the body
  obtain ⟨lb, ht4, cb⟩ := gen_stmt_ok _ _ _ h4
  simp only [St.set_i_i, St.emit_i, St.set_i_current_fn, St.emit_current_fn, hi1, hf1] at cb
  -- the increment
  have hn : ∃ ln, t5 = t4.emit ln ∧ ExprCode ln ∧ (n.inc = none → ln = []) ∧
      (n.inc ≠ none → gen_expr n.inc t4 = Res.ok () (t4.emit ln)) := by
    cases hnn : n.inc with
    | none =>
      rw [hnn] at h5
      simp only [Option.isSome_none, Bool.false_eq_true, if_false] at h5
      cases h5
      exact ⟨[], by simp, ExprCode.nil, fun _ => rfl, fun hn => absurd rfl hn⟩
    | some e =>
      rw [hnn] at h5
      simp only [Option.isSome_some, if_true] at h5
      obtain ⟨ln, rfl, cn⟩ := gen_expr_ok _ _ _ h5
      exact ⟨ln, rfl, cn, fun hn => Option.noConfusion hn, fun _ => h5⟩
  obtain ⟨ln, rfl, cn, hnnone, hnsome⟩ := hn
  refine ⟨li, lc, lb, ln, t1, t4, hnone, ?_, hcnone, hcsome, ?_, ?_, hnnone, hnsome, ?_, ?_, ?_,
    hcu⟩
  · intro hne
    cases hin : n.init with
    | none => exact absurd hin hne
    | some e =>
      rw [hin] at h1
      simp only [Option.isSome_some, if_true] at h1
      exact ⟨h1, ho1⟩
  · simpa only [St.emit_emit] using h4
  · rw [ht4]; simp [St.set_i, St.emit]
  · simp [St.emit, jmp_begin_line, end_label]
  · rw [ht4]; simp [St.set_i, St.emit, ho1, jmp_begin_line, end_label, begin_label]
  · intro l hl hu
    simp only [List.mem_append] at hl
    rcases hl with (hl | hl) | hl
    · have := ci.label_range.2 l hl _ hu
      omega
    · have h1 := ci.label_range.1
      have := cb.label_range.2 l hl _ hu
      omega
    · exact ExprCode.not_uses ln cn l hl _ hu

theorem gen_stmt_for_total (n : Node) (s t1 t2 t3 t4 : St)
    (hk : n.kind = NodeKind.ND_FOR) (h1 : INT_MIN ≤ s.i + 1) (h2 : s.i + 1 ≤ INT_MAX)
    (hi : (if n.init.isSome then gen_stmt n.init (s.set_i (s.i + 1))
      else Res.ok () (s.set_i (s.i + 1))) = Res.ok () t1)
    (hc : (if n.cond.isSome then
        (gen_expr n.cond (t1.emit [begin_label s.i])).bind fun _ s1 =>
          Res.ok () (s1.emit [cmp_zero_line, je_end_line s.i])
      else Res.ok () (t1.emit [begin_label s.i])) = Res.ok () t2)
    (hb : gen_stmt n.then_ t2 = Res.ok () t3)
    (hn : (if n.inc.isSome then gen_expr n.inc t3 else Res.ok () t3) = Res.ok () t4) :
    gen_stmt (some n) s = Res.ok () (t4.emit [jmp_begin_line s.i, end_label s.i]) := by
  rw [gen_stmt_of_for n s hk, count_ok s h1 h2, Res.ok_bind, hi, Res.ok_bind, printf_eq,
    Res.ok_bind]
  have hc' : (if n.cond.isSome then
        (gen_expr n.cond (t1.emit [Line.mk ".L.begin_%d:\n" [Arg.int s.i]])).bind fun _ s1 =>
        (printf "cmp $0, rax\n" [] s1).bind fun _ s1 =>
        printf "je .L.end_%d\n" [Arg.int s.i] s1
      else Res.ok () (t1.emit [Line.mk ".L.begin_%d:\n" [Arg.int s.i]])) = Res.ok () t2 := by
    rw [← hc]
    simp only [printf_eq, Res.ok_bind, St.emit_emit]
    rfl
  rw [hc', Res.ok_bind, hb, Res.ok_bind, hn, Res.ok_bind]
  simp only [printf_eq, Res.ok_bind, St.emit_emit]
  rfl

theorem gen_stmt_ex_for_is_ok : (gen_stmt (some ex_for) (St.start mem0)).is_ok = true :=
  (gen_stmt_f_eq 1000 (some ex_for) _ (by decide)) ▸ (by decide! :
    (gen_stmt_f 1000 (some ex_for) (St.start mem0)).is_ok = true)

/-! ### The lines of `gen_stmt` -/

theorem ExprCode.lines_of_stmt (fname : Option String) (ls : List Line) (h : ExprCode ls) :
    ∀ l ∈ ls, StmtLine fname l := by
  induction h with
  | nil => intro l hl; cases hl
  | line l hl =>
    intro l' hl'
    rw [List.mem_singleton] at hl'
    subst hl'
    exact StmtLine.expr _ hl
  | append a b _ _ iha ihb =>
    intro l hl
    rcases List.mem_append.1 hl with hl | hl
    · exact iha l hl
    · exact ihb l hl
  | wrap a r hr _ ih =>
    intro l hl
    simp only [List.mem_cons, List.mem_append, List.mem_singleton, List.not_mem_nil,
      or_false] at hl
    rcases hl with (rfl | hl) | rfl
    · exact StmtLine.push
    · exact ih l hl
    · exact StmtLine.pop r hr

theorem StmtCode.stmt_lines {fname : Option String} {i j : Int} {ls : List Line}
    (h : StmtCode fname i j ls) : ∀ l ∈ ls, StmtLine fname l := by
  induction h with
  | nil i => intro l hl; cases hl
  | expr i ls hc => exact ExprCode.lines_of_stmt fname ls hc
  | ret i ls f hf hc =>
    intro l hl
    rcases List.mem_append.1 hl with hl | hl
    · exact ExprCode.lines_of_stmt fname ls hc l hl
    · rw [List.mem_singleton] at hl
      subst hl
      exact StmtLine.ret f hf
  | seq i j k a b _ _ iha ihb =>
    intro l hl
    rcases List.mem_append.1 hl with hl | hl
    · exact iha l hl
    · exact ihb l hl
  | if_ i j k c t e hc _ _ iht ihe =>
    intro l hl
    simp only [List.mem_append, List.mem_cons, List.mem_singleton, List.not_mem_nil,
      or_false] at hl
    rcases hl with ((((hl | rfl | rfl) | hl) | rfl | rfl) | hl) | rfl
    · exact ExprCode.lines_of_stmt fname c hc l hl
    · exact StmtLine.cmp_zero
    · exact StmtLine.label _ i ((uses_je_else i i).2 rfl)
    · exact iht l hl
    · exact StmtLine.label _ i ((uses_jmp_end i i).2 rfl)
    · exact StmtLine.label _ i ((uses_else_label i i).2 rfl)
    · exact ihe l hl
    · exact StmtLine.label _ i ((uses_end_label i i).2 rfl)
  | for_ i j k ini cnd body inc _ hcnd _ hinc ihi ihb =>
    intro l hl
    simp only [List.mem_append, List.mem_cons, List.mem_singleton, List.not_mem_nil,
      or_false] at hl
    rcases hl with ((((hl | rfl) | hl) | hl) | hl) | rfl | rfl
    · exact ihi l hl
    · exact StmtLine.label _ i ((uses_begin_label i i).2 rfl)
    · rcases hcnd with rfl | ⟨c, hc, rfl⟩
      · cases hl
      · simp only [List.mem_append, List.mem_cons, List.mem_singleton, List.not_mem_nil,
          or_false] at hl
        rcases hl with hl | rfl | rfl
        · exact ExprCode.lines_of_stmt fname c hc l hl
        · exact StmtLine.cmp_zero
        · exact StmtLine.label _ i ((uses_je_end i i).2 rfl)
    · exact ihb l hl
    · exact ExprCode.lines_of_stmt fname inc hinc l hl
    · exact StmtLine.label _ i ((uses_jmp_begin i i).2 rfl)
    · exact StmtLine.label _ i ((uses_end_label i i).2 rfl)

/-- No line of `gen_stmt` is printed with the format of an entry label or of
a return label. -/
theorem StmtLine.fmt_not_fn_label {fname : Option String} {l : Line} (h : StmtLine fname l) :
    l.fmt ≠ ".L.%s:\n" ∧ l.fmt ≠ ".L.return_%s:\n" := by
  cases h with
  | expr l hl => cases hl <;> simp
  | push => simp [push_line]
  | pop r _ => simp [pop_line]
  | cmp_zero => simp [cmp_zero_line]
  | label l c hu =>
    obtain ⟨hf, _⟩ := hu
    constructor
    · intro e; rw [e] at hf; revert hf; decide
    · intro e; rw [e] at hf; revert hf; decide
  | ret f _ => simp [jmp_return_line]

/-! ### The segments of the output of `codegen` -/

theorem param_lines_eq_zipWith (mem : ObjPtr → Int) (params : List ObjPtr) :
    ∀ i : Nat, i + params.length ≤ 6 →
      param_lines mem params i =
        List.zipWith (fun r var => Line.mk "mov %s, $_%d\n" [Arg.str r, Arg.int (mem var)])
          (argreg.drop i) params := by
  induction params with
  | nil => intro i _; simp [param_lines]
  | cons v rest ih =>
    intro i hi
    simp only [List.length_cons] at hi
    have hlt : i < argreg.length := by
      simp only [argreg, List.length_cons, List.length_nil]
      omega
    rw [param_lines, ih (i + 1) (by omega), List.drop_eq_getElem_cons hlt, List.zipWith_cons_cons,
      List.getD_eq_getElem _ _ hlt]

theorem param_lines_eq_moves (mem : ObjPtr → Int) (params : List ObjPtr)
    (h : params.length ≤ 6) : param_lines mem params 0 = param_moves mem params := by
  rw [param_lines_eq_zipWith mem params 0 (by omega)]
  rfl

theorem codegen_fns_segments (prog : List Function) :
    ∀ (s s' : St), codegen_fns prog s = Res.ok () s' →
      (∀ fn ∈ prog, fn.params.length ≤ 6) ∧
      ∃ bodies, BodiesCode s prog bodies ∧
        s'.out = s.out ++ (List.zipWith (segment s.var_offset) prog bodies).flatten := by
  induction prog with
  | nil =>
    intro s s' h
    rw [codegen_fns] at h
    cases h
    exact ⟨fun fn hfn => absurd hfn (List.not_mem_nil fn), [], trivial, by simp⟩
  | cons fn rest ih =>
    intro s s' h
    rw [codegen_fns] at h
    simp only [Res.bind_unit_eq_ok, printf_eq] at h
    obtain ⟨t1, h1, t2, h2, t3, h3, t4, h4, t5, h5, t6, h6, t7, h7, t8, h8, t9, h9, t10, h10,
      t11, h11, t12, h12, h13⟩ := h
    cases h1; cases h2; cases h3; cases h4; cases h5
    obtain ⟨rfl, hlen⟩ := save_params_ok _ _ _ _ h6
    have hp : fn.params.length ≤ 6 := by
      rcases hlen with h0 | h0
      · simp [h0]
      · omega
    obtain ⟨body, ht7, hbody⟩ := gen_stmt_ok _ _ _ h7
    split at h8
    case isFalse => cases h8
    case isTrue hd =>
    cases h8; cases h9; cases h10; cases h11; cases h12
    obtain ⟨hrest, bs, hbs, hout⟩ := ih _ _ h13
    have hent : ((((({ s.emit [Line.mk ".L.%s:\n" [Arg.str fn.name]] with
        current_fn := some fn } : St).emit [Line.mk "push rbp\n" []]).emit
        [Line.mk "mov rsp, rbp\n" []]).emit
        [Line.mk "sub $%d, rsp\n" [Arg.int fn.stack_size]]).emit
        (param_lines s.var_offset fn.params 0)) = s.enter fn := by
      rw [param_lines_eq_moves _ _ hp]
      simp [St.enter, St.emit]
    simp only [St.emit_var_offset] at h7 ht7 hent
    rw [hent] at h7 ht7
    have hlv : (((t7.emit [Line.mk ".L.return_%s:\n" [Arg.str fn.name]]).emit
        [Line.mk "mov rbp, rsp\n" []]).emit [Line.mk "pop rbp\n" []]).emit
        [Line.mk "ret\n" []] = t7.leave fn := by
      simp [St.leave, St.emit]
    rw [hlv] at hbs hout
    have hmem : (t7.leave fn).var_offset = s.var_offset := by
      rw [ht7]; rfl
    have hto : t7.out = (s.enter fn).out ++ body := by
      rw [ht7]; rfl
    refine ⟨?_, body :: bs, ⟨t7, h7, hto, hbs⟩, ?_⟩
    · intro g hg
      rcases List.mem_cons.1 hg with rfl | hg
      · exact hp
      · exact hrest g hg
    · rw [hout, hmem]
      simp [St.leave, St.emit, hto, St.enter, segment]

theorem BodiesCode.length_eq (prog : List Function) :
    ∀ (s : St) (bodies : List (List Line)), BodiesCode s prog bodies →
      bodies.length = prog.length := by
  induction prog with
  | nil =>
    intro s bodies h
    cases bodies with
    | nil => rfl
    | cons b bs => exact h.elim
  | cons fn rest ih =>
    intro s bodies h
    cases bodies with
    | nil => exact h.elim
    | cons b bs =>
      obtain ⟨t, _, _, h⟩ := h
      simp [ih _ _ h]

theorem BodiesCode.stmt_code (prog : List Function) :
    ∀ (s : St) (bodies : List (List Line)), BodiesCode s prog bodies →
      ∀ fn b, (fn, b) ∈ prog.zip bodies → ∃ i j, StmtCode (some fn.name) i j b := by
  induction prog with
  | nil =>
    intro s bodies _ fn b hm
    simp at hm
  | cons g rest ih =>
    intro s bodies h fn b hm
    cases bodies with
    | nil => exact h.elim
    | cons b0 bs =>
      obtain ⟨t, hg, ho, h⟩ := h
      rw [List.zip_cons_cons, List.mem_cons] at hm
      rcases hm with hm | hm
      · cases hm
        obtain ⟨ls, rfl, hc⟩ := gen_stmt_ok _ _ _ hg
        have e : ls = b := by
          simp only [St.set_i_out, St.emit_out] at ho
          exact List.append_cancel_left ho
        subst e
        exact ⟨_, _, hc⟩
      · exact ih _ _ h fn b hm

theorem param_moves_fmt (mem : ObjPtr → Int) (params : List ObjPtr) :
    ∀ l ∈ param_moves mem params, l.fmt = "mov %s, $_%d\n" := by
  unfold param_moves
  generalize argreg = rs
  induction rs generalizing params with
  | nil => intro l hl; simp at hl
  | cons r rs ih =>
    cases params with
    | nil => intro l hl; simp at hl
    | cons v vs =>
      intro l hl
      rw [List.zipWith_cons_cons, List.mem_cons] at hl
      rcases hl with rfl | hl
      · rfl
      · exact ih vs l hl

theorem param_moves_length (mem : ObjPtr → Int) (params : List ObjPtr)
    (h : params.length ≤ 6) : (param_moves mem params).length = params.length := by
  simp only [param_moves, List.length_zipWith, argreg, List.length_cons, List.length_nil]
  omega

/-- One entry label and one return label in the lines of a function. -/
theorem segment_labels (mem : ObjPtr → Int) (fn : Function) (b : List Line) (i j : Int)
    (h : StmtCode (some fn.name) i j b) :
    (segment mem fn b).countP (fun l => l.fmt = ".L.%s:\n") = 1 ∧
      (segment mem fn b).countP (fun l => l.fmt = ".L.return_%s:\n") = 1 := by
  have hb1 : b.countP (fun l => l.fmt = ".L.%s:\n") = 0 := by
    rw [List.countP_eq_zero]
    intro l hl
    simpa using (h.stmt_lines l hl).fmt_not_fn_label.1
  have hb2 : b.countP (fun l => l.fmt = ".L.return_%s:\n") = 0 := by
    rw [List.countP_eq_zero]
    intro l hl
    simpa using (h.stmt_lines l hl).fmt_not_fn_label.2
  have hp1 : (param_moves mem fn.params).countP (fun l => l.fmt = ".L.%s:\n") = 0 := by
    rw [List.countP_eq_zero]
    intro l hl
    simp [param_moves_fmt mem fn.params l hl]
  have hp2 : (param_moves mem fn.params).countP (fun l => l.fmt = ".L.return_%s:\n") = 0 := by
    rw [List.countP_eq_zero]
    intro l hl
    simp [param_moves_fmt mem fn.params l hl]
  constructor
  · simp [segment, List.countP_append, List.countP_cons, hb1, hp1]
  · simp [segment, List.countP_append, List.countP_cons, hb2, hp2]

theorem laid_right (p q : List Function) (h : List.Forall₂ Laid p q) :
    ∀ (k : Nat) (fn' : Function), q[k]? = some fn' →
      ∃ fn, p[k]? = some fn ∧ fn' = { fn with stack_size := fn'.stack_size } := by
  obtain ⟨hlen, hget⟩ := laid_getElem p q h
  intro k fn' hk
  have hk' : k < p.length := by
    rw [hlen]
    by_contra hc
    rw [List.getElem?_eq_none (by omega)] at hk
    cases hk
  exact ⟨p[k], by simp [hk'], (hget k p[k] fn' (by simp [hk']) hk).1⟩

/-! ### Label lines as text -/

theorem ex_clash_fuel : ∀ fn ∈ ex_clash, 2 * sizeOf fn.body + 1 < 1000 := by decide

theorem codegen_ex_clash_is_ok : (codegen ex_clash (St.start mem0)).is_ok = true :=
  (codegen_f_eq 1000 ex_clash _ ex_clash_fuel) ▸ (by decide! :
    (codegen_f 1000 ex_clash (St.start mem0)).is_ok = true)

/-- The text of the output of `codegen` for `ex_clash`. -/
theorem codegen_ex_clash_text :
    (codegen ex_clash (St.start mem0)).out.map Line.text =
      [".L.f:\n", "push rbp\n", "mov rsp, rbp\n", "sub $0, rsp\n",
       "mov $1, rax\n", "jmp .L.return_f\n",
       ".L.return_f:\n", "mov rbp, rsp\n", "pop rbp\n", "ret\n",
       ".L.return_f:\n", "push rbp\n", "mov rsp, rbp\n", "sub $0, rsp\n",
       "mov $2, rax\n", "jmp .L.return_return_f\n",
       ".L.return_return_f:\n", "mov rbp, rsp\n", "pop rbp\n", "ret\n"] :=
  (codegen_f_eq 1000 ex_clash _ ex_clash_fuel) ▸ (by decide! :
    (codegen_f 1000 ex_clash (St.start mem0)).out.map Line.text = _)

/-! ### The value of `depth` along the output -/

@[simp]
theorem depth_change_nil : depth_change [] = 0 := rfl

theorem depth_change_append (a b : List Line) :
    depth_change (a ++ b) = depth_change a + depth_change b := by
  simp only [depth_change, List.countP_append]
  push_cast
  ring

theorem depth_change_plain (l : Line) (h1 : l.fmt ≠ "push rax\n") (h2 : l.fmt ≠ "pop %s\n") :
    depth_change [l] = 0 := by
  simp [depth_change, List.countP_cons, Line.by_push, Line.by_pop, h1, h2]

theorem depth_change_push : depth_change [push_line] = 1 := by
  simp [depth_change, List.countP_cons, Line.by_push, Line.by_pop, push_line]

theorem depth_change_pop (r : String) : depth_change [pop_line r] = -1 := by
  simp [depth_change, List.countP_cons, Line.by_push, Line.by_pop, pop_line]

theorem depth_change_take_one (l : Line) (k : Nat) :
    depth_change ([l].take k) = 0 ∨ depth_change ([l].take k) = depth_change [l] := by
  cases k with
  | zero => left; rfl
  | succ k => right; simp

theorem depth_change_take_append (a b : List Line) (k : Nat) :
    depth_change ((a ++ b).take k) = depth_change (a.take k) ∨
      depth_change ((a ++ b).take k) = depth_change a + depth_change (b.take (k - a.length)) := by
  rw [List.take_append_eq_append_take, depth_change_append]
  by_cases h : k ≤ a.length
  · left
    have : k - a.length = 0 := by omega
    simp [this]
  · right
    rw [List.take_of_length_le (by omega)]

theorem Tracks.ok_same {α : Type} (s : St) (a : α) : Tracks 0 0 s (Res.ok a s) :=
  ⟨[], by simp, fun k => by simp, rfl, by simp⟩

theorem Tracks.fail_same {α : Type} (s : St) (e : Err) : Tracks 0 0 s (Res.fail e s : Res α) :=
  ⟨[], by simp, fun k => by simp, by simp, fun _ => by simp⟩

theorem Tracks.bind {α β : Type} (lo1 d1 lo2 d2 lo d : Int) (s : St) (r : Res α)
    (f : α → St → Res β) (hr : Tracks lo1 d1 s r)
    (hf : ∀ a t, r = Res.ok a t → Tracks lo2 d2 t (f a t))
    (h1 : lo ≤ lo1) (h2 : lo ≤ d1 + lo2) (h3 : d = d1 + d2) : Tracks lo d s (r.bind f) := by
  cases r with
  | fail e t =>
    obtain ⟨ls, ho, hp, hd, hl⟩ := hr
    exact ⟨ls, ho, fun k => le_trans h1 (hp k), by omega, hl⟩
  | ok a t =>
    obtain ⟨ls1, ho1, hp1, hc1, hd1⟩ := hr
    have hf' := hf a t rfl
    rw [Res.ok_bind]
    have hpre : ∀ (ls2 : List Line), (∀ k, lo2 ≤ depth_change (ls2.take k)) →
        ∀ k, lo ≤ depth_change ((ls1 ++ ls2).take k) := by
      intro ls2 hp2 k
      rcases depth_change_take_append ls1 ls2 k with e | e
      · rw [e]; exact le_trans h1 (hp1 k)
      · rw [e, hc1]
        have := hp2 (k - ls1.length)
        omega
    cases hq : f a t with
    | ok b u =>
      rw [hq] at hf'
      obtain ⟨ls2, ho2, hp2, hc2, hd2⟩ := hf'
      refine ⟨ls1 ++ ls2, by rw [ho2, ho1, List.append_assoc], hpre ls2 hp2, ?_, ?_⟩
      · rw [depth_change_append, hc1, hc2, h3]
      · rw [hd2, hd1, h3]; ring
    | fail e u =>
      rw [hq] at hf'
      obtain ⟨ls2, ho2, hp2, hd2, hl2⟩ := hf'
      refine ⟨ls1 ++ ls2, by rw [ho2, ho1, List.append_assoc], hpre ls2 hp2, by omega, ?_⟩
      intro he
      rw [hl2 he, hd1, depth_change_append, hc1]
      ring

theorem Tracks.seq {α β : Type} (s : St) (r : Res α) (f : α → St → Res β)
    (hr : Tracks 0 0 s r) (hf : ∀ a t, Tracks 0 0 t (f a t)) : Tracks 0 0 s (r.bind f) :=
  Tracks.bind 0 0 0 0 0 0 s r f hr (fun a t _ => hf a t) (le_refl _) (by simp) (by simp)

theorem Tracks.ite {α : Type} (lo d : Int) (s : St) (c : Prop) [Decidable c] (x y : Res α)
    (hx : Tracks lo d s x) (hy : Tracks lo d s y) : Tracks lo d s (if c then x else y) := by
  split
  · exact hx
  · exact hy

theorem printf_tracks (fmt : String) (args : List Arg) (s : St) (h1 : fmt ≠ "push rax\n")
    (h2 : fmt ≠ "pop %s\n") : Tracks 0 0 s (printf fmt args s) := by
  have hc := depth_change_plain (Line.mk fmt args) h1 h2
  refine ⟨[Line.mk fmt args], rfl, fun k => ?_, hc, by simp [St.emit]⟩
  rcases depth_change_take_one (Line.mk fmt args) k with e | e
  · rw [e]
  · rw [e, hc]

theorem push_tracks (s : St) : Tracks 0 1 s (push s) := by
  have hp : ∀ k, (0 : Int) ≤ depth_change ([push_line].take k) := by
    intro k
    rcases depth_change_take_one push_line k with e | e
    · rw [e]
    · rw [e, depth_change_push]; decide
  unfold push
  rw [printf_eq, Res.ok_bind]
  cases h : int_chk ((s.emit [push_line]).depth + 1) with
  | none =>
    have e : push_line = Line.mk "push rax\n" [] := rfl
    rw [← e, h]
    exact ⟨[push_line], rfl, hp, by simp, fun he => absurd rfl he⟩
  | some d =>
    have e : push_line = Line.mk "push rax\n" [] := rfl
    rw [← e, h]
    obtain ⟨_, rfl⟩ := (int_chk_eq_some _ _).1 h
    exact ⟨[push_line], rfl, hp, depth_change_push, rfl⟩

theorem pop_tracks (r : String) (s : St) : Tracks (-1) (-1) s (pop r s) := by
  have hp : ∀ k, (-1 : Int) ≤ depth_change ([pop_line r].take k) := by
    intro k
    rcases depth_change_take_one (pop_line r) k with e | e
    · rw [e]; decide
    · rw [e, depth_change_pop]
  unfold pop
  rw [printf_eq, Res.ok_bind]
  have e : pop_line r = Line.mk "pop %s\n" [Arg.str r] := rfl
  cases h : int_chk ((s.emit [pop_line r]).depth - 1) with
  | none =>
    rw [← e, h]
    exact ⟨[pop_line r], rfl, hp, by simp, fun he => absurd rfl he⟩
  | some d =>
    rw [← e, h]
    obtain ⟨_, rfl⟩ := (int_chk_eq_some _ _).1 h
    exact ⟨[pop_line r], rfl, hp, depth_change_pop r, by simp [sub_eq_add_neg]⟩

theorem count_tracks (s : St) : Tracks 0 0 s (count s) := by
  unfold count
  cases h : int_chk (s.i + 1) with
  | none => exact Tracks.fail_same s _
  | some j => exact ⟨[], by simp, fun k => by simp, rfl, by simp⟩

/-- A stretch opened by `push` and closed by `pop`. -/
theorem Tracks.wrap {β : Type} (s : St) (r : String) (g : St → Res Unit) (h : St → Res β)
    (hg : ∀ t, Tracks 0 0 t (g t)) (hh : ∀ t, Tracks 0 0 t (h t)) :
    Tracks 0 0 s ((push s).bind fun _ s => (g s).bind fun _ s => (pop r s).bind fun _ s => h s) :=
  Tracks.bind 0 1 (-1) (-1) 0 0 s _ _ (push_tracks s)
    (fun _ t _ => Tracks.bind 0 0 (-1) (-1) (-1) (-1) t _ _ (hg t)
      (fun _ u _ => Tracks.bind (-1) (-1) 0 0 (-1) (-1) u _ _ (pop_tracks r u)
        (fun _ v _ => hh v) (le_refl _) (by decide) (by decide))
      (by decide) (by decide) (by decide))
    (le_refl _) (by decide) (by decide)

theorem Tracks.mono {α : Type} (lo lo' d : Int) (s : St) (r : Res α) (h : lo' ≤ lo)
    (hr : Tracks lo d s r) : Tracks lo' d s r := by
  cases r with
  | ok a t =>
    obtain ⟨ls, ho, hp, hc, hd⟩ := hr
    exact ⟨ls, ho, fun k => le_trans h (hp k), hc, hd⟩
  | fail e t =>
    obtain ⟨ls, ho, hp, hd, hl⟩ := hr
    exact ⟨ls, ho, fun k => le_trans h (hp k), by omega, hl⟩

/-- A stopped run satisfies every promise about completed runs. -/
theorem Tracks.fail_any {α : Type} (lo d d' : Int) (s : St) (e : Err) (t : St)
    (hr : Tracks lo d s (Res.fail e t : Res α)) : Tracks lo d' s (Res.fail e t : Res α) := hr

theorem Tracks.of_eq {α : Type} (lo d : Int) (s s' : St) (r : Res α) (ho : s'.out = s.out)
    (hd : s'.depth = s.depth) (hr : Tracks lo d s' r) : Tracks lo d s r := by
  cases r with
  | ok a t =>
    obtain ⟨ls, h1, hp, hc, h2⟩ := hr
    exact ⟨ls, by rw [h1, ho], hp, hc, by rw [h2, hd]⟩
  | fail e t =>
    obtain ⟨ls, h1, hp, h2, hl⟩ := hr
    exact ⟨ls, by rw [h1, ho], hp, by omega, fun he => by rw [hl he, hd]⟩

theorem Tracks.ok_of {α : Type} (s t : St) (a : α) (ho : t.out = s.out)
    (hd : t.depth = s.depth) : Tracks 0 0 s (Res.ok a t) :=
  Tracks.of_eq 0 0 s t _ ho hd (Tracks.ok_same t a)

theorem pop_args_tracks (n : Nat) :
    ∀ s, Tracks (-(n : Int)) (-(n : Int)) s (pop_args n s) := by
  induction n with
  | zero =>
    intro s
    rw [pop_args_zero]
    simpa using Tracks.ok_same s ()
  | succ k ih =>
    intro s
    rw [pop_args]
    cases hr : argreg[k]? with
    | none =>
      exact Tracks.mono 0 _ _ s _ (by omega) (Tracks.fail_any 0 0 _ s _ s (Tracks.fail_same s _))
    | some r =>
      exact Tracks.bind (-1) (-1) (-(k : Int)) (-(k : Int)) _ _ s _ _ (pop_tracks r s)
        (fun _ t _ => ih t) (by push_cast; omega) (by push_cast; omega) (by push_cast; omega)

theorem gen_args_tracks (args : List Node) (ih : ∀ a ∈ args, ExprTracks (some a)) :
    ∀ k s, Tracks 0 (args.length : Int) s (gen_args args k s) := by
  induction args with
  | nil =>
    intro k s
    rw [gen_args]
    simpa using Tracks.ok_same s k
  | cons a rest ihr =>
    intro k s
    rw [gen_args]
    refine Tracks.bind 0 0 0 ((rest.length : Int) + 1) 0 _ s _ _
      ((ih a (List.mem_cons_self _ _)).2 s) (fun _ t _ => ?_) (le_refl _) (by simp)
      (by simp)
    exact Tracks.bind 0 1 0 (rest.length : Int) 0 _ t _ _ (push_tracks t)
      (fun _ u _ => ihr (fun b hb => ih b (List.mem_cons_of_mem _ hb)) _ u) (le_refl _)
      (by decide) (by ring)

theorem exprTracks_all : ∀ node, ExprTracks node := by
  apply Node.induct_on
  · constructor <;> intro s
    · rw [gen_addr]; exact Tracks.fail_same s _
    · rw [gen_expr]; exact Tracks.fail_same s _
  · intro n hl hr _ _ _ _ _ _ ha
    obtain ⟨hl1, hl2⟩ := hl
    obtain ⟨_, hr2⟩ := hr
    have haddr : ∀ s, Tracks 0 0 s (gen_addr (some n) s) := by
      intro s
      rw [gen_addr]
      cases hk : n.kind <;> simp only [hk]
      case ND_VAR =>
        cases n.var
        · exact Tracks.fail_same s _
        · exact printf_tracks _ _ _ (by decide) (by decide)
      case ND_DEREF => exact hl2 s
      all_goals exact Tracks.fail_same s _
    refine ⟨haddr, ?_⟩
    intro s
    rw [gen_expr]
    cases hk : n.kind <;> simp only [hk]
    case ND_FUNCALL =>
      refine Tracks.bind 0 (n.args.length : Int) (-(n.args.length : Int))
        (-(n.args.length : Int)) 0 0 s _ _ (gen_args_tracks _ ha 0 s) (fun nargs t hg => ?_)
        (le_refl _) (by omega) (by omega)
      obtain ⟨e, _⟩ := gen_args_shape _ _ _ _ _ hg
      have e' : nargs = n.args.length := by omega
      subst e'
      refine Tracks.bind (-(n.args.length : Int)) (-(n.args.length : Int)) 0 0 _ _ t _ _
        (pop_args_tracks _ t) (fun _ u _ => ?_) (le_refl _) (by omega) (by omega)
      exact Tracks.seq u _ _ (printf_tracks _ _ _ (by decide) (by decide))
        (fun _ v => printf_tracks _ _ _ (by decide) (by decide))
    all_goals
      repeat' first
        | with_reducible refine Tracks.wrap _ _ _ _ (fun _ => ?_) (fun _ => ?_)
        | with_reducible refine Tracks.seq _ _ _ ?_ (fun _ _ => ?_)
    all_goals
      with_reducible first
        | exact printf_tracks _ _ _ (by decide) (by decide)
        | exact hl1 _
        | exact hl2 _
        | exact hr2 _
        | exact haddr _
        | exact Tracks.fail_same _ _

theorem gen_expr_tracks (node : Option Node) (s : St) : Tracks 0 0 s (gen_expr node s) :=
  (exprTracks_all node).2 s

theorem gen_block_tracks (body : List Node)
    (ih : ∀ a ∈ body, ∀ s, Tracks 0 0 s (gen_stmt (some a) s)) :
    ∀ s, Tracks 0 0 s (gen_block body s) := by
  induction body with
  | nil => intro s; rw [gen_block]; exact Tracks.ok_same s ()
  | cons a rest ihr =>
    intro s
    rw [gen_block]
    exact Tracks.seq s _ _ (ih a (List.mem_cons_self _ _) s)
      (fun _ t => ihr (fun b hb => ih b (List.mem_cons_of_mem _ hb)) t)

theorem gen_stmt_tracks : ∀ node, ∀ s, Tracks 0 0 s (gen_stmt node s) := by
  apply Node.induct_on
  · intro s
    rw [gen_stmt]; exact Tracks.fail_same s _
  · intro n _ _ _ hthen hels hinit _ hbody _ s
    rw [gen_stmt]
    cases hk : n.kind <;> simp only [hk]
    all_goals repeat' with_reducible refine Tracks.seq _ _ _ ?_ (fun _ _ => ?_)
    all_goals try with_reducible refine Tracks.ite _ _ _ _ _ _ ?_ ?_
    all_goals repeat' with_reducible refine Tracks.seq _ _ _ ?_ (fun _ _ => ?_)
    all_goals
      first
        | with_reducible exact printf_tracks _ _ _ (by decide) (by decide)
        | with_reducible exact count_tracks _
        | with_reducible exact gen_expr_tracks _ _
        | with_reducible exact gen_block_tracks _ hbody _
        | with_reducible exact hthen _
        | with_reducible exact hels _
        | with_reducible exact hinit _
        | with_reducible exact Tracks.ok_same _ _
        | with_reducible exact Tracks.fail_same _ _
        | (split
           · exact Tracks.fail_same _ _
           · exact printf_tracks _ _ _ (by decide) (by decide))

theorem save_params_tracks (params : List ObjPtr) :
    ∀ (i : Nat) (s : St), Tracks 0 0 s (save_params params i s) := by
  induction params with
  | nil => intro i s; rw [save_params]; exact Tracks.ok_same s ()
  | cons v rest ih =>
    intro i s
    rw [save_params]
    cases hr : argreg[i]? with
    | none => exact Tracks.fail_same s _
    | some r =>
      exact Tracks.seq s _ _ (printf_tracks _ _ _ (by decide) (by decide))
        (fun _ t => ih (i + 1) t)

theorem assign_locals_tracks (locals : List ObjPtr) :
    ∀ (offset : Int) (s : St), Tracks 0 0 s (assign_locals locals offset s) := by
  induction locals with
  | nil => intro offset s; rw [assign_locals]; exact Tracks.ok_same s offset
  | cons v rest ih =>
    intro offset s
    rw [assign_locals]
    cases h : int_chk (offset + 8) with
    | none => exact Tracks.fail_same s _
    | some o => exact Tracks.of_eq 0 0 s _ _ rfl rfl (ih o _)

theorem assign_lvar_offsets_tracks (prog : List Function) :
    ∀ s : St, Tracks 0 0 s (assign_lvar_offsets prog s) := by
  induction prog with
  | nil => intro s; rw [assign_lvar_offsets]; exact Tracks.ok_same s []
  | cons fn rest ih =>
    intro s
    rw [assign_lvar_offsets]
    refine Tracks.seq s _ _ (assign_locals_tracks _ _ s) (fun offset t => ?_)
    cases h : align_to offset 16 with
    | none => exact Tracks.fail_same t _
    | some size =>
      exact Tracks.seq t _ _ (ih t) (fun _ u => Tracks.ok_same u _)

theorem codegen_fns_tracks (prog : List Function) :
    ∀ s : St, Tracks 0 0 s (codegen_fns prog s) := by
  induction prog with
  | nil => intro s; rw [codegen_fns]; exact Tracks.ok_same s ()
  | cons fn rest ih =>
    intro s
    rw [codegen_fns]
    repeat' with_reducible refine Tracks.seq _ _ _ ?_ (fun _ _ => ?_)
    all_goals
      first
        | with_reducible exact printf_tracks _ _ _ (by decide) (by decide)
        | with_reducible exact save_params_tracks _ _ _
        | with_reducible exact gen_stmt_tracks _ _
        | with_reducible exact ih _
        | with_reducible exact Tracks.ok_of _ _ _ rfl rfl
        | exact Tracks.ite _ _ _ _ _ _ (Tracks.ok_same _ _) (Tracks.fail_same _ _)

theorem codegen_tracks (prog : List Function) (s : St) : Tracks 0 0 s (codegen prog s) := by
  unfold codegen
  exact Tracks.seq s _ _ (assign_lvar_offsets_tracks prog s) (fun _ t => codegen_fns_tracks _ t)

/-- What `Tracks 0 0` says, spelled out on the counts of the lines. -/
theorem Tracks.spell {α : Type} (s : St) (r : Res α) (h : Tracks 0 0 s r) :
    ∃ ls, r.state.out = s.out ++ ls ∧
      (∀ k, (ls.take k).countP Line.by_pop ≤ (ls.take k).countP Line.by_push) ∧
      s.depth ≤ r.state.depth ∧
      (r.is_ok = true → r.state.depth = s.depth) ∧
      (r.err ≠ some Err.int_overflow →
        r.state.depth = s.depth + ls.countP Line.by_push - ls.countP Line.by_pop) := by
  cases r with
  | ok a t =>
    obtain ⟨ls, ho, hp, hc, hd⟩ := h
    refine ⟨ls, ho, fun k => ?_, by simp [Res.state, hd], fun _ => by simp [Res.state, hd], ?_⟩
    · have := hp k
      unfold depth_change at this
      omega
    · intro _
      unfold depth_change at hc
      simp only [Res.state, hd]
      omega
  | fail e t =>
    obtain ⟨ls, ho, hp, hd, hl⟩ := h
    refine ⟨ls, ho, fun k => ?_, by simpa [Res.state] using hd, fun hk => Bool.noConfusion hk,
      ?_⟩
    · have := hp k
      unfold depth_change at this
      omega
    · intro he
      have := hl (fun e' => he (by rw [e']; rfl))
      unfold depth_change at this
      simp only [Res.state, this]
      omega

/-! ### The `return` statement -/

theorem pop_never_out_of_bounds (r : String) (s : St) (i : Nat) :
    (pop r s).never (Err.out_of_bounds i) := by
  unfold pop
  refine Res.never_bind _ _ _ (printf_never _ _ _ _) (fun _ t => ?_)
  cases h : int_chk (t.depth - 1) with
  | none => exact Res.never_fail _ _ _ (by simp)
  | some d => exact Res.never_ok _ _ _

theorem pop_args_never_out_of_bounds (n : Nat) (hn : n ≤ 6) :
    ∀ (s : St) (i : Nat), (pop_args n s).never (Err.out_of_bounds i) := by
  induction n with
  | zero =>
    intro s i
    rw [pop_args_zero]
    exact Res.never_ok _ _ _
  | succ k ih =>
    intro s i
    have hk : k < argreg.length := by
      simp only [argreg, List.length_cons, List.length_nil]
      omega
    rw [pop_args]
    simp only [List.getElem?_eq_getElem hk]
    exact Res.never_bind _ _ _ (pop_never_out_of_bounds _ _ _) (fun _ t => ih (by omega) t i)

theorem pop_line_injective : Function.Injective pop_line := by
  intro a b h
  simpa [pop_line] using h

theorem pop_lines_nodup (n : Nat) : (pop_lines n).Nodup := by
  unfold pop_lines
  refine List.Nodup.map pop_line_injective (List.nodup_reverse.2 ?_)
  exact List.Nodup.sublist (List.take_sublist n argreg) (by decide)

theorem save_params_total (params : List ObjPtr) :
    ∀ (i : Nat) (s : St), i + params.length ≤ 6 →
      save_params params i s = Res.ok () (s.emit (param_lines s.var_offset params i)) := by
  induction params with
  | nil =>
    intro i s _
    rw [save_params]
    simp [param_lines]
  | cons v rest ih =>
    intro i s hi
    simp only [List.length_cons] at hi
    have hlt : i < argreg.length := by
      simp only [argreg, List.length_cons, List.length_nil]
      omega
    rw [save_params]
    simp only [List.getElem?_eq_getElem hlt, printf_eq, Res.ok_bind]
    rw [ih (i + 1) _ (by omega)]
    simp [param_lines, List.getD_eq_getElem?_getD, List.getElem?_eq_getElem hlt]

theorem gen_expr_ex_call7_err :
    (gen_expr (some ex_call7) (St.start mem0)).err = some (Err.out_of_bounds 6) :=
  (gen_expr_f_eq 1000 (some ex_call7) _ (by decide)) ▸ (by decide! :
    (gen_expr_f 1000 (some ex_call7) (St.start mem0)).err = some (Err.out_of_bounds 6))

/-- What is printed for `f(1, 2, 3, 4, 5, 6, 7)` before the run stops: the
seven arguments, and no `pop`. -/
theorem gen_expr_ex_call7_out :
    (gen_expr (some ex_call7) (St.start mem0)).out =
      [Line.mk "mov $%d, rax\n" [Arg.int 1], push_line, Line.mk "mov $%d, rax\n" [Arg.int 2],
       push_line, Line.mk "mov $%d, rax\n" [Arg.int 3], push_line,
       Line.mk "mov $%d, rax\n" [Arg.int 4], push_line, Line.mk "mov $%d, rax\n" [Arg.int 5],
       push_line, Line.mk "mov $%d, rax\n" [Arg.int 6], push_line,
       Line.mk "mov $%d, rax\n" [Arg.int 7], push_line] :=
  (gen_expr_f_eq 1000 (some ex_call7) _ (by decide)) ▸ (by decide! :
    (gen_expr_f 1000 (some ex_call7) (St.start mem0)).out = _)

theorem gen_args_one_num (v : Int) (tok : Token) (s : St) (h1 : INT_MIN ≤ s.depth + 1)
    (h2 : s.depth + 1 ≤ INT_MAX) :
    gen_args [new_num v tok] 0 s =
      Res.ok 1 ((s.emit [Line.mk "mov $%d, rax\n" [Arg.int v], push_line]).set_depth
        (s.depth + 1)) := by
  rw [gen_args, gen_expr_of_num (new_num v tok) _ rfl, printf_eq, Res.ok_bind,
    push_ok _ (by simpa using h1) (by simpa using h2), Res.ok_bind, gen_args]
  simp only [St.emit_emit, St.emit_depth]
  rfl

/-! ### Jumps and their labels -/

theorem ExprCode.not_mem_label (ls : List Line) (h : ExprCode ls) (l : Line)
    (hl : l.fmt ∈ label_fmts) : l ∉ ls :=
  fun hm => ExprCode.lines_not_label ls h l hm hl

theorem je_else_fmt (x : Int) : (je_else_line x).fmt ∈ label_fmts := by
  simp [je_else_line, label_fmts]

theorem jmp_begin_fmt (x : Int) : (jmp_begin_line x).fmt ∈ label_fmts := by
  simp [jmp_begin_line, label_fmts]

/-- A jump to an `.L.else` label or to an `.L.begin` label is printed together
with the definition of the label. -/
theorem StmtCode.jump_defined {fname : Option String} {i j : Int} {ls : List Line}
    (h : StmtCode fname i j ls) :
    ∀ x : Int, (je_else_line x ∈ ls → else_label x ∈ ls) ∧
      (jmp_begin_line x ∈ ls → begin_label x ∈ ls) := by
  induction h with
  | nil i => exact fun x => ⟨fun hm => absurd hm (List.not_mem_nil _),
      fun hm => absurd hm (List.not_mem_nil _)⟩
  | expr i ls hc =>
    exact fun x => ⟨fun hm => absurd hm (ExprCode.not_mem_label ls hc _ (je_else_fmt x)),
      fun hm => absurd hm (ExprCode.not_mem_label ls hc _ (jmp_begin_fmt x))⟩
  | ret i ls f _ hc =>
    intro x
    constructor
    · intro hm
      rcases List.mem_append.1 hm with h | h
      · exact absurd h (ExprCode.not_mem_label ls hc _ (je_else_fmt x))
      · simp [je_else_line, jmp_return_line] at h
    · intro hm
      rcases List.mem_append.1 hm with h | h
      · exact absurd h (ExprCode.not_mem_label ls hc _ (jmp_begin_fmt x))
      · simp [jmp_begin_line, jmp_return_line] at h
  | seq i j k a b _ _ iha ihb =>
    intro x
    constructor
    · intro hm
      rcases List.mem_append.1 hm with h | h
      · exact List.mem_append_left _ ((iha x).1 h)
      · exact List.mem_append_right _ ((ihb x).1 h)
    · intro hm
      rcases List.mem_append.1 hm with h | h
      · exact List.mem_append_left _ ((iha x).2 h)
      · exact List.mem_append_right _ ((ihb x).2 h)
  | if_ i j k c t e hc _ _ iht ihe =>
    intro x
    constructor
    · intro hm
      simp only [List.mem_append, List.mem_cons, List.mem_singleton, List.not_mem_nil,
        or_false] at hm ⊢
      rcases hm with ((((h | h | h) | h) | h | h) | h) | h
      · exact absurd h (ExprCode.not_mem_label c hc _ (je_else_fmt x))
      · simp [je_else_line, cmp_zero_line] at h
      · have e : x = i := by simpa [je_else_line] using h
        subst e
        simp
      · have := (iht x).1 h
        simp [this]
      · simp [je_else_line, jmp_end_line] at h
      · simp [je_else_line, else_label] at h
      · have := (ihe x).1 h
        simp [this]
      · simp [je_else_line, end_label] at h
    · intro hm
      simp only [List.mem_append, List.mem_cons, List.mem_singleton, List.not_mem_nil,
        or_false] at hm ⊢
      rcases hm with ((((h | h | h) | h) | h | h) | h) | h
      · exact absurd h (ExprCode.not_mem_label c hc _ (jmp_begin_fmt x))
      · simp [jmp_begin_line, cmp_zero_line] at h
      · simp [jmp_begin_line, je_else_line] at h
      · have := (iht x).2 h
        simp [this]
      · simp [jmp_begin_line, jmp_end_line] at h
      · simp [jmp_begin_line, else_label] at h
      · have := (ihe x).2 h
        simp [this]
      · simp [jmp_begin_line, end_label] at h
  | for_ i j k ini cnd body inc _ hcnd _ hinc ihi ihb =>
    intro x
    have hc1 : je_else_line x ∉ cnd := by
      rcases hcnd with rfl | ⟨e, he, rfl⟩
      · simp
      · intro hm
        simp only [List.mem_append, List.mem_cons, List.mem_singleton, List.not_mem_nil,
          or_false] at hm
        rcases hm with h | h | h
        · exact absurd h (ExprCode.not_mem_label e he _ (je_else_fmt x))
        · simp [je_else_line, cmp_zero_line] at h
        · simp [je_else_line, je_end_line] at h
    have hc2 : jmp_begin_line x ∉ cnd := by
      rcases hcnd with rfl | ⟨e, he, rfl⟩
      · simp
      · intro hm
        simp only [List.mem_append, List.mem_cons, List.mem_singleton, List.not_mem_nil,
          or_false] at hm
        rcases hm with h | h | h
        · exact absurd h (ExprCode.not_mem_label e he _ (jmp_begin_fmt x))
        · simp [jmp_begin_line, cmp_zero_line] at h
        · simp [jmp_begin_line, je_end_line] at h
    constructor
    · intro hm
      simp only [List.mem_append, List.mem_cons, List.mem_singleton, List.not_mem_nil,
        or_false] at hm ⊢
      rcases hm with (((((h | h) | h) | h) | h) | h | h)
      · have := (ihi x).1 h
        simp [this]
      · simp [je_else_line, begin_label] at h
      · exact absurd h hc1
      · have := (ihb x).1 h
        simp [this]
      · exact absurd h (ExprCode.not_mem_label inc hinc _ (je_else_fmt x))
      · simp [je_else_line, jmp_begin_line] at h
      · simp [je_else_line, end_label] at h
    · intro hm
      simp only [List.mem_append, List.mem_cons, List.mem_singleton, List.not_mem_nil,
        or_false] at hm ⊢
      rcases hm with (((((h | h) | h) | h) | h) | h | h)
      · have := (ihi x).2 h
        simp [this]
      · simp [jmp_begin_line, begin_label] at h
      · exact absurd h hc2
      · have := (ihb x).2 h
        simp [this]
      · exact absurd h (ExprCode.not_mem_label inc hinc _ (jmp_begin_fmt x))
      · have e : x = i := by simpa [jmp_begin_line] using h
        subst e
        simp
      · simp [jmp_begin_line, end_label] at h

/-- What the range of the label numbers, the count of the definitions and the
presence of the definitions give: every jump has one definition. -/
theorem jumps_matched_of (ls : List Line) (i j : Int)
    (hr : ∀ l ∈ ls, ∀ c, l.uses c → i ≤ c ∧ c < j)
    (hc : ∀ x : Int, ls.count (end_label x) = (if i ≤ x ∧ x < j then 1 else 0) ∧
      ls.count (else_label x) + ls.count (begin_label x) = (if i ≤ x ∧ x < j then 1 else 0))
    (hd : ∀ x : Int, (je_else_line x ∈ ls → else_label x ∈ ls) ∧
      (jmp_begin_line x ∈ ls → begin_label x ∈ ls)) :
    ∀ x : Int, (je_else_line x ∈ ls → ls.count (else_label x) = 1) ∧
      (jmp_end_line x ∈ ls → ls.count (end_label x) = 1) ∧
      (je_end_line x ∈ ls → ls.count (end_label x) = 1) ∧
      (jmp_begin_line x ∈ ls → ls.count (begin_label x) = 1) := by
  intro x
  obtain ⟨c1, c2⟩ := hc x
  refine ⟨?_, ?_, ?_, ?_⟩
  · intro hm
    have hx := hr _ hm x ((uses_je_else x x).2 rfl)
    have hp := List.count_pos_iff.2 ((hd x).1 hm)
    rw [if_pos hx] at c2
    omega
  · intro hm
    have hx := hr _ hm x ((uses_jmp_end x x).2 rfl)
    rw [if_pos hx] at c1
    exact c1
  · intro hm
    have hx := hr _ hm x ((uses_je_end x x).2 rfl)
    rw [if_pos hx] at c1
    exact c1
  · intro hm
    have hx := hr _ hm x ((uses_jmp_begin x x).2 rfl)
    have hp := List.count_pos_iff.2 ((hd x).2 hm)
    rw [if_pos hx] at c2
    omega

theorem StmtCode.jumps_matched {fname : Option String} {i j : Int} {ls : List Line}
    (h : StmtCode fname i j ls) :
    ∀ x : Int, (je_else_line x ∈ ls → ls.count (else_label x) = 1) ∧
      (jmp_end_line x ∈ ls → ls.count (end_label x) = 1) ∧
      (je_end_line x ∈ ls → ls.count (end_label x) = 1) ∧
      (jmp_begin_line x ∈ ls → ls.count (begin_label x) = 1) :=
  jumps_matched_of ls i j h.label_range.2 (StmtCode.label_counts fname i j ls h) h.jump_defined

theorem ProgCode.prog_jump_defined {mem : ObjPtr → Int} {prog : List Function} {i j : Int}
    {ls : List Line} (h : ProgCode mem prog i j ls) :
    ∀ x : Int, (je_else_line x ∈ ls → else_label x ∈ ls) ∧
      (jmp_begin_line x ∈ ls → begin_label x ∈ ls) := by
  induction h with
  | nil i => exact fun x => ⟨fun hm => absurd hm (List.not_mem_nil _),
      fun hm => absurd hm (List.not_mem_nil _)⟩
  | cons fn rest i j k body tail _ hb _ ih =>
    intro x
    have key : ∀ l : Line, l.fmt ∈ label_fmts →
        l ∈ fn_prologue fn ++ param_lines mem fn.params 0 ++ body ++ fn_epilogue fn ++ tail →
        l ∈ body ∨ l ∈ tail := by
      intro l hf hm
      simp only [List.mem_append] at hm
      rcases hm with (((h | h) | h) | h) | h
      · exact absurd hf (fn_prologue_plain fn l h)
      · exact absurd hf (param_lines_plain mem fn.params 0 l h)
      · exact Or.inl h
      · exact absurd hf (fn_epilogue_plain fn l h)
      · exact Or.inr h
    constructor
    · intro hm
      rcases key _ (je_else_fmt x) hm with h | h
      · have := (hb.jump_defined x).1 h
        simp [this]
      · have := (ih x).1 h
        simp [this]
    · intro hm
      rcases key _ (jmp_begin_fmt x) hm with h | h
      · have := (hb.jump_defined x).2 h
        simp [this]
      · have := (ih x).2 h
        simp [this]

theorem codegen_jumps_matched (prog : List Function) (s s' : St)
    (h : codegen prog s = Res.ok () s') :
    ∃ prog' t bodies, assign_lvar_offsets prog s = Res.ok prog' t ∧
      BodiesCode t prog' bodies ∧
      (∃ ls, ls = (List.zipWith (segment t.var_offset) prog' bodies).flatten ∧
        s'.out = s.out ++ ls ∧
        ∀ x : Int, (je_else_line x ∈ ls → ls.count (else_label x) = 1) ∧
          (jmp_end_line x ∈ ls → ls.count (end_label x) = 1) ∧
          (je_end_line x ∈ ls → ls.count (end_label x) = 1) ∧
          (jmp_begin_line x ∈ ls → ls.count (begin_label x) = 1)) ∧
      ∀ fn b, (fn, b) ∈ prog'.zip bodies →
        ∀ x : Int, (je_else_line x ∈ b → b.count (else_label x) = 1) ∧
          (jmp_end_line x ∈ b → b.count (end_label x) = 1) ∧
          (je_end_line x ∈ b → b.count (end_label x) = 1) ∧
          (jmp_begin_line x ∈ b → b.count (begin_label x) = 1) := by
  unfold codegen at h
  rw [Res.bind_eq_ok] at h
  obtain ⟨prog', t, ha, h⟩ := h
  obtain ⟨_, _, ho, _⟩ := assign_lvar_offsets_ok _ _ _ _ ha
  obtain ⟨_, bodies, hb, hout⟩ := codegen_fns_segments _ _ _ h
  obtain ⟨ls, hout', _, _, _, _, hp⟩ := codegen_fns_ok _ _ _ h
  have e : ls = (List.zipWith (segment t.var_offset) prog' bodies).flatten :=
    List.append_cancel_left (hout'.symm.trans hout)
  refine ⟨prog', t, bodies, ha, hb, ⟨ls, e, by rw [hout', ho], ?_⟩, ?_⟩
  · exact jumps_matched_of ls _ _ hp.prog_label_range.2 hp.prog_label_counts
      hp.prog_jump_defined
  · intro fn b hm
    obtain ⟨i, j, hc⟩ := BodiesCode.stmt_code _ _ _ hb fn b hm
    exact hc.jumps_matched

/-! ## The claims -/

/-- C1: started with `depth` at 0, `codegen` never stops on the failure of
`assert(depth == 0)`, whatever the program; and when it completes, `depth`
is 0. -/
theorem codegen_assert_holds (prog : List Function) (s : St) (h0 : s.depth = 0) :
    (∀ s', codegen prog s ≠ Res.fail Err.assert_fail s') ∧
      ∀ s', codegen prog s = Res.ok () s' → s'.depth = 0 := by
  constructor
  · unfold codegen
    refine Res.never_bind_of_ok _ _ _ (assign_lvar_offsets_never _ _) (fun prog' t e => ?_)
    obtain ⟨hd, _⟩ := assign_lvar_offsets_ok _ _ _ _ e
    exact codegen_fns_never _ _ (by rw [hd, h0])
  · intro s' h
    unfold codegen at h
    rw [Res.bind_eq_ok] at h
    obtain ⟨prog', t, e, h⟩ := h
    obtain ⟨hd, _⟩ := assign_lvar_offsets_ok _ _ _ _ e
    obtain ⟨ls, _, hd', _⟩ := codegen_fns_ok _ _ _ h
    rw [hd', hd, h0]

theorem codegen_assert_holds_witness :
    (St.start mem0).depth = 0 ∧
      (∀ s', codegen ex_prog (St.start mem0) ≠ Res.fail Err.assert_fail s') ∧
      ∀ s', codegen ex_prog (St.start mem0) = Res.ok () s' → s'.depth = 0 :=
  ⟨rfl, codegen_assert_holds ex_prog (St.start mem0) rfl⟩

/-- C2: when `gen_expr` completes on a node, `depth` is what it was before the
call, and the lines it printed hold as many `push rax` lines as
`pop <reg>` lines. -/
theorem gen_expr_depth_balanced (node : Option Node) (s s' : St)
    (h : gen_expr node s = Res.ok () s') :
    s'.depth = s.depth ∧
      ∃ ls, s'.out = s.out ++ ls ∧ ls.countP Line.is_push = ls.countP Line.is_pop := by
  obtain ⟨ls, rfl, hc⟩ := (exprOk_all node).2 s s' h
  exact ⟨rfl, ls, rfl, Balanced.count_eq ls (ExprCode.balanced ls hc)⟩

theorem gen_expr_depth_balanced_witness :
    ((St.start mem0).emit ex_assign_lines).depth = (St.start mem0).depth ∧
      ∃ ls, ((St.start mem0).emit ex_assign_lines).out = (St.start mem0).out ++ ls ∧
        ls.countP Line.is_push = ls.countP Line.is_pop :=
  gen_expr_depth_balanced (some ex_assign) (St.start mem0) _ (by
    simp [gen_expr, gen_addr, gen_args, pop_args, ex_assign, new_binary, new_var_node,
      new_funcall, new_num, Node.kind, Node.lhs, Node.rhs, Node.args, Node.var, Node.val,
      Node.funcname, printf, push, pop, int_chk, INT_MAX, INT_MIN, St.start, St.emit, argreg,
      ex_assign_lines, push_line, pop_line, mem0])

/-- C3: for a program whose functions have fewer than 2^28 - 1 locals each,
`assign_lvar_offsets` completes; it changes nothing of a function but
`stack_size`, which it sets to the least multiple of 16 that is at least
eight times the number of locals of the function (so less than sixteen more),
and no local of the function has an offset above it (the records of the
locals lists being pairwise distinct).  When `codegen` completes it has
printed, for every function, the value of `stack_size` in the `sub` line
that follows the label of the function, `push rbp` and `mov rsp, rbp`. -/
theorem stack_size_aligned (prog : List Function) (s : St)
    (hsmall : ∀ fn ∈ prog, 8 * (fn.locals.length : Int) + 16 ≤ INT_MAX)
    (hnd : (all_locals prog).Nodup) :
    ∃ prog' s', assign_lvar_offsets prog s = Res.ok prog' s' ∧
      prog'.length = prog.length ∧
      (∀ (k : Nat) (fn fn' : Function), prog[k]? = some fn → prog'[k]? = some fn' →
        fn' = { fn with stack_size := fn'.stack_size } ∧
        16 ∣ fn'.stack_size ∧
        8 * (fn.locals.length : Int) ≤ fn'.stack_size ∧
        fn'.stack_size < 8 * (fn.locals.length : Int) + 16 ∧
        (∀ m : Int, 16 ∣ m → 8 * (fn.locals.length : Int) ≤ m → fn'.stack_size ≤ m) ∧
        (∀ v ∈ fn.locals, s'.var_offset v ≤ fn'.stack_size) ∧
        ∀ s'', codegen prog s = Res.ok () s'' →
          ∃ pre post, s''.out = s.out ++ pre ++
            [Line.mk ".L.%s:\n" [Arg.str fn.name], Line.mk "push rbp\n" [],
             Line.mk "mov rsp, rbp\n" [], Line.mk "sub $%d, rsp\n" [Arg.int fn'.stack_size]] ++
            post) := by
  obtain ⟨prog', s', h⟩ := assign_lvar_offsets_total prog hsmall s
  obtain ⟨_, _, ho, _, hl, _, hx⟩ := assign_lvar_offsets_ok _ _ _ _ h
  obtain ⟨hlen, hget⟩ := laid_getElem _ _ hl
  refine ⟨prog', s', h, hlen.symm, ?_⟩
  intro k fn fn' h1 h2
  obtain ⟨e, hnum⟩ := hget k fn fn' h1 h2
  obtain ⟨d, lo, hi⟩ := hnum (hsmall fn (List.getElem?_mem h1))
  refine ⟨e, d, lo, hi, ?_, ?_, ?_⟩
  · intro m hm hle
    obtain ⟨a, rfl⟩ := hm
    obtain ⟨b, hb⟩ := d
    omega
  · intro v hv
    obtain ⟨j, hj, rfl⟩ := List.mem_iff_getElem.1 hv
    have := hx hnd fn (List.getElem?_mem h1) j fn.locals[j] (by simp [hj])
    rw [this]
    have : (j : Int) + 1 ≤ fn.locals.length := by omega
    omega
  · intro s'' hc
    unfold codegen at hc
    rw [h, Res.ok_bind] at hc
    obtain ⟨ls, hout, _, _, _, _, hp⟩ := codegen_fns_ok _ _ _ hc
    obtain ⟨pre, post, rfl⟩ := hp.prologue_mem _ _ _ _ _ k fn' h2
    refine ⟨pre, post, ?_⟩
    rw [hout, ho]
    have hn : fn'.name = fn.name := by rw [e]
    simp [fn_prologue, hn]

theorem stack_size_aligned_witness :
    ∃ prog' s', assign_lvar_offsets ex_prog (St.start mem0) = Res.ok prog' s' ∧
      prog'.length = ex_prog.length ∧
      (∀ (k : Nat) (fn fn' : Function), ex_prog[k]? = some fn → prog'[k]? = some fn' →
        fn' = { fn with stack_size := fn'.stack_size } ∧
        16 ∣ fn'.stack_size ∧
        8 * (fn.locals.length : Int) ≤ fn'.stack_size ∧
        fn'.stack_size < 8 * (fn.locals.length : Int) + 16 ∧
        (∀ m : Int, 16 ∣ m → 8 * (fn.locals.length : Int) ≤ m → fn'.stack_size ≤ m) ∧
        (∀ v ∈ fn.locals, s'.var_offset v ≤ fn'.stack_size) ∧
        ∀ s'', codegen ex_prog (St.start mem0) = Res.ok () s'' →
          ∃ pre post, s''.out = (St.start mem0).out ++ pre ++
            [Line.mk ".L.%s:\n" [Arg.str fn.name], Line.mk "push rbp\n" [],
             Line.mk "mov rsp, rbp\n" [], Line.mk "sub $%d, rsp\n" [Arg.int fn'.stack_size]] ++
            post) :=
  stack_size_aligned ex_prog (St.start mem0) (by decide!) (by decide)

/-- C4: in a completed run of `codegen` the counter of `count` advances by
the number of `if` and `for` nodes `gen_stmt` reaches; every number the
counter passed is the number of exactly one `.L.end` label and of exactly one
`.L.else` or `.L.begin` label in the output, and no line of the output names
a label with another number, so no two nodes share a number.  An `if` node
reached with the counter at `c` prints `je .L.else_c`, `jmp .L.end_c`,
`.L.else_c:` and `.L.end_c:` and nothing else with the number `c`; a `for`
node prints `.L.begin_c:`, `jmp .L.begin_c` and `.L.end_c:` and, for its
condition, `je .L.end_c`, and nothing else with the number `c`; each advances
the counter by one for itself and by the number of nodes below it. -/
theorem label_numbers_unique :
    (∀ (prog : List Function) (s s' : St), codegen prog s = Res.ok () s' →
      ∃ ls, s'.out = s.out ++ ls ∧ s'.i = s.i + prog_if_for_nodes prog ∧
        (∀ l ∈ ls, ∀ c, l.uses c → s.i ≤ c ∧ c < s'.i) ∧
        ∀ c, s.i ≤ c → c < s'.i →
          ls.count (end_label c) = 1 ∧ ls.count (else_label c) + ls.count (begin_label c) = 1) ∧
    (∀ (n : Node) (s s' : St), n.kind = NodeKind.ND_IF → gen_stmt (some n) s = Res.ok () s' →
      s'.i = s.i + 1 + if_for_nodes n.then_ + if_for_nodes n.els ∧
      ∃ a b c, s'.out = s.out ++ a ++ [cmp_zero_line, je_else_line s.i] ++ b ++
          [jmp_end_line s.i, else_label s.i] ++ c ++ [end_label s.i] ∧
        ∀ l ∈ a ++ b ++ c, ¬ l.uses s.i) ∧
    (∀ (n : Node) (s s' : St), n.kind = NodeKind.ND_FOR → gen_stmt (some n) s = Res.ok () s' →
      s'.i = s.i + 1 + if_for_nodes n.init + if_for_nodes n.then_ ∧
      ∃ a cnd b, s'.out = s.out ++ a ++ [begin_label s.i] ++ cnd ++ b ++
          [jmp_begin_line s.i, end_label s.i] ∧
        (∀ l ∈ a ++ b, ¬ l.uses s.i) ∧ ∀ l ∈ cnd, l.uses s.i → l = je_end_line s.i) := by
  refine ⟨?_, ?_, ?_⟩
  · intro prog s s' h
    unfold codegen at h
    rw [Res.bind_eq_ok] at h
    obtain ⟨prog', t, ha, h⟩ := h
    obtain ⟨_, hi, ho, _, hl, _⟩ := assign_lvar_offsets_ok _ _ _ _ ha
    obtain ⟨ls, hout, _, _, hcnt, _, hp⟩ := codegen_fns_ok _ _ _ h
    have hn := prog_if_for_nodes_laid _ _ hl
    rw [hn, hi] at hcnt
    rw [hn, hi] at hp
    refine ⟨ls, by rw [hout, ho], hcnt, ?_, ?_⟩
    · intro l hl c hu
      rw [hcnt]
      exact hp.prog_label_range.2 l hl c hu
    · intro c h1 h2
      rw [hcnt] at h2
      have := hp.prog_label_counts c
      simpa [h1, h2] using this
  · intro n s s' hk h
    refine ⟨?_, gen_stmt_if_shape n s s' hk h⟩
    obtain ⟨ls, rfl, _⟩ := gen_stmt_ok _ _ _ h
    rw [if_for_nodes]
    simp only [hk, St.set_i_i, St.emit_i]
    push_cast
    ring
  · intro n s s' hk h
    refine ⟨?_, gen_stmt_for_shape n s s' hk h⟩
    obtain ⟨ls, rfl, _⟩ := gen_stmt_ok _ _ _ h
    rw [if_for_nodes]
    simp only [hk, St.set_i_i, St.emit_i]
    push_cast
    ring

theorem label_numbers_unique_witness :
    ∃ ls, (codegen ex_prog (St.start mem0)).state.out = (St.start mem0).out ++ ls ∧
      (codegen ex_prog (St.start mem0)).state.i =
        (St.start mem0).i + prog_if_for_nodes ex_prog ∧
      (∀ l ∈ ls, ∀ c, l.uses c →
        (St.start mem0).i ≤ c ∧ c < (codegen ex_prog (St.start mem0)).state.i) ∧
      ∀ c, (St.start mem0).i ≤ c → c < (codegen ex_prog (St.start mem0)).state.i →
        ls.count (end_label c) = 1 ∧ ls.count (else_label c) + ls.count (begin_label c) = 1 :=
  label_numbers_unique.1 ex_prog (St.start mem0) _ codegen_ex_prog

/-- C5: for a tree of numeric literals, negations, additions, subtractions and
multiplications whose value on 64 bits is `v`, `gen_expr` completes (given
that `depth` has room for the nesting of the tree), and the lines it prints,
run on the machine from any state, end with `v` in `rax` and the stack as it
was. -/
theorem gen_expr_arith_correct (n : Node) (v : Int) (h : Arith n v) (s : St)
    (h1 : INT_MIN ≤ s.depth) (h2 : s.depth + (sizeOf n : Int) ≤ INT_MAX) :
    ∃ ls, gen_expr (some n) s = Res.ok () (s.emit ls) ∧
      ∀ m : Machine, ∃ rdi, exec ls m = some (Machine.mk v rdi m.stack) :=
  gen_expr_arith n v h s h1 h2

/-- The code of `1 + 2 * 3` leaves 7 in `rax`. -/
theorem gen_expr_arith_correct_witness :
    ∃ ls, gen_expr (some ex_arith) (St.start mem0) = Res.ok () ((St.start mem0).emit ls) ∧
      ∀ m : Machine, ∃ rdi, exec ls m = some (Machine.mk 7 rdi m.stack) :=
  gen_expr_arith_correct ex_arith 7 ex_arith_value (St.start mem0) (by decide!) (by decide!)

/-- C6: when `gen_expr` completes on a call node, the node has at most six
arguments and `gen_expr` has printed, in this order: for each argument in turn
the code of the argument and then `push rax`; then `pop argreg[n-1]`, ...,
`pop argreg[0]`; then `mov $0, rax`; and last the `call` of the target.  The
code of every argument is balanced in its pushes and pops, so that the value
pushed for the i-th argument is the one popped into `argreg[i]`. -/
theorem gen_expr_funcall_shape (n : Node) (s s' : St) (hk : n.kind = NodeKind.ND_FUNCALL)
    (hg : gen_expr (some n) s = Res.ok () s') :
    n.args.length ≤ 6 ∧
    ∃ codes, ArgsCode s n.args codes ∧ (∀ c ∈ codes, Balanced c) ∧
      s' = s.emit ((codes.map fun c => c ++ [push_line]).flatten ++ pop_lines n.args.length ++
        [Line.mk "mov $0, rax\n" [], Line.mk "call .L.%s\n" [Arg.str n.funcname]]) := by
  rw [gen_expr] at hg
  simp only [hk] at hg
  rw [Res.bind_eq_ok] at hg
  obtain ⟨nargs, t1, h1, hg⟩ := hg
  simp only [Res.bind_unit_eq_ok, printf_eq] at hg
  obtain ⟨t2, h2, t3, h3, h4⟩ := hg
  obtain ⟨rfl, codes, hcodes, hbal, rfl⟩ := gen_args_shape _ _ _ _ _ h1
  obtain ⟨hle, rfl⟩ := pop_args_shape _ _ _ h2
  cases h3
  cases h4
  refine ⟨by simpa using hle, codes, hcodes, hbal, ?_⟩
  simp [St.set_depth, St.emit]

theorem gen_expr_funcall_shape_witness :
    ex_call.args.length ≤ 6 ∧
    ∃ codes, ArgsCode (St.start mem0) ex_call.args codes ∧ (∀ c ∈ codes, Balanced c) ∧
      (gen_expr (some ex_call) (St.start mem0)).state =
        (St.start mem0).emit ((codes.map fun c => c ++ [push_line]).flatten ++
          pop_lines ex_call.args.length ++
          [Line.mk "mov $0, rax\n" [], Line.mk "call .L.%s\n" [Arg.str ex_call.funcname]]) :=
  gen_expr_funcall_shape ex_call (St.start mem0) _ rfl
    (Res.eq_ok_of_is_ok _ gen_expr_ex_call_is_ok)

/-- C7: for a node `x` that is a variable reference or a dereference,
`gen_expr` run on the node of `*&x` gives, from every state, the result it
gives run on `x`: the same lines are printed and the same state is left (or
the same failure is met). -/
theorem gen_expr_deref_addr (x a d : Node) (s : St)
    (hx : x.kind = NodeKind.ND_VAR ∨ x.kind = NodeKind.ND_DEREF)
    (ha : a.kind = NodeKind.ND_ADDR) (hal : a.lhs = some x)
    (hd : d.kind = NodeKind.ND_DEREF) (hdl : d.lhs = some a) :
    gen_expr (some d) s = gen_expr (some x) s := by
  rw [gen_expr_of_deref d s hd, hdl, gen_expr_of_addr a s ha, hal]
  rcases hx with hx | hx
  · rw [gen_expr_of_var x s hx]
  · rw [gen_expr_of_deref x s hx, gen_addr_of_deref x s hx]

theorem gen_expr_deref_addr_witness :
    gen_expr (some (new_unary NodeKind.ND_DEREF
        (new_unary NodeKind.ND_ADDR (new_var_node 7 2) 1) 0)) (St.start mem0) =
      gen_expr (some (new_var_node 7 2)) (St.start mem0) :=
  gen_expr_deref_addr (new_var_node 7 2) (new_unary NodeKind.ND_ADDR (new_var_node 7 2) 1)
    (new_unary NodeKind.ND_DEREF (new_unary NodeKind.ND_ADDR (new_var_node 7 2) 1) 0)
    (St.start mem0) (Or.inl rfl) rfl rfl rfl rfl

/-- C8: on a node that is neither a variable reference nor a dereference
`gen_addr` stops at once with the diagnostic "Not an lvalue" at the token of
that node, in the state it was called in; so does `gen_expr` on an address-of
node and on an assignment whose left-hand side is such a node.  On a variable
reference `gen_addr` completes and prints the one line `lea` with the offset
of the variable. -/
theorem gen_addr_not_lvalue :
    (∀ (n : Node) (s : St), n.kind ≠ NodeKind.ND_VAR → n.kind ≠ NodeKind.ND_DEREF →
      gen_addr (some n) s = Res.fail (Err.error_tok n.tok "Not an lvalue") s) ∧
    (∀ (a e : Node) (s : St), a.kind = NodeKind.ND_ADDR → a.lhs = some e →
      e.kind ≠ NodeKind.ND_VAR → e.kind ≠ NodeKind.ND_DEREF →
      gen_expr (some a) s = Res.fail (Err.error_tok e.tok "Not an lvalue") s) ∧
    (∀ (a e : Node) (s : St), a.kind = NodeKind.ND_ASSIGN → a.lhs = some e →
      e.kind ≠ NodeKind.ND_VAR → e.kind ≠ NodeKind.ND_DEREF →
      gen_expr (some a) s = Res.fail (Err.error_tok e.tok "Not an lvalue") s) ∧
    (∀ (n : Node) (v : ObjPtr) (s : St), n.kind = NodeKind.ND_VAR → n.var = some v →
      gen_addr (some n) s =
        Res.ok () (s.emit [Line.mk "lea $_%d, rax\n" [Arg.int (s.var_offset v)]])) := by
  refine ⟨fun n s h1 h2 => gen_addr_of_other n s h1 h2, ?_, ?_, ?_⟩
  · intro a e s ha hl h1 h2
    rw [gen_expr_of_addr a s ha, hl, gen_addr_of_other e s h1 h2]
  · intro a e s ha hl h1 h2
    rw [gen_expr_of_assign a s ha, hl, gen_addr_of_other e s h1 h2, Res.fail_bind]
  · intro n v s hk hv
    rw [gen_addr_of_var n v s hk hv, printf_eq]

/-- The nodes of `1 = 2` and of `&1` stop `gen_expr` with "Not an lvalue" at
the token of the literal `1`, nothing printed; the variable with offset 0 gets
one `lea` line. -/
theorem gen_addr_not_lvalue_witness :
    gen_addr (some (new_num 1 5)) (St.start mem0) =
      Res.fail (Err.error_tok 5 "Not an lvalue") (St.start mem0) ∧
    gen_expr (some (new_unary NodeKind.ND_ADDR (new_num 1 5) 4)) (St.start mem0) =
      Res.fail (Err.error_tok 5 "Not an lvalue") (St.start mem0) ∧
    gen_expr (some (new_binary NodeKind.ND_ASSIGN (new_num 1 5) (new_num 2 7) 6))
        (St.start mem0) =
      Res.fail (Err.error_tok 5 "Not an lvalue") (St.start mem0) ∧
    gen_addr (some (new_var_node 7 2)) (St.start mem0) =
      Res.ok () ((St.start mem0).emit [Line.mk "lea $_%d, rax\n" [Arg.int 0]]) :=
  ⟨gen_addr_not_lvalue.1 (new_num 1 5) _ (by decide) (by decide),
   gen_addr_not_lvalue.2.1 (new_unary NodeKind.ND_ADDR (new_num 1 5) 4) (new_num 1 5) _ rfl rfl
     (by decide) (by decide),
   gen_addr_not_lvalue.2.2.1 (new_binary NodeKind.ND_ASSIGN (new_num 1 5) (new_num 2 7) 6)
     (new_num 1 5) _ rfl rfl (by decide) (by decide),
   gen_addr_not_lvalue.2.2.2 (new_var_node 7 2) 7 _ rfl rfl⟩

/-- C9, at the failing input: handed the node of the statement `return 1;`,
whose `rhs` is `NULL`, `gen_expr` evaluates `node->rhs` before it looks for
the kind among the operators, and stops on the null pointer; no
"Invalid expression" diagnostic is reported. -/
theorem gen_expr_return_node_null_deref :
    gen_expr (some (new_unary NodeKind.ND_RETURN (new_num 1 1) 0)) (St.start mem0) =
      Res.fail Err.null_deref (St.start mem0) := by
  rw [gen_expr]
  simp [new_unary, Node.kind, Node.rhs, gen_expr_none]

/-- C10: for a program whose functions have fewer than 2^28 - 1 locals each,
the records of the locals lists being pairwise distinct,
`assign_lvar_offsets` completes and leaves in the k-th local of every
function, counted from 1, the offset 8 k: within a function the offsets are
positive multiples of 8, strictly increasing along the list and so pairwise
distinct, and they start again from 8 in every function. -/
theorem lvar_offsets_assigned (prog : List Function) (s : St)
    (hsmall : ∀ fn ∈ prog, 8 * (fn.locals.length : Int) + 16 ≤ INT_MAX)
    (hnd : (all_locals prog).Nodup) :
    ∃ prog' s', assign_lvar_offsets prog s = Res.ok prog' s' ∧
      ∀ fn ∈ prog,
        (∀ (k : Nat) (v : ObjPtr), fn.locals[k]? = some v →
          s'.var_offset v = 8 * ((k : Int) + 1) ∧ 0 < s'.var_offset v ∧
          8 ∣ s'.var_offset v) ∧
        (∀ (j k : Nat) (v w : ObjPtr), j < k → fn.locals[j]? = some v →
          fn.locals[k]? = some w → s'.var_offset v < s'.var_offset w) := by
  obtain ⟨prog', s', h⟩ := assign_lvar_offsets_total prog hsmall s
  obtain ⟨_, _, _, _, _, _, hx⟩ := assign_lvar_offsets_ok _ _ _ _ h
  refine ⟨prog', s', h, ?_⟩
  intro fn hfn
  refine ⟨?_, ?_⟩
  · intro k v hk
    have e := hx hnd fn hfn k v hk
    refine ⟨e, by rw [e]; omega, ?_⟩
    rw [e]
    exact Dvd.intro _ rfl
  · intro j k v w hjk hv hw
    rw [hx hnd fn hfn j v hv, hx hnd fn hfn k w hw]
    omega

theorem lvar_offsets_assigned_witness :
    ∃ prog' s', assign_lvar_offsets ex_prog (St.start mem0) = Res.ok prog' s' ∧
      ∀ fn ∈ ex_prog,
        (∀ (k : Nat) (v : ObjPtr), fn.locals[k]? = some v →
          s'.var_offset v = 8 * ((k : Int) + 1) ∧ 0 < s'.var_offset v ∧
          8 ∣ s'.var_offset v) ∧
        (∀ (j k : Nat) (v w : ObjPtr), j < k → fn.locals[j]? = some v →
          fn.locals[k]? = some w → s'.var_offset v < s'.var_offset w) :=
  lvar_offsets_assigned ex_prog (St.start mem0) (by decide!) (by decide)

/-- C11: on a node of one of the eight binary kinds, a completed run of
`gen_expr` has printed exactly: the code of `rhs`, `push rax`, the code of
`lhs` (run with `depth` one more), `pop rdi`, and the lines of the operator
(`op_lines`: `add`, `sub` or `imul` of `rdi` into `rax`; `cqo` and `idiv`; or
`cmp rdi, rax`, the `set` instruction of the kind and `movzb al, rax`), the
code of `rhs` before the code of `lhs`.  Conversely the run completes with
that output whenever the runs of the operands complete and `depth` has room
for the one `push`. -/
theorem gen_expr_binary_shape (n : Node) (s : St) (hk : n.kind ∈ binary_kinds) :
    (∀ s', gen_expr (some n) s = Res.ok () s' →
      ∃ lr ll, gen_expr n.rhs s = Res.ok () (s.emit lr) ∧
        gen_expr n.lhs ((s.emit (lr ++ [push_line])).set_depth (s.depth + 1)) =
          Res.ok () (((s.emit (lr ++ [push_line])).set_depth (s.depth + 1)).emit ll) ∧
        s' = s.emit (lr ++ [push_line] ++ ll ++ [pop_line "rdi"] ++ op_lines n.kind)) ∧
    (∀ lr ll, INT_MIN ≤ s.depth → s.depth + 1 ≤ INT_MAX →
      gen_expr n.rhs s = Res.ok () (s.emit lr) →
      gen_expr n.lhs ((s.emit (lr ++ [push_line])).set_depth (s.depth + 1)) =
        Res.ok () (((s.emit (lr ++ [push_line])).set_depth (s.depth + 1)).emit ll) →
      gen_expr (some n) s =
        Res.ok () (s.emit (lr ++ [push_line] ++ ll ++ [pop_line "rdi"] ++ op_lines n.kind))) :=
  ⟨fun s' h => gen_expr_binary_ok n s s' hk h,
   fun lr ll h1 h2 hr hl => gen_expr_binary_total n s lr ll hk h1 h2 hr hl⟩

/-- The lines of `1 < x`: the code of `x`, `push rax`, the code of `1`,
`pop rdi`, `cmp rdi, rax`, `setl al`, `movzb al, rax`. -/
theorem gen_expr_binary_shape_witness :
    gen_expr (some ex_less) (St.start mem0) =
      Res.ok () ((St.start mem0).emit
        ([Line.mk "lea $_%d, rax\n" [Arg.int 0], Line.mk "mov (rax), rax\n" []] ++ [push_line] ++
          [Line.mk "mov $%d, rax\n" [Arg.int 1]] ++ [pop_line "rdi"] ++
          [Line.mk "cmp rdi, rax\n" [], Line.mk "setl al\n" [], Line.mk "movzb al, rax\n" []])) :=
  (gen_expr_binary_shape ex_less (St.start mem0) (by decide)).2
    [Line.mk "lea $_%d, rax\n" [Arg.int 0], Line.mk "mov (rax), rax\n" []]
    [Line.mk "mov $%d, rax\n" [Arg.int 1]] (by decide!) (by decide!)
    (by
      show gen_expr (some (new_var_node 7 2)) _ = _
      rw [gen_expr_of_var (new_var_node 7 2) _ rfl, gen_addr_of_var (new_var_node 7 2) 7 _ rfl rfl,
        printf_eq, Res.ok_bind,
        printf_eq, St.emit_emit]
      rfl)
    (by
      show gen_expr (some (new_num 1 0)) _ = _
      rw [gen_expr_of_num (new_num 1 0) _ rfl, printf_eq]
      rfl)

/-- C12: a completed run of `gen_stmt` on an `if` node, entered with the
counter of `count` at `n`, has taken `n` first (the condition is run with the
counter at `n + 1`) and has printed exactly: the code of the condition,
`cmp $0, rax`, `je .L.else_n`, the code of the then-branch, `jmp .L.end_n`,
`.L.else_n:`, the code of the else-branch when there is one and nothing
otherwise, `.L.end_n:`; the line `.L.else_n:` occurs once in it.  Conversely
the run completes with that output whenever the counter has room and the
runs of the condition and of the branches complete. -/
theorem gen_stmt_if_exact (n : Node) (s : St) (hk : n.kind = NodeKind.ND_IF) :
    (∀ s', gen_stmt (some n) s = Res.ok () s' →
      ∃ lc lt le t1 t2,
        gen_expr n.cond (s.set_i (s.i + 1)) = Res.ok () ((s.set_i (s.i + 1)).emit lc) ∧
        gen_stmt n.then_ ((s.set_i (s.i + 1)).emit (lc ++ [cmp_zero_line, je_else_line s.i])) =
          Res.ok () t1 ∧
        t1.out = s.out ++ (lc ++ [cmp_zero_line, je_else_line s.i]) ++ lt ∧
        (n.els = none → t2 = t1.emit [jmp_end_line s.i, else_label s.i] ∧ le = []) ∧
        (n.els ≠ none →
          gen_stmt n.els (t1.emit [jmp_end_line s.i, else_label s.i]) = Res.ok () t2 ∧
          t2.out = t1.out ++ [jmp_end_line s.i, else_label s.i] ++ le) ∧
        s' = t2.emit [end_label s.i] ∧
        s'.out = s.out ++ (lc ++ [cmp_zero_line, je_else_line s.i] ++ lt ++
          [jmp_end_line s.i, else_label s.i] ++ le ++ [end_label s.i]) ∧
        (lc ++ [cmp_zero_line, je_else_line s.i] ++ lt ++
          [jmp_end_line s.i, else_label s.i] ++ le ++ [end_label s.i]).count (else_label s.i) =
          1) ∧
    (∀ lc t1 t2, INT_MIN ≤ s.i + 1 → s.i + 1 ≤ INT_MAX →
      gen_expr n.cond (s.set_i (s.i + 1)) = Res.ok () ((s.set_i (s.i + 1)).emit lc) →
      gen_stmt n.then_ ((s.set_i (s.i + 1)).emit (lc ++ [cmp_zero_line, je_else_line s.i])) =
        Res.ok () t1 →
      (if n.els.isSome then gen_stmt n.els (t1.emit [jmp_end_line s.i, else_label s.i])
        else Res.ok () (t1.emit [jmp_end_line s.i, else_label s.i])) = Res.ok () t2 →
      gen_stmt (some n) s = Res.ok () (t2.emit [end_label s.i])) := by
  refine ⟨fun s' h => ?_, fun lc t1 t2 h1 h2 hc ht he =>
    gen_stmt_if_total n s lc t1 t2 hk h1 h2 hc ht he⟩
  obtain ⟨lc, lt, le, t1, t2, a1, a2, a3, a4, a5, a6, a7, hu⟩ := gen_stmt_if_runs n s s' hk h
  refine ⟨lc, lt, le, t1, t2, a1, a2, a3, a4, a5, a6, a7, ?_⟩
  have hx := (uses_else_label s.i s.i).2 rfl
  have c1 := count_of_not_uses lc s.i (fun l hl => hu l (by simp [hl])) _ hx
  have c2 := count_of_not_uses lt s.i (fun l hl => hu l (by simp [hl])) _ hx
  have c3 := count_of_not_uses le s.i (fun l hl => hu l (by simp [hl])) _ hx
  simp only [else_label] at c1 c2 c3
  simp [List.count_append, List.count_cons, c1, c2, c3, cmp_zero_line, je_else_line,
    jmp_end_line, else_label, end_label]

/-- The statement `if (x) 1;`, which has no `else`, run with the counter
at 1. -/
theorem gen_stmt_if_exact_witness :
    ∃ lc lt le t1 t2,
      gen_expr ex_if.cond ((St.start mem0).set_i (1 + 1)) =
        Res.ok () (((St.start mem0).set_i (1 + 1)).emit lc) ∧
      gen_stmt ex_if.then_ (((St.start mem0).set_i (1 + 1)).emit
        (lc ++ [cmp_zero_line, je_else_line 1])) = Res.ok () t1 ∧
      t1.out = (St.start mem0).out ++ (lc ++ [cmp_zero_line, je_else_line 1]) ++ lt ∧
      (ex_if.els = none → t2 = t1.emit [jmp_end_line 1, else_label 1] ∧ le = []) ∧
      (ex_if.els ≠ none →
        gen_stmt ex_if.els (t1.emit [jmp_end_line 1, else_label 1]) = Res.ok () t2 ∧
        t2.out = t1.out ++ [jmp_end_line 1, else_label 1] ++ le) ∧
      (gen_stmt (some ex_if) (St.start mem0)).state = t2.emit [end_label 1] ∧
      (gen_stmt (some ex_if) (St.start mem0)).state.out = (St.start mem0).out ++
        (lc ++ [cmp_zero_line, je_else_line 1] ++ lt ++
          [jmp_end_line 1, else_label 1] ++ le ++ [end_label 1]) ∧
      (lc ++ [cmp_zero_line, je_else_line 1] ++ lt ++
        [jmp_end_line 1, else_label 1] ++ le ++ [end_label 1]).count (else_label 1) = 1 :=
  (gen_stmt_if_exact ex_if (St.start mem0) rfl).1 _
    (Res.eq_ok_of_is_ok _ gen_stmt_ex_if_is_ok)

/-- C13: a completed run of `gen_stmt` on a `for` node, entered with the
counter of `count` at `n`, has printed exactly: the code of the init
statement when there is one, `.L.begin_n:`, then, only when there is a
condition, the code of the condition, `cmp $0, rax` and `je .L.end_n`, then
the code of the body, the code of the increment when there is one,
`jmp .L.begin_n`, `.L.end_n:`.  The line `.L.begin_n:` occurs once, after the
code of the init statement; without a condition no line between it and the
back jump names a label with the number `n`.  Conversely the run completes
with that output whenever the counter has room and the runs of the parts
complete. -/
theorem gen_stmt_for_exact (n : Node) (s : St) (hk : n.kind = NodeKind.ND_FOR) :
    (∀ s', gen_stmt (some n) s = Res.ok () s' →
      ∃ li lc lb ln t1 t2,
        (n.init = none → t1 = s.set_i (s.i + 1) ∧ li = []) ∧
        (n.init ≠ none →
          gen_stmt n.init (s.set_i (s.i + 1)) = Res.ok () t1 ∧ t1.out = s.out ++ li) ∧
        (n.cond = none → lc = []) ∧
        (n.cond ≠ none → ∃ e,
          gen_expr n.cond (t1.emit [begin_label s.i]) =
            Res.ok () ((t1.emit [begin_label s.i]).emit e) ∧
          lc = e ++ [cmp_zero_line, je_end_line s.i]) ∧
        gen_stmt n.then_ (t1.emit ([begin_label s.i] ++ lc)) = Res.ok () t2 ∧
        t2.out = t1.out ++ ([begin_label s.i] ++ lc) ++ lb ∧
        (n.inc = none → ln = []) ∧
        (n.inc ≠ none → gen_expr n.inc t2 = Res.ok () (t2.emit ln)) ∧
        s' = t2.emit (ln ++ [jmp_begin_line s.i, end_label s.i]) ∧
        s'.out = s.out ++ (li ++ [begin_label s.i] ++ lc ++ lb ++ ln ++
          [jmp_begin_line s.i, end_label s.i]) ∧
        (li ++ [begin_label s.i] ++ lc ++ lb ++ ln ++
          [jmp_begin_line s.i, end_label s.i]).count (begin_label s.i) = 1 ∧
        (n.cond = none → ∀ l ∈ lc ++ lb ++ ln, ¬ l.uses s.i)) ∧
    (∀ t1 t2 t3 t4, INT_MIN ≤ s.i + 1 → s.i + 1 ≤ INT_MAX →
      (if n.init.isSome then gen_stmt n.init (s.set_i (s.i + 1))
        else Res.ok () (s.set_i (s.i + 1))) = Res.ok () t1 →
      (if n.cond.isSome then
          (gen_expr n.cond (t1.emit [begin_label s.i])).bind fun _ s1 =>
            Res.ok () (s1.emit [cmp_zero_line, je_end_line s.i])
        else Res.ok () (t1.emit [begin_label s.i])) = Res.ok () t2 →
      gen_stmt n.then_ t2 = Res.ok () t3 →
      (if n.inc.isSome then gen_expr n.inc t3 else Res.ok () t3) = Res.ok () t4 →
      gen_stmt (some n) s = Res.ok () (t4.emit [jmp_begin_line s.i, end_label s.i])) := by
  refine ⟨fun s' h => ?_, fun t1 t2 t3 t4 h1 h2 hi hc hb hn =>
    gen_stmt_for_total n s t1 t2 t3 t4 hk h1 h2 hi hc hb hn⟩
  obtain ⟨li, lc, lb, ln, t1, t2, a1, a2, a3, a4, a5, a6, a7, a8, a9, a10, hu, hcu⟩ :=
    gen_stmt_for_runs n s s' hk h
  refine ⟨li, lc, lb, ln, t1, t2, a1, a2, a3, a4, a5, a6, a7, a8, a9, a10, ?_, ?_⟩
  · have hx := (uses_begin_label s.i s.i).2 rfl
    have c1 := count_of_not_uses li s.i (fun l hl => hu l (by simp [hl])) _ hx
    have c2 := count_of_not_uses lb s.i (fun l hl => hu l (by simp [hl])) _ hx
    have c3 := count_of_not_uses ln s.i (fun l hl => hu l (by simp [hl])) _ hx
    have c4 : lc.count (begin_label s.i) = 0 := by
      refine List.count_eq_zero.2 fun hm => ?_
      have := hcu _ hm hx
      simp [begin_label, je_end_line] at this
    simp only [begin_label] at c1 c2 c3 c4
    simp [List.count_append, List.count_cons, c1, c2, c3, c4, jmp_begin_line, begin_label,
      end_label]
  · intro hc l hl
    rw [a3 hc] at hl
    exact hu l (by
      simp only [List.nil_append, List.mem_append] at hl ⊢
      rcases hl with hl | hl
      · exact Or.inl (Or.inr hl)
      · exact Or.inr hl)

/-- The statement `for (;;) 1;` run with the counter at 1. -/
theorem gen_stmt_for_exact_witness :
    ∃ li lc lb ln t1 t2,
      (ex_for.init = none → t1 = (St.start mem0).set_i (1 + 1) ∧ li = []) ∧
      (ex_for.init ≠ none →
        gen_stmt ex_for.init ((St.start mem0).set_i (1 + 1)) = Res.ok () t1 ∧
        t1.out = (St.start mem0).out ++ li) ∧
      (ex_for.cond = none → lc = []) ∧
      (ex_for.cond ≠ none → ∃ e,
        gen_expr ex_for.cond (t1.emit [begin_label 1]) =
          Res.ok () ((t1.emit [begin_label 1]).emit e) ∧
        lc = e ++ [cmp_zero_line, je_end_line 1]) ∧
      gen_stmt ex_for.then_ (t1.emit ([begin_label 1] ++ lc)) = Res.ok () t2 ∧
      t2.out = t1.out ++ ([begin_label 1] ++ lc) ++ lb ∧
      (ex_for.inc = none → ln = []) ∧
      (ex_for.inc ≠ none → gen_expr ex_for.inc t2 = Res.ok () (t2.emit ln)) ∧
      (gen_stmt (some ex_for) (St.start mem0)).state =
        t2.emit (ln ++ [jmp_begin_line 1, end_label 1]) ∧
      (gen_stmt (some ex_for) (St.start mem0)).state.out = (St.start mem0).out ++
        (li ++ [begin_label 1] ++ lc ++ lb ++ ln ++ [jmp_begin_line 1, end_label 1]) ∧
      (li ++ [begin_label 1] ++ lc ++ lb ++ ln ++
        [jmp_begin_line 1, end_label 1]).count (begin_label 1) = 1 ∧
      (ex_for.cond = none → ∀ l ∈ lc ++ lb ++ ln, ¬ l.uses 1) :=
  (gen_stmt_for_exact ex_for (St.start mem0) rfl).1 _
    (Res.eq_ok_of_is_ok _ gen_stmt_ex_for_is_ok)

/-- C14: when `codegen` completes, every function of the program has at most
six parameters and the output is the concatenation, in the order of the
functions, of one segment per function; a segment is exactly: the entry label
`.L.<name>:`, `push rbp`, `mov rsp, rbp`, `sub $<stack_size>, rsp`, then for
the i-th parameter the line that moves `argreg[i]` to the offset of the
parameter, then the lines of `gen_stmt` for the body, then the return label
`.L.return_<name>:`, `mov rbp, rsp`, `pop rbp`, `ret`.  In a segment one line
is printed as an entry label and one as a return label, and there is one
`mov` line per parameter. -/
theorem codegen_layout (prog : List Function) (s s' : St)
    (h : codegen prog s = Res.ok () s') :
    (∀ fn ∈ prog, fn.params.length ≤ 6) ∧
    ∃ prog' t bodies,
      assign_lvar_offsets prog s = Res.ok prog' t ∧
      (∀ (k : Nat) (fn' : Function), prog'[k]? = some fn' →
        ∃ fn, prog[k]? = some fn ∧ fn' = { fn with stack_size := fn'.stack_size }) ∧
      prog'.length = prog.length ∧ bodies.length = prog.length ∧
      BodiesCode t prog' bodies ∧
      s'.out = s.out ++ (List.zipWith (segment t.var_offset) prog' bodies).flatten ∧
      ∀ fn' b, (fn', b) ∈ prog'.zip bodies →
        (param_moves t.var_offset fn'.params).length = fn'.params.length ∧
        (segment t.var_offset fn' b).countP (fun l => l.fmt = ".L.%s:\n") = 1 ∧
        (segment t.var_offset fn' b).countP (fun l => l.fmt = ".L.return_%s:\n") = 1 := by
  unfold codegen at h
  rw [Res.bind_eq_ok] at h
  obtain ⟨prog', t, ha, h⟩ := h
  obtain ⟨_, _, ho, _, hl, _⟩ := assign_lvar_offsets_ok _ _ _ _ ha
  obtain ⟨hlen, hget⟩ := laid_getElem _ _ hl
  obtain ⟨hp, bodies, hb, hout⟩ := codegen_fns_segments _ _ _ h
  have hblen := BodiesCode.length_eq _ _ _ hb
  refine ⟨?_, prog', t, bodies, ha, laid_right _ _ hl, hlen.symm, by rw [hblen, hlen], hb,
    by rw [hout, ho], ?_⟩
  · intro fn hfn
    obtain ⟨k, hk, rfl⟩ := List.mem_iff_getElem.1 hfn
    have hk' : k < prog'.length := by omega
    have e := (hget k prog[k] prog'[k] (by simp [hk]) (by simp [hk'])).1
    have := hp prog'[k] (List.getElem_mem hk')
    rw [e] at this
    exact this
  · intro fn' b hm
    obtain ⟨i, j, hc⟩ := BodiesCode.stmt_code _ _ _ hb fn' b hm
    obtain ⟨c1, c2⟩ := segment_labels t.var_offset fn' b i j hc
    exact ⟨param_moves_length _ _ (hp fn' (List.of_mem_zip hm).1), c1, c2⟩

/-- The program `ex_prog`, of two functions. -/
theorem codegen_layout_witness :
    (∀ fn ∈ ex_prog, fn.params.length ≤ 6) ∧
    ∃ prog' t bodies,
      assign_lvar_offsets ex_prog (St.start mem0) = Res.ok prog' t ∧
      (∀ (k : Nat) (fn' : Function), prog'[k]? = some fn' →
        ∃ fn, ex_prog[k]? = some fn ∧ fn' = { fn with stack_size := fn'.stack_size }) ∧
      prog'.length = ex_prog.length ∧ bodies.length = ex_prog.length ∧
      BodiesCode t prog' bodies ∧
      (codegen ex_prog (St.start mem0)).state.out =
        (St.start mem0).out ++ (List.zipWith (segment t.var_offset) prog' bodies).flatten ∧
      ∀ fn' b, (fn', b) ∈ prog'.zip bodies →
        (param_moves t.var_offset fn'.params).length = fn'.params.length ∧
        (segment t.var_offset fn' b).countP (fun l => l.fmt = ".L.%s:\n") = 1 ∧
        (segment t.var_offset fn' b).countP (fun l => l.fmt = ".L.return_%s:\n") = 1 :=
  codegen_layout ex_prog (St.start mem0) _ codegen_ex_prog

/-- C15, at the failing input: the functions of `ex_clash` have the distinct
names `f` and `return_f`; `codegen` completes on the program, and the lines 6
and 10 of its output are the same label definition `.L.return_f:`, once the
return label of `f` and once the entry label of `return_f`. -/
theorem codegen_label_clash :
    (ex_clash.map Function.name).Nodup ∧
    (codegen ex_clash (St.start mem0)).is_ok = true ∧
    ((codegen ex_clash (St.start mem0)).out.map Line.text)[6]? = some ".L.return_f:\n" ∧
    ((codegen ex_clash (St.start mem0)).out.map Line.text)[10]? = some ".L.return_f:\n" := by
  refine ⟨by decide, codegen_ex_clash_is_ok, ?_, ?_⟩
  · rw [codegen_ex_clash_text]; rfl
  · rw [codegen_ex_clash_text]; rfl

/-- C16: whatever the outcome of a run of `gen_expr` or of `gen_stmt`,
completed or stopped at any point, every prefix of the lines it has printed
holds at least as many lines of `push` as lines of `pop`, and `depth` is not
below its value at the start: it is that value plus the lines of `push` minus
the lines of `pop` printed so far (but where the run stopped on the overflow
of an `int`), and that value again when the run completes.  The same holds of
`codegen`, so that from `depth` 0 the counter is never negative. -/
theorem depth_never_negative :
    (∀ (node : Option Node) (s : St), ∃ ls, (gen_expr node s).state.out = s.out ++ ls ∧
      (∀ k, (ls.take k).countP Line.by_pop ≤ (ls.take k).countP Line.by_push) ∧
      s.depth ≤ (gen_expr node s).state.depth ∧
      ((gen_expr node s).is_ok = true → (gen_expr node s).state.depth = s.depth) ∧
      ((gen_expr node s).err ≠ some Err.int_overflow →
        (gen_expr node s).state.depth =
          s.depth + ls.countP Line.by_push - ls.countP Line.by_pop)) ∧
    (∀ (node : Option Node) (s : St), ∃ ls, (gen_stmt node s).state.out = s.out ++ ls ∧
      (∀ k, (ls.take k).countP Line.by_pop ≤ (ls.take k).countP Line.by_push) ∧
      s.depth ≤ (gen_stmt node s).state.depth ∧
      ((gen_stmt node s).is_ok = true → (gen_stmt node s).state.depth = s.depth) ∧
      ((gen_stmt node s).err ≠ some Err.int_overflow →
        (gen_stmt node s).state.depth =
          s.depth + ls.countP Line.by_push - ls.countP Line.by_pop)) ∧
    (∀ (prog : List Function) (s : St), s.depth = 0 →
      ∃ ls, (codegen prog s).state.out = s.out ++ ls ∧
      (∀ k, (ls.take k).countP Line.by_pop ≤ (ls.take k).countP Line.by_push) ∧
      0 ≤ (codegen prog s).state.depth ∧
      ((codegen prog s).is_ok = true → (codegen prog s).state.depth = 0) ∧
      ((codegen prog s).err ≠ some Err.int_overflow →
        (codegen prog s).state.depth = ls.countP Line.by_push - ls.countP Line.by_pop)) := by
  refine ⟨fun node s => Tracks.spell s _ (gen_expr_tracks node s),
    fun node s => Tracks.spell s _ (gen_stmt_tracks node s), ?_⟩
  intro prog s h0
  obtain ⟨ls, h1, h2, h3, h4, h5⟩ := Tracks.spell s _ (codegen_tracks prog s)
  rw [h0] at h3 h4 h5
  exact ⟨ls, h1, h2, h3, h4, fun he => by rw [h5 he]; ring⟩

/-- The program `ex_prog` from the state at program start. -/
theorem depth_never_negative_witness :
    ∃ ls, (codegen ex_prog (St.start mem0)).state.out = (St.start mem0).out ++ ls ∧
    (∀ k, (ls.take k).countP Line.by_pop ≤ (ls.take k).countP Line.by_push) ∧
    0 ≤ (codegen ex_prog (St.start mem0)).state.depth ∧
    ((codegen ex_prog (St.start mem0)).is_ok = true →
      (codegen ex_prog (St.start mem0)).state.depth = 0) ∧
    ((codegen ex_prog (St.start mem0)).err ≠ some Err.int_overflow →
      (codegen ex_prog (St.start mem0)).state.depth =
        ls.countP Line.by_push - ls.countP Line.by_pop) :=
  depth_never_negative.2.2 ex_prog (St.start mem0) rfl

/-- C18: `argreg` has six entries.  For a call node with at most six
arguments the second loop of the call is entered with `nargs` the number of
arguments and never stops on a read of `argreg` past its end; when it
completes it has printed `pop argreg[nargs-1]`, ..., `pop argreg[0]`, lines
that are pairwise distinct.  For a function with at most six parameters the
parameter loop of `codegen` completes, having printed one `mov` from
`argreg[i]` for the i-th parameter.  On the call `f(1, 2, 3, 4, 5, 6, 7)`, of
seven arguments, `gen_expr` stops on the read of `argreg[6]`, the first read
of the loop, having printed no line of `pop`. -/
theorem argreg_reads_in_range :
    argreg.length = 6 ∧
    (∀ (n : Node) (s t : St) (nargs : Nat), n.args.length ≤ 6 →
      gen_args n.args 0 s = Res.ok nargs t →
      nargs = n.args.length ∧
      (∀ i t', pop_args nargs t ≠ Res.fail (Err.out_of_bounds i) t') ∧
      ∀ t', pop_args nargs t = Res.ok () t' →
        t'.out = t.out ++ pop_lines nargs ∧ (pop_lines nargs).Nodup) ∧
    (∀ (params : List ObjPtr) (s : St), params.length ≤ 6 →
      save_params params 0 s = Res.ok () (s.emit (param_moves s.var_offset params))) ∧
    (ex_call7.kind = NodeKind.ND_FUNCALL ∧ ex_call7.args.length = 7 ∧
      (gen_expr (some ex_call7) (St.start mem0)).err = some (Err.out_of_bounds 6) ∧
      (gen_expr (some ex_call7) (St.start mem0)).out.countP Line.by_pop = 0) := by
  refine ⟨rfl, ?_, ?_, rfl, rfl, gen_expr_ex_call7_err, by rw [gen_expr_ex_call7_out]; decide⟩
  · intro n s t nargs hn hg
    obtain ⟨e, _⟩ := gen_args_shape _ _ _ _ _ hg
    have e' : nargs = n.args.length := by omega
    refine ⟨e', fun i t' => pop_args_never_out_of_bounds nargs (by omega) t i t', ?_⟩
    intro t' hp
    obtain ⟨_, rfl⟩ := pop_args_shape _ _ _ hp
    exact ⟨rfl, pop_lines_nodup nargs⟩
  · intro params s hp
    rw [save_params_total params 0 s (by omega), param_lines_eq_moves _ _ hp]

/-- The arguments of the call `f(1)` and the parameters of `f (a)`. -/
theorem argreg_reads_in_range_witness :
    (1 = ex_call1.args.length ∧
      (∀ i t', pop_args 1 ex_after_args ≠ Res.fail (Err.out_of_bounds i) t') ∧
      ∀ t', pop_args 1 ex_after_args = Res.ok () t' →
        t'.out = ex_after_args.out ++ pop_lines 1 ∧ (pop_lines 1).Nodup) ∧
    save_params [1] 0 (St.start mem0) =
      Res.ok () ((St.start mem0).emit (param_moves (St.start mem0).var_offset [1])) :=
  ⟨argreg_reads_in_range.2.1 ex_call1 (St.start mem0) ex_after_args 1 (by decide)
      (gen_args_one_num 1 1 (St.start mem0) (by decide!) (by decide!)),
   argreg_reads_in_range.2.2.1 [1] (St.start mem0) (by decide)⟩

/-- C19: in the lines of a completed run of `gen_stmt` on any node, every
jump `je .L.else_n`, `jmp .L.end_n`, `je .L.end_n` or `jmp .L.begin_n` has
exactly one definition of its label among these lines; the same holds of the
lines of the body of every function in a completed run of `codegen`, and of
the whole output.  The jumps an `if` or `for` node prints itself carry the
number the node took from the counter, and the node prints the definitions
of their labels itself, after the jumps to `.L.else_n` and `.L.end_n` and
before the jump to `.L.begin_n`. -/
theorem if_for_jumps_matched :
    (∀ (node : Option Node) (s s' : St), gen_stmt node s = Res.ok () s' →
      ∃ ls, s'.out = s.out ++ ls ∧
        ∀ x : Int, (je_else_line x ∈ ls → ls.count (else_label x) = 1) ∧
          (jmp_end_line x ∈ ls → ls.count (end_label x) = 1) ∧
          (je_end_line x ∈ ls → ls.count (end_label x) = 1) ∧
          (jmp_begin_line x ∈ ls → ls.count (begin_label x) = 1)) ∧
    (∀ (prog : List Function) (s s' : St), codegen prog s = Res.ok () s' →
      ∃ prog' t bodies, assign_lvar_offsets prog s = Res.ok prog' t ∧
        BodiesCode t prog' bodies ∧
        (∃ ls, ls = (List.zipWith (segment t.var_offset) prog' bodies).flatten ∧
          s'.out = s.out ++ ls ∧
          ∀ x : Int, (je_else_line x ∈ ls → ls.count (else_label x) = 1) ∧
            (jmp_end_line x ∈ ls → ls.count (end_label x) = 1) ∧
            (je_end_line x ∈ ls → ls.count (end_label x) = 1) ∧
            (jmp_begin_line x ∈ ls → ls.count (begin_label x) = 1)) ∧
        ∀ fn b, (fn, b) ∈ prog'.zip bodies →
          ∀ x : Int, (je_else_line x ∈ b → b.count (else_label x) = 1) ∧
            (jmp_end_line x ∈ b → b.count (end_label x) = 1) ∧
            (je_end_line x ∈ b → b.count (end_label x) = 1) ∧
            (jmp_begin_line x ∈ b → b.count (begin_label x) = 1)) ∧
    (∀ (n : Node) (s s' : St), n.kind = NodeKind.ND_IF → gen_stmt (some n) s = Res.ok () s' →
      ∃ a b c, s'.out = s.out ++ a ++ [cmp_zero_line, je_else_line s.i] ++ b ++
          [jmp_end_line s.i, else_label s.i] ++ c ++ [end_label s.i] ∧
        ∀ l ∈ a ++ b ++ c, ¬ l.uses s.i) ∧
    (∀ (n : Node) (s s' : St), n.kind = NodeKind.ND_FOR → gen_stmt (some n) s = Res.ok () s' →
      ∃ a cnd b, s'.out = s.out ++ a ++ [begin_label s.i] ++ cnd ++ b ++
          [jmp_begin_line s.i, end_label s.i] ∧
        (∀ l ∈ a ++ b, ¬ l.uses s.i) ∧
        ∀ l ∈ cnd, l.uses s.i → l = je_end_line s.i) := by
  refine ⟨?_, fun prog s s' h => codegen_jumps_matched prog s s' h,
    fun n s s' hk h => gen_stmt_if_shape n s s' hk h,
    fun n s s' hk h => gen_stmt_for_shape n s s' hk h⟩
  intro node s s' h
  obtain ⟨ls, rfl, hc⟩ := gen_stmt_ok _ _ _ h
  exact ⟨ls, rfl, hc.jumps_matched⟩

/-- The program `ex_prog`, whose function `main` has an `if` and a `for`. -/
theorem if_for_jumps_matched_witness :
    ∃ prog' t bodies, assign_lvar_offsets ex_prog (St.start mem0) = Res.ok prog' t ∧
      BodiesCode t prog' bodies ∧
      (∃ ls, ls = (List.zipWith (segment t.var_offset) prog' bodies).flatten ∧
        (codegen ex_prog (St.start mem0)).state.out = (St.start mem0).out ++ ls ∧
        ∀ x : Int, (je_else_line x ∈ ls → ls.count (else_label x) = 1) ∧
          (jmp_end_line x ∈ ls → ls.count (end_label x) = 1) ∧
          (je_end_line x ∈ ls → ls.count (end_label x) = 1) ∧
          (jmp_begin_line x ∈ ls → ls.count (begin_label x) = 1)) ∧
      ∀ fn b, (fn, b) ∈ prog'.zip bodies →
        ∀ x : Int, (je_else_line x ∈ b → b.count (else_label x) = 1) ∧
          (jmp_end_line x ∈ b → b.count (end_label x) = 1) ∧
          (je_end_line x ∈ b → b.count (end_label x) = 1) ∧
          (jmp_begin_line x ∈ b → b.count (begin_label x) = 1) :=
  if_for_jumps_matched.2.1 ex_prog (St.start mem0) _ codegen_ex_prog

/-- C20: for `n ≥ 0` and `align > 0` with `n + align - 1` in the range of
`int`, `align_to (n, align)` is defined and is the least multiple of `align`
that is at least `n`: it is divisible by `align`, lies in `[n, n + align)`,
and is `n` itself when `n` is a multiple of `align`.  In particular
`align_to (5, 8)` is 8 and `align_to (11, 8)` is 16; and at the end of the
range, where `n + align - 1` is `INT_MAX`, `align_to (2147483640, 8)` is
2147483640. -/
theorem align_to_least_multiple :
    (∀ n align : Int, 0 ≤ n → 0 < align → n + align - 1 ≤ INT_MAX →
      ∃ r, align_to n align = some r ∧ align ∣ r ∧ n ≤ r ∧ r < n + align ∧
        (∀ m : Int, align ∣ m → n ≤ m → r ≤ m) ∧ (align ∣ n → r = n)) ∧
    align_to 5 8 = some 8 ∧ align_to 11 8 = some 16 ∧
    align_to 2147483640 8 = some 2147483640 := by
  refine ⟨?_, by decide!, by decide!, by decide!⟩
  intro n align hn ha h
  obtain ⟨h1, h2, h3, h4⟩ := round_up_least n align ha
  refine ⟨_, align_to_eq n align hn ha h, h1, h2, h3, h4, ?_⟩
  intro hd
  exact le_antisymm (h4 n hd (le_refl n)) h2

/-- At `n = 2147483641` and `align = 7`, where `n + align - 1` is `INT_MAX`
and the sum `n + align` wraps around. -/
theorem align_to_least_multiple_witness :
    ∃ r, align_to 2147483641 7 = some r ∧ (7 : Int) ∣ r ∧ 2147483641 ≤ r ∧
      r < 2147483641 + 7 ∧ (∀ m : Int, 7 ∣ m → 2147483641 ≤ m → r ≤ m) ∧
      ((7 : Int) ∣ 2147483641 → r = 2147483641) :=
  align_to_least_multiple.1 2147483641 7 (by decide) (by decide) (by decide!)

end Chibicc

